import Mathlib

/-!
# Verification of the libdatrie-rs double-array trie engine

Shallow embedding of the core of the `libdatrie-rs` repository
(`src/alpha_map.rs`, `src/darray.rs`, `src/trie.rs`, `src/types.rs`) and
proofs about the claims of its specification.

Machine integers are modelled as `ℕ` (for `u32`/`u8` values) and `ℤ`
(for `i32` values), with explicit `% 2^32` wrapping where the source
performs wrapping arithmetic.
-/

namespace Datrie

/-- `2^32`, the modulus of `u32` (`AlphaChar`) arithmetic. -/
def U32MOD : ℕ := 4294967296

/-- `ALPHA_CHAR_ERROR = AlphaChar::MAX` (src/types.rs). -/
def ALPHA_CHAR_ERROR : ℕ := 4294967295

/-- `TRIE_INDEX_MAX = 0x7fffffff` (src/types.rs). -/
def TRIE_INDEX_MAX : ℤ := 2147483647

/-- `TRIE_INDEX_ERROR = 0` (src/types.rs). -/
def TRIE_INDEX_ERROR : ℤ := 0

/-- `TRIE_CHAR_TERM = 0` (src/types.rs). -/
def TRIE_CHAR_TERM : ℕ := 0

/-- `TRIE_CHAR_MAX = u8::MAX = 255` (src/types.rs). -/
def TRIE_CHAR_MAX : ℕ := 255

/-- An alphabet range: the `begin`/`end` pair of `AlphaRange`
(src/alpha_map.rs).  Both components are `u32` values. -/
abbrev ARange := ℕ × ℕ

/-- Wrapping `u32` increment, as in the `(*r).end + 1` arithmetic of
`alpha_map_add_range_only` (release-mode `u32` semantics). -/
def w1 (x : ℕ) : ℕ := (x + 1) % U32MOD

/-!
## alpha_map_add_range_only (src/alpha_map.rs lines 295-390)

The C-style source walks a sorted singly-linked list of ranges with
pointers `q` (previous node), `r` (current node), `begin_node` and
`end_node`.  The embedding below replays the same traversal on a `List
ARange` zipper: `pre` is the reversed list of nodes already passed
(whose head is `q`), `cur` is the list from `r` on.  `begin_node`,
once assigned, is always the node at which phase 3 starts, so it is
tracked as a `Bool` plus its (stable) index in the surviving list;
`end_node` is tracked by its index in the surviving list.
-/

/-- Result of `alpha_map_add_range_only`: `err` is the `-1` return (the
range list is unchanged), `ok l` is the `0` return with the mutated
range list `l`, `panic` is the `begin_node->next == end_node`
assertion failure. -/
inductive AROut where
  | err : AROut
  | ok : List ARange → AROut
  | panic : AROut
deriving DecidableEq, Repr

/-- Phases 1 of `alpha_map_add_range_only`: walk while
`r.begin <= begin`, looking for `begin_node`.  Returns the reversed
prefix of passed nodes, whether `begin_node` was found (it is then the
head of the returned rest), and the rest of the list (head possibly
mutated). -/
def aroPhase1 (bg : ℕ) : List ARange → List ARange → List ARange × Bool × List ARange
  | pre, [] => (pre, false, [])
  | pre, r :: tl =>
    if r.1 ≤ bg then
      if bg ≤ r.2 then (pre, true, r :: tl)
      else if w1 r.2 = bg then (pre, true, (r.1, bg) :: tl)
      else aroPhase1 bg (r :: pre) tl
    else (pre, false, r :: tl)

/-- Phase 3 of `alpha_map_add_range_only`: walk while
`r.begin <= end + 1`, recording `end_node` (as its index in the
surviving list) and unlinking covered ranges other than `begin_node`.
`bn` is true exactly when the head of `cur` is `begin_node` (only
possible on the first iteration). -/
def aroPhase3 (ed : ℕ) : Bool → List ARange → Option ℕ → List ARange →
    List ARange × Option ℕ × List ARange
  | _, pre, en, [] => (pre, en, [])
  | bn, pre, en, r :: tl =>
    if r.1 ≤ w1 ed then
      if ed ≤ r.2 then aroPhase3 ed false (r :: pre) (some pre.length) tl
      else if bn then aroPhase3 ed false (r :: pre) en tl
      else aroPhase3 ed false pre en tl
    else (pre, en, r :: tl)

/-- Phase 5 merge of `alpha_map_add_range_only`: when `begin_node` and
`end_node` are distinct, the source asserts `begin_node->next ==
end_node` and then absorbs `end_node` into `begin_node`. -/
def aroMerge (l : List ARange) (bpos epos : ℕ) : AROut :=
  if bpos = epos then .ok l
  else if epos = bpos + 1 then
    match l.get? bpos, l.get? epos with
    | some rb, some re => .ok (l.take bpos ++ [(rb.1, re.2)] ++ l.drop (epos + 1))
    | _, _ => .panic
  else .panic

/-- Phase 5 of `alpha_map_add_range_only`: merge `begin_node` with
`end_node` when both exist, insert a fresh range when neither does. -/
def aroPhase5 (bg ed : ℕ) (bset : Bool) (bpos : ℕ) (en4 : Option ℕ)
    (pre4 rest3 : List ARange) : AROut :=
  match bset, en4 with
  | true, some epos => aroMerge (pre4.reverse ++ rest3) bpos epos
  | false, none => .ok (pre4.reverse ++ [(bg, ed)] ++ rest3)
  | _, _ => .ok (pre4.reverse ++ rest3)

/-- `alpha_map_add_range_only` (src/alpha_map.rs lines 295-390). -/
def alpha_map_add_range_only (ranges : List ARange) (bg ed : ℕ) : AROut :=
  if bg > ed then .err
  else
    -- phase 1
    let (pre1, bset1, rest1) := aroPhase1 bg [] ranges
    -- phase 2
    let (bset, rest2) :=
      match bset1, rest1 with
      | false, r :: tl => if r.1 ≤ w1 ed then (true, (bg, r.2) :: tl) else (false, r :: tl)
      | b, rest => (b, rest)
    -- phase 3
    let (pre3, en, rest3) := aroPhase3 ed bset pre1 none rest2
    -- phase 4
    let (pre4, en4) :=
      match en, pre3 with
      | none, q :: tl => if bg ≤ q.2 then (((q.1, ed) :: tl), some tl.length) else (q :: tl, none)
      | e, p => (p, e)
    -- phase 5
    aroPhase5 bg ed bset pre1.length en4 pre4 rest3

/-!
## alpha_map_recalc_work_area (src/alpha_map.rs lines 392-493)

The work area is a pure function of the range list, so it is embedded
as such.  Besides the successful recomputation there are two abnormal
outcomes, distinguished in the order the source reaches them:

* `.fail`: the `u32` span `alpha_end - alpha_begin + 1` reinterpreted
  as an `i32` is negative (`n_alpha >= 2^31` as a `u32`), so the
  `malloc` of `n_alpha as c_ulong * 4` bytes (sign-extended, at least
  `2^64 - 2^33`) fails deterministically and the source returns `-1`
  (lines 435-440, 489).  This check happens before the assignment
  loop runs;
* `.diverge`: the mallocs succeed but some range has
  `end = 2^32 - 1` (the `a <= range.end` loop with wrapping `a` never
  exits), or the span wraps to `0` (only from `begin = 0`,
  `end = 2^32 - 1`, where the zero-sized `malloc` succeeds and the
  same loop is reached): the source never returns.

Table writes are modelled with `List.set`, which drops out-of-bounds
writes; those can only arise from range lists on which the original code has UB, i.e. its
raw-pointer writes are undefined behaviour. -/

/-- Outcome of `alpha_map_recalc_work_area` restricted to a non-empty
range list: a recomputed work area, the `-1` return from the failing
`malloc`, or the non-terminating assignment loop. -/
inductive RecalcOut where
  | ok : ℕ × ℕ × List ℤ × List ℕ → RecalcOut
  | fail : RecalcOut
  | diverge : RecalcOut
deriving DecidableEq, Repr

/-- One character step of the table-assignment loop of
`alpha_map_recalc_work_area`: state is `(trie_char, alpha_to_trie,
trie_to_alpha)`. -/
def recalcStep (alphaBegin : ℕ) (st : ℕ × List ℤ × List ℕ) (a : ℕ) :
    ℕ × List ℤ × List ℕ :=
  let tc := if TRIE_CHAR_TERM = st.1 then st.1 + 1 else st.1
  (tc + 1, st.2.1.set ((a + U32MOD - alphaBegin) % U32MOD) (tc : ℤ), st.2.2.set tc a)

/-- The characters of one range, in ascending order (the inner
`while a <= range.end` loop; well-defined since `range.end < 2^32-1`
is checked by the caller). -/
def rangeChars (r : ARange) : List ℕ :=
  (List.range (r.2 + 1 - r.1)).map (r.1 + ·)

/-- `alpha_map_recalc_work_area` (src/alpha_map.rs lines 392-493),
restricted to a non-empty range list.  Returns
`(alpha_begin, alpha_end, alpha_to_trie, trie_to_alpha)`.
`nTrieOf` is the `n_trie` adjustment (floor at `TRIE_CHAR_TERM + 1`,
with the accumulated `u32` count reinterpreted as `i32`). -/
def nTrieOf (nTrie0 : ℕ) : ℕ :=
  if (nTrie0 : ℤ) - (if nTrie0 < 2 ^ 31 then 0 else (U32MOD : ℤ))
      < (TRIE_CHAR_TERM : ℤ)
  then TRIE_CHAR_TERM + 1 else nTrie0 + 1

def recalcNonempty (r0 : ARange) (rs : List ARange) : RecalcOut :=
  let ranges := r0 :: rs
  let alphaBegin := r0.1
  let alphaEnd := (rs.getLastD r0).2
  let nTrie0 : ℕ := (ranges.map (fun r => (r.2 + U32MOD - r.1 + 1) % U32MOD)).sum % U32MOD
  let nTrie : ℕ := nTrieOf nTrie0
  let nAlpha : ℕ := (alphaEnd + U32MOD - alphaBegin + 1) % U32MOD
  if 2 ^ 31 ≤ nAlpha then .fail
  else if ranges.any (fun r => r.2 = ALPHA_CHAR_ERROR) then .diverge
  else if nAlpha = 0 then .diverge
  else
    let a2t0 : List ℤ := List.replicate nAlpha TRIE_INDEX_MAX
    let t2a0 : List ℕ := List.replicate nTrie ALPHA_CHAR_ERROR
    let st := (ranges.flatMap rangeChars).foldl (recalcStep alphaBegin) (0, a2t0, t2a0)
    -- trailing fill with ALPHA_CHAR_ERROR (indices st.1 ..< nTrie)
    let t2a1 := (List.range (nTrie - st.1)).foldl (fun l k => l.set (st.1 + k) ALPHA_CHAR_ERROR) st.2.2
    .ok (alphaBegin, alphaEnd, st.2.1, t2a1.set TRIE_CHAR_TERM 0)

/-- The full `AlphaMap` state (src/alpha_map.rs `struct AlphaMap`). -/
structure AlphaMap where
  ranges : List ARange
  alpha_begin : ℕ := 0
  alpha_end : ℕ := 0
  alpha_to_trie : List ℤ := []
  trie_to_alpha : List ℕ := []
deriving DecidableEq, Repr

/-- `AlphaMap::default()` (src/alpha_map.rs). -/
def AlphaMap.default : AlphaMap := { ranges := [] }

/-- Outcome of `alpha_map_recalc_work_area` on a full `AlphaMap`:
`ok` is the `0` return with the recomputed map, `fail` the `-1` return
(carrying the state it leaves: tables freed, `alpha_begin` and
`alpha_end` already updated), `diverge` the non-returning assignment
loop. -/
inductive RecalcResult where
  | ok : AlphaMap → RecalcResult
  | fail : AlphaMap → RecalcResult
  | diverge : RecalcResult
deriving DecidableEq, Repr

/-- `alpha_map_recalc_work_area` acting on a full `AlphaMap`: frees the
tables and recomputes them from the range list (when non-empty). -/
def alpha_map_recalc_work_area (am : AlphaMap) : RecalcResult :=
  match am.ranges with
  | [] => .ok { am with alpha_to_trie := [], trie_to_alpha := [] }
  | r0 :: rs =>
    match recalcNonempty r0 rs with
    | .fail =>
      .fail { am with
              alpha_begin := r0.1
              alpha_end := (rs.getLastD r0).2
              alpha_to_trie := []
              trie_to_alpha := [] }
    | .diverge => .diverge
    | .ok (ab, ae, a2t, t2a) =>
      .ok { ranges := am.ranges, alpha_begin := ab, alpha_end := ae,
             alpha_to_trie := a2t, trie_to_alpha := t2a }

/-- Result of `alpha_map_add_range` (src/alpha_map.rs lines 496-506):
`err am` is a `-1` return with resulting state `am` (either the
untouched map when `begin > end`, or the mutated map left by a failed
work-area recomputation), `ok am` a `0` return, `panic` an assertion
failure, `diverge` the non-returning recalculation. -/
inductive AddRangeOut where
  | err : AlphaMap → AddRangeOut
  | ok : AlphaMap → AddRangeOut
  | panic : AddRangeOut
  | diverge : AddRangeOut
deriving DecidableEq, Repr

/-- `alpha_map_add_range` (src/alpha_map.rs lines 496-506): add the
range, then recompute the work area; a `-1` from the recomputation is
passed through as the return value, with the range list already
mutated. -/
def alpha_map_add_range (am : AlphaMap) (bg ed : ℕ) : AddRangeOut :=
  match alpha_map_add_range_only am.ranges bg ed with
  | .err => .err am
  | .panic => .panic
  | .ok l =>
    match alpha_map_recalc_work_area { am with ranges := l } with
    | .fail am2 => .err am2
    | .diverge => .diverge
    | .ok am' => .ok am'

/-!
## Byte streams and AlphaMap deserialization (`_read`,
src/alpha_map.rs lines 201-239)
-/

/-- Read a big-endian `u32` from a byte stream. -/
def readU32BE : List ℕ → Option (ℕ × List ℕ)
  | b0 :: b1 :: b2 :: b3 :: rest =>
    some ((b0 % 256) * 16777216 + (b1 % 256) * 65536 + (b2 % 256) * 256 + b3 % 256, rest)
  | _ => none

/-- Interpret a `u32` value as an `i32` (twos-complement). -/
def asI32 (x : ℕ) : ℤ := if x % U32MOD < 2 ^ 31 then (x % U32MOD : ℤ) else (x % U32MOD : ℤ) - (U32MOD : ℤ)

/-- Big-endian serialization of a `u32` value. -/
def u32BytesBE (x : ℕ) : List ℕ :=
  [x % U32MOD / 16777216, x % 16777216 / 65536, x % 65536 / 256, x % 256]

/-- Big-endian serialization of an `i32` value (twos-complement). -/
def i32BytesBE (x : ℤ) : List ℕ := u32BytesBE (x % (U32MOD : ℤ)).toNat

/-- `ALPHAMAP_SIGNATURE = 0xd9fcd9fc` (src/alpha_map.rs). -/
def ALPHAMAP_SIGNATURE : ℕ := 3657226748

/-- Outcomes of `_read` (src/alpha_map.rs lines 201-239).
`invalidData` is the signature mismatch, `ioError` a failed stream
read, `outOfMemory` the failing work-area recomputation (this also
stands for the non-returning recomputation, see
`alpha_map_recalc_work_area`), `assertPanic` an assertion failure
inside `alpha_map_add_range_only`. -/
inductive AmReadErr where
  | invalidData : AmReadErr
  | ioError : AmReadErr
  | outOfMemory : AmReadErr
  | assertPanic : AmReadErr
deriving DecidableEq, Repr

/-- The range-reading loop of `_read`: reads `total` begin/end pairs,
feeding each into `alpha_map_add_range_only` and DISCARDING its return
value (src/alpha_map.rs lines 220-226). -/
def amReadRanges : ℕ → List ARange → List ℕ → Except AmReadErr (List ARange × List ℕ)
  | 0, ranges, bytes => .ok (ranges, bytes)
  | n + 1, ranges, bytes =>
    match readU32BE bytes with
    | none => .error .ioError
    | some (b, bytes) =>
      match readU32BE bytes with
      | none => .error .ioError
      | some (e, bytes) =>
        match alpha_map_add_range_only ranges b e with
        | .panic => .error .assertPanic
        | .err => amReadRanges n ranges bytes
        | .ok ranges' => amReadRanges n ranges' bytes

/-- `_read` (src/alpha_map.rs lines 201-239): check the signature, read
the range count, read that many ranges (ignoring per-range errors),
then recompute the work area. -/
def amRead (bytes : List ℕ) : Except AmReadErr (AlphaMap × List ℕ) :=
  match readU32BE bytes with
  | none => .error .ioError
  | some (sig, bytes) =>
    if sig ≠ ALPHAMAP_SIGNATURE then .error .invalidData
    else
      match readU32BE bytes with
      | none => .error .ioError
      | some (total, bytes) =>
        match amReadRanges (asI32 total).toNat [] bytes with
        | .error er => .error er
        | .ok (ranges, bytes) =>
          match alpha_map_recalc_work_area { AlphaMap.default with ranges := ranges } with
          | .fail _ => .error .outOfMemory
          | .diverge => .error .outOfMemory
          | .ok am => .ok (am, bytes)

/-- `alpha_map_fwrite_bin` / `alpha_map_serialize_bin`
(src/alpha_map.rs lines 249-294): signature, range count, then the
begin/end pairs, all big-endian. -/
def amSerialize (am : AlphaMap) : List ℕ :=
  u32BytesBE ALPHAMAP_SIGNATURE ++ i32BytesBE am.ranges.length
    ++ am.ranges.flatMap (fun r => u32BytesBE r.1 ++ u32BytesBE r.2)

/-- Outcome of a partial computation: a value, a panic, or a
non-terminating loop cut off. -/
inductive Res (α : Type) where
  | ok : α → Res α
  | oob : Res α
  | uw : Res α
  | fuel : Res α
deriving Repr, DecidableEq

/-- Monadic bind for `Res`. -/
def Res.bind {α β : Type} : Res α → (α → Res β) → Res β
  | .ok a, f => f a
  | .oob, _ => .oob
  | .uw, _ => .uw
  | .fuel, _ => .fuel

instance : Monad Res where
  pure := Res.ok
  bind := Res.bind

/-- One cell of the double-array (`DACell`, src/darray.rs). -/
structure DACell where
  base : ℤ
  check : ℤ
deriving DecidableEq, Repr

/-- The double-array (`DArray`, src/darray.rs). -/
structure DArray where
  cells : List DACell
deriving DecidableEq, Repr

/-- `DA_SIGNATURE = 0xdafcdafc` (src/darray.rs). -/
def DA_SIGNATURE : ℕ := 3674004220

/-- `DA_POOL_BEGIN = 3` (src/darray.rs). -/
def DA_POOL_BEGIN : ℤ := 3

/-- `DArray::default()` (src/darray.rs): header (the signature stored
as an `i32`), free-list head pointing at itself, root with base
`DA_POOL_BEGIN`. -/
def DArray.empty : DArray :=
  { cells := [⟨asI32 DA_SIGNATURE, 3⟩, ⟨-1, -1⟩, ⟨DA_POOL_BEGIN, 0⟩] }

/-- `d.get_free_list()` (src/darray.rs). -/
def DArray.get_free_list (_ : DArray) : ℤ := 1

/-- `d.get_root()` (src/darray.rs). -/
def DArray.get_root (_ : DArray) : ℤ := 2

/-- `d.get_base(s)` (src/darray.rs): `cells.get(s as usize)`; a
negative index reinterpreted as `usize` is out of range. -/
def DArray.get_base (d : DArray) (s : ℤ) : Option ℤ :=
  if s < 0 then none else (d.cells.get? s.toNat).map DACell.base

/-- `d.get_check(s)` (src/darray.rs). -/
def DArray.get_check (d : DArray) (s : ℤ) : Option ℤ :=
  if s < 0 then none else (d.cells.get? s.toNat).map DACell.check

/-- `d.set_base(s, v)` (src/darray.rs); the callers drop the
`Option<()>` result, so an out-of-range write is a no-op. -/
def DArray.set_base (d : DArray) (s : ℤ) (v : ℤ) : DArray :=
  if s < 0 then d
  else
    match d.cells.get? s.toNat with
    | none => d
    | some c => { cells := d.cells.set s.toNat { c with base := v } }

/-- `d.set_check(s, v)` (src/darray.rs). -/
def DArray.set_check (d : DArray) (s : ℤ) (v : ℤ) : DArray :=
  if s < 0 then d
  else
    match d.cells.get? s.toNat with
    | none => d
    | some c => { cells := d.cells.set s.toNat { c with check := v } }

/-- `d.walk(s, c)` (src/darray.rs): `next = base(s).unwrap() + c`,
confirmed by `check(next) == s`. -/
def DArray.walk (d : DArray) (s : ℤ) (c : ℕ) : Res (Option ℤ) :=
  match d.get_base s with
  | none => .uw
  | some b =>
    if d.get_check (b + c) = some s then .ok (some (b + c)) else .ok none

/-- `d.extend_pool(to_index)` (src/darray.rs): grow the cell vector to
`to_index` inclusive, link the new cells into the free list, update
the header. -/
def DArray.extend_pool (d : DArray) (to_index : ℤ) : DArray × Bool :=
  if to_index ≤ 0 ∨ TRIE_INDEX_MAX ≤ to_index then (d, false)
  else if to_index < d.cells.length then (d, true)
  else
    let new_begin : ℤ := d.cells.length
    let t := to_index.toNat
    let d1 : DArray :=
      { cells := d.cells ++ List.replicate (t + 1 - d.cells.length) ⟨0, 0⟩ }
    -- initialize the new free list
    let d2 := (List.range (t - new_begin.toNat)).foldl
      (fun dd k =>
        ((dd.set_check (new_begin + k) (-(new_begin + k + 1))).set_base
          (new_begin + k + 1) (-(new_begin + k)))) d1
    -- merge the new circular list into the old
    let free_tail := -((d2.get_base 1).getD 0)
    let d3 := ((((d2.set_check free_tail (-new_begin)).set_base new_begin
      (-free_tail)).set_check to_index (-1)).set_base 1 (-to_index))
    (d3.set_check 0 d3.cells.length, true)

/-- `d.check_free_cell(s)` (src/darray.rs): extend the pool to `s`,
then test `check(s) < 0`. -/
def DArray.check_free_cell (d : DArray) (s : ℤ) : DArray × Bool :=
  let (d1, okg) := d.extend_pool s
  if !okg then (d1, false)
  else
    match d1.get_check s with
    | some v => (d1, v < 0)
    | none => (d1, false)

/-- `d.has_children(s)` (src/darray.rs). -/
def DArray.has_children (d : DArray) (s : ℤ) : Bool :=
  match d.get_base s with
  | none => false
  | some b =>
    if b < 0 then false
    else
      let max_c : ℤ := min (TRIE_CHAR_MAX : ℤ) ((d.cells.length : ℤ) - b)
      (List.range (max_c + 1).toNat).any (fun c => d.get_check (b + c) = some s)

/-- `d.output_symbols(s)` (src/darray.rs): the ascending list of
outgoing edge labels. -/
def DArray.output_symbols (d : DArray) (s : ℤ) : List ℕ :=
  let b := (d.get_base s).getD TRIE_INDEX_ERROR
  let max_c : ℤ := min (TRIE_CHAR_MAX : ℤ) ((d.cells.length : ℤ) - b)
  (List.range (max_c + 1).toNat).filter (fun c => d.get_check (b + c) = some s)

/-- Modelled from the spec: `Symbols::add` of the missing
src/symbols.rs, inserting a symbol into the ascending symbol list
(`output_symbols(s) ∪ {c}` in the words of the spec, section 4.2). -/
def symbolsAdd (l : List ℕ) (c : ℕ) : List ℕ :=
  match l with
  | [] => [c]
  | x :: xs =>
    if c < x then c :: x :: xs
    else if c = x then x :: xs
    else x :: symbolsAdd xs c

/-- `d.alloc_cell(cell)` (src/darray.rs): unlink a cell from the free
list. -/
def DArray.alloc_cell (d : DArray) (cell : ℤ) : Res DArray :=
  match d.get_base cell, d.get_check cell with
  | some b, some c =>
    let prev := -b
    let next := -c
    .ok ((d.set_check prev (-next)).set_base next (-prev))
  | _, _ => .uw

/-- The insertion-point walk of `d.free_cell(cell)` (src/darray.rs):
follow `-check` from the head until the first free cell at an index
not below `cell` (or back at the head). -/
def DArray.free_cell_loop (d : DArray) (cell : ℤ) : ℕ → ℤ → Res ℤ
  | 0, _ => .fuel
  | n + 1, i =>
    if i ≠ 1 ∧ i < cell then
      match d.get_check i with
      | none => .uw
      | some ci => d.free_cell_loop cell n (-ci)
    else .ok i

/-- `d.free_cell(cell)` (src/darray.rs): splice a freed cell into the
free list in ascending-index position. -/
def DArray.free_cell (d : DArray) (cell : ℤ) : Res DArray := do
  let start ←
    match d.get_check 1 with
    | none => Res.uw
    | some c0 => Res.ok (-c0)
  let i ← d.free_cell_loop cell (d.cells.length + 2) start
  let prev ←
    match d.get_base i with
    | none => Res.uw
    | some bi => Res.ok (-bi)
  .ok (((((d.set_check cell (-i)).set_base cell (-prev)).set_check prev
    (-cell)).set_base i (-cell)))

/-- `d.fit_symbols(base, symbols)` (src/darray.rs): every `base + sym`
must not overflow and must be a free cell (extending the pool on the
way). -/
def DArray.fit_symbols (d : DArray) (base : ℤ) : List ℕ → DArray × Bool
  | [] => (d, true)
  | sym :: rest =>
    if base > TRIE_INDEX_MAX - sym then (d, false)
    else
      let (d1, free) := d.check_free_cell (base + sym)
      if free then d1.fit_symbols base rest else (d1, false)

/-- First loop of `d.find_free_base` (src/darray.rs): advance along
the free list while below `first + DA_POOL_BEGIN`. -/
def DArray.ffb_loopA (d : DArray) (lim : ℤ) : ℕ → ℤ → Res ℤ
  | 0, _ => .fuel
  | n + 1, s =>
    if s ≠ 1 ∧ s < lim then
      match d.get_check s with
      | none => .uw
      | some cs => d.ffb_loopA lim n (-cs)
    else .ok s

/-- The exhausted-free-list scan of `d.find_free_base`
(src/darray.rs): extend the pool from `first + DA_POOL_BEGIN` upward
until a free cell appears; `none` is the `TRIE_INDEX_ERROR` return
when extension fails. -/
def DArray.ffb_scan : ℕ → DArray → ℤ → Res (DArray × Option ℤ)
  | 0, _, _ => .fuel
  | n + 1, d, s =>
    let (d1, okg) := d.extend_pool s
    if !okg then .ok (d1, none)
    else
      match d1.get_check s with
      | none => .uw
      | some cs => if cs < 0 then .ok (d1, some s) else DArray.ffb_scan n d1 (s + 1)

/-- Second loop of `d.find_free_base` (src/darray.rs): advance along
the free list until the symbol set fits, extending the pool before the
list is exhausted. -/
def DArray.ffb_loopB (first : ℤ) (symbols : List ℕ) :
    ℕ → DArray → ℤ → Res (DArray × ℤ)
  | 0, _, _ => .fuel
  | n + 1, d, s =>
    let (d1, fit) := d.fit_symbols (s - first) symbols
    if fit then .ok (d1, s - first)
    else
      match d1.get_check s with
      | none => .uw
      | some cs =>
        if -cs = 1 then
          let (d2, okg) := d1.extend_pool d1.cells.length
          if !okg then .ok (d2, TRIE_INDEX_ERROR)
          else
            match d2.get_check s with
            | none => .uw
            | some cs2 => DArray.ffb_loopB first symbols n d2 (-cs2)
        else DArray.ffb_loopB first symbols n d1 (-cs)

/-- `d.find_free_base(symbols)` (src/darray.rs). -/
def DArray.find_free_base (d : DArray) (symbols : List ℕ) : Res (DArray × ℤ) :=
  match symbols with
  | [] => .uw
  | first :: _ =>
    match d.get_check 1 with
    | none => .uw
    | some c0 =>
      match d.ffb_loopA (first + DA_POOL_BEGIN) (d.cells.length + 2) (-c0) with
      | .oob => .oob
      | .uw => .uw
      | .fuel => .fuel
      | .ok s =>
        if s = 1 then
          match DArray.ffb_scan (d.cells.length + 600) d (first + DA_POOL_BEGIN) with
          | .oob => .oob
          | .uw => .uw
          | .fuel => .fuel
          | .ok (d1, none) => .ok (d1, TRIE_INDEX_ERROR)
          | .ok (d1, some s1) =>
            DArray.ffb_loopB first symbols (d1.cells.length + 600) d1 s1
        else DArray.ffb_loopB first symbols (d.cells.length + 600) d s

/-- One symbol move of `da_relocate_base` (src/darray.rs): move the
child at `old_base + sym` to `new_base + sym`, re-pointing the
grandchildren, then free the old cell. -/
def DArray.relocate_one (s new_base old_base : ℤ) (d : DArray) (sym : ℕ) :
    Res DArray := do
  let old_next := old_base + sym
  let new_next := new_base + sym
  let old_next_base := (d.get_base old_next).getD TRIE_INDEX_ERROR
  let d1 ← d.alloc_cell new_next
  let d2 := (d1.set_check new_next s).set_base new_next old_next_base
  let d3 :=
    if old_next_base > 0 then
      let max_c : ℤ := min (TRIE_CHAR_MAX : ℤ) ((d2.cells.length : ℤ) - old_next_base)
      (List.range (max_c + 1).toNat).foldl
        (fun dd c =>
          if dd.get_check (old_next_base + c) = some old_next
          then dd.set_check (old_next_base + c) new_next else dd) d2
    else d2
  d3.free_cell old_next

/-- `da_relocate_base` (src/darray.rs). -/
def DArray.relocate_base (d : DArray) (s new_base : ℤ) : Res DArray := do
  let old_base := (d.get_base s).getD TRIE_INDEX_ERROR
  let symbols := d.output_symbols s
  let d1 ← symbols.foldlM (fun dd sym => DArray.relocate_one s new_base old_base dd sym) d
  pure (d1.set_base s new_base)

/-- The common allocation tail of `da_insert_branch` (src/darray.rs):
`alloc_cell(next); set_check(next, s)`. -/
def DArray.ib_alloc (d : DArray) (s next : ℤ) : Res (DArray × ℤ) := do
  let d1 ← d.alloc_cell next
  pure (d1.set_check next s, next)

/-- The relocation path of `da_insert_branch` (src/darray.rs). -/
def DArray.ib_reloc (d : DArray) (s : ℤ) (c : ℕ) : Res (DArray × ℤ) := do
  let symbols := symbolsAdd (d.output_symbols s) c
  let (d1, new_base) ← d.find_free_base symbols
  if new_base = 0 then pure (d1, TRIE_INDEX_ERROR)
  else do
    let d2 ← d1.relocate_base s new_base
    d2.ib_alloc s (new_base + c)

/-- `da_insert_branch` (src/darray.rs). -/
def DArray.insert_branch (d : DArray) (s : ℤ) (c : ℕ) : Res (DArray × ℤ) :=
  let base := (d.get_base s).getD TRIE_INDEX_ERROR
  if base > TRIE_INDEX_ERROR then
    let next := base + c
    if d.get_check next = some s then .ok (d, next)
    else if base > TRIE_INDEX_MAX - c then d.ib_reloc s c
    else
      let (d1, free) := d.check_free_cell next
      if free then d1.ib_alloc s next
      else d1.ib_reloc s c
  else do
    let (d1, new_base) ← d.find_free_base [c]
    if new_base = 0 then pure (d1, TRIE_INDEX_ERROR)
    else (d1.set_base s new_base).ib_alloc s (new_base + c)

/-- The pruning loop of `d.prune_upto(p, s)` (src/darray.rs). -/
def DArray.prune_upto_loop (p : ℤ) : ℕ → DArray → ℤ → Res DArray
  | 0, _, _ => .fuel
  | n + 1, d, s =>
    if p ≠ s ∧ ¬ d.has_children s then
      match d.get_check s with
      | none => .uw
      | some parent => do
        let d1 ← d.free_cell s
        DArray.prune_upto_loop p n d1 parent
    else .ok d

/-- `d.prune_upto(p, s)` (src/darray.rs). -/
def DArray.prune_upto (d : DArray) (p s : ℤ) : Res DArray :=
  DArray.prune_upto_loop p (d.cells.length + 2) d s

/-- `d.prune(s)` (src/darray.rs). -/
def DArray.prune (d : DArray) (s : ℤ) : Res DArray :=
  d.prune_upto d.get_root s

/-- The descent loop of `da_first_separate` (src/darray.rs): descend
the smallest child edge until a separate (negative-base) state. -/
def DArray.first_separate_loop : ℕ → DArray → ℤ → List ℕ → Res (ℤ × List ℕ)
  | 0, _, _, _ => .fuel
  | n + 1, d, root, key =>
    let base := (d.get_base root).getD TRIE_INDEX_ERROR
    if 0 ≤ base then
      let max_c : ℤ := min (TRIE_CHAR_MAX : ℤ) ((d.cells.length : ℤ) - base)
      match (List.range (max_c + 1).toNat).find?
          (fun c : ℕ => d.get_check (base + (c : ℤ)) = some root) with
      | none => .ok (TRIE_INDEX_ERROR, key)
      | some c => DArray.first_separate_loop n d (base + (c : ℤ))
          (key ++ [((c : ℤ) % 256).toNat])
    else .ok (root, key)

/-- `da_first_separate` (src/darray.rs). -/
def DArray.first_separate (d : DArray) (root : ℤ) (key : List ℕ) :
    Res (ℤ × List ℕ) :=
  DArray.first_separate_loop (d.cells.length + 2) d root key

/-- The ascent loop of `da_next_separate` (src/darray.rs): climb to
the parent, seek the next sibling above `sep - base`, and descend from
it; `TRIE_INDEX_ERROR` when the root is reached. -/
def DArray.next_separate_loop (root : ℤ) : ℕ → DArray → ℤ → List ℕ → Res (ℤ × List ℕ)
  | 0, _, _, _ => .fuel
  | n + 1, d, sep, key =>
    if sep ≠ root then
      let parent := (d.get_check sep).getD TRIE_INDEX_ERROR
      let base := (d.get_base parent).getD TRIE_INDEX_ERROR
      let c0 := sep - base
      let key1 := key.dropLast
      let max_c : ℤ := min (TRIE_CHAR_MAX : ℤ) ((d.cells.length : ℤ) - base)
      match (List.range (max_c - c0).toNat).find?
          (fun k : ℕ => d.get_check (base + c0 + 1 + (k : ℤ)) = some parent) with
      | some k =>
        d.first_separate (base + c0 + 1 + (k : ℤ))
          (key1 ++ [((c0 + 1 + (k : ℤ)) % 256).toNat])
      | none => DArray.next_separate_loop root n d parent key1
    else .ok (TRIE_INDEX_ERROR, key)

/-- `da_next_separate` (src/darray.rs). -/
def DArray.next_separate (d : DArray) (root sep : ℤ) (key : List ℕ) :
    Res (ℤ × List ℕ) :=
  DArray.next_separate_loop root (d.cells.length + 2) d sep key

/-- `DArray::serialize` (src/darray.rs lines 294-300): all cells,
base then check, big-endian. -/
def DArray.serialize (d : DArray) : List ℕ :=
  d.cells.flatMap (fun c => i32BytesBE c.base ++ i32BytesBE c.check)

/-- The cell-reading loop of `DArray::read` (src/darray.rs). -/
def DArray.readCells : ℕ → List DACell → List ℕ → Except AmReadErr (List DACell × List ℕ)
  | 0, acc, bytes => .ok (acc, bytes)
  | n + 1, acc, bytes =>
    match readU32BE bytes with
    | none => .error .ioError
    | some (b, bytes) =>
      match readU32BE bytes with
      | none => .error .ioError
      | some (c, bytes) =>
        DArray.readCells n (acc ++ [⟨asI32 b, asI32 c⟩]) bytes

/-- `DArray::read` (src/darray.rs lines 260-292): check the signature,
read the cell count, reconstruct the header cell, then read the
remaining `num_cells - 1` cells. -/
def DArray.read (bytes : List ℕ) : Except AmReadErr (DArray × List ℕ) :=
  match readU32BE bytes with
  | none => .error .ioError
  | some (sig, bytes) =>
    if sig ≠ DA_SIGNATURE then .error .invalidData
    else
      match readU32BE bytes with
      | none => .error .ioError
      | some (nc, bytes) =>
        let num := asI32 nc
        -- a negative count reinterpreted as usize makes the loop read
        -- past any finite stream, so it always ends in a read error
        if num < 0 then .error .ioError
        else
          match DArray.readCells (num - 1).toNat [⟨asI32 DA_SIGNATURE, num⟩] bytes with
          | .error e => .error e
          | .ok (cells, bytes) => .ok ({ cells := cells }, bytes)

/-!
## Tail

src/tail.rs is not part of the provided sources (only its callers in
src/trie.rs and the interface description in the spec, section 4.3),
so the whole component is modelled from the spec. -/

/-- Modelled from the spec: one entry of the missing src/tail.rs pool:
`{ next_free: TrieIndex, suffix: Option<Vec<TrieChar>>, data: Option<T> }`. -/
structure TailEntry (α : Type) where
  next_free : ℤ := 0
  suffix : Option (List ℕ) := none
  data : Option α := none
deriving DecidableEq, Repr

/-- Modelled from the spec: the missing src/tail.rs pool.  Entry 0 is
the sentinel free-list head; allocated indices start at 1, matching
the 1-based indices stored in the separate cells of the
double-array. -/
structure Tail (α : Type) where
  entries : List (TailEntry α)
deriving DecidableEq, Repr

/-- Modelled from the spec: the empty tail, only the sentinel with an
empty free list. -/
def Tail.empty {α : Type} : Tail α := { entries := [{ next_free := 0 }] }

/-- Modelled from the spec: a stored suffix always ends with
`TRIE_CHAR_TERM`, appended when not already present. -/
def ensureTerm (l : List ℕ) : List ℕ :=
  if l.getLast? = some TRIE_CHAR_TERM then l else l ++ [TRIE_CHAR_TERM]

/-- Entry lookup at a `TrieIndex` (negative indices are out of
range). -/
def Tail.entry? {α : Type} (tl : Tail α) (t : ℤ) : Option (TailEntry α) :=
  if t < 0 then none else tl.entries.get? t.toNat

/-- Update of the entry at index `t` (out-of-range writes are
dropped). -/
def Tail.setEntry {α : Type} (tl : Tail α) (t : ℤ) (e : TailEntry α) : Tail α :=
  if t < 0 then tl else { entries := tl.entries.set t.toNat e }

/-- Modelled from the spec: `tail.get_suffix(t)`. -/
def Tail.get_suffix {α : Type} (tl : Tail α) (t : ℤ) : Option (List ℕ) :=
  (tl.entry? t).bind TailEntry.suffix

/-- Modelled from the spec: `tail.set_suffix(t, s)`. -/
def Tail.set_suffix {α : Type} (tl : Tail α) (t : ℤ) (s : Option (List ℕ)) : Tail α :=
  match tl.entry? t with
  | none => tl
  | some e => tl.setEntry t { e with suffix := s.map ensureTerm }

/-- Modelled from the spec: `tail.get_data(t)`. -/
def Tail.get_data {α : Type} (tl : Tail α) (t : ℤ) : Option α :=
  (tl.entry? t).bind TailEntry.data

/-- Modelled from the spec: `tail.set_data(t, d)`. -/
def Tail.set_data {α : Type} (tl : Tail α) (t : ℤ) (d : α) : Tail α :=
  match tl.entry? t with
  | none => tl
  | some e => tl.setEntry t { e with data := some d }

/-- Modelled from the spec: `tail.add_suffix(suffix)`, reusing the
first free slot when one exists, else appending; returns the new
1-based index. -/
def Tail.add_suffix {α : Type} (tl : Tail α) (suffix : Option (List ℕ)) :
    Tail α × ℤ :=
  let suf := suffix.map ensureTerm
  match tl.entry? 0 with
  | none => (tl, 0)
  | some sentinel =>
    if 0 < sentinel.next_free then
      match tl.entry? sentinel.next_free with
      | none => (tl, 0)
      | some slot =>
        let tl1 := tl.setEntry 0 { sentinel with next_free := slot.next_free }
        (tl1.setEntry sentinel.next_free
          { next_free := 0, suffix := suf, data := none }, sentinel.next_free)
    else
      ({ entries := tl.entries ++ [{ next_free := 0, suffix := suf, data := none }] },
        tl.entries.length)

/-- Modelled from the spec: `tail.delete(t)`: clear the entry and push
it at the head of the singly-linked free list. -/
def Tail.delete {α : Type} (tl : Tail α) (t : ℤ) : Tail α :=
  match tl.entry? 0, tl.entry? t with
  | some sentinel, some _ =>
    if t ≤ 0 then tl
    else
      ((tl.setEntry t
        { next_free := sentinel.next_free, suffix := none, data := none }).setEntry 0
        { sentinel with next_free := t })
  | _, _ => tl

/-- Modelled from the spec: `tail.walk_char(t, suffix_idx, c)`:
`suffix_idx + 1` when the stored suffix has `c` at `suffix_idx`. -/
def Tail.walk_char {α : Type} (tl : Tail α) (t : ℤ) (idx : ℕ) (c : ℕ) : Option ℕ :=
  match tl.get_suffix t with
  | none => none
  | some suf =>
    match suf.get? idx with
    | some x => if x = c then some (idx + 1) else none
    | none => none

/-- Modelled from the spec: `tail.is_walkable_char(t, suffix_idx, c)`. -/
def Tail.is_walkable_char {α : Type} (tl : Tail α) (t : ℤ) (idx : ℕ) (c : ℕ) : Bool :=
  (tl.walk_char t idx c).isSome

/-- Big-endian serialization of an `i16` value (twos-complement). -/
def i16BytesBE (x : ℤ) : List ℕ :=
  [((x % 65536).toNat) / 256, ((x % 65536).toNat) % 256]

/-- The tail signature `0xdffcdffc` (spec, section 6). -/
def TAIL_SIGNATURE : ℕ := 3757891580

/-- Modelled from the spec (section 4.3 layout): serialization of one
tail entry: `next_free`, `suffix_length` (`0` if free) and the suffix
bytes, then the `i32` payload (`TRIE_DATA_ERROR`-like filler `0` for a
missing payload). -/
def TailEntry.serialize (e : TailEntry ℤ) : List ℕ :=
  i32BytesBE e.next_free ++
    (match e.suffix with
     | none => i16BytesBE 0
     | some suf => i16BytesBE suf.length ++ suf.map (· % 256)) ++
    i32BytesBE ((e.data).getD 0)

/-- Modelled from the spec (section 4.3 layout): Tail serialization. -/
def Tail.serialize (tl : Tail ℤ) : List ℕ :=
  u32BytesBE TAIL_SIGNATURE
    ++ i32BytesBE ((tl.entries.length : ℤ) - 1)
    ++ i32BytesBE ((tl.entry? 0).getD {}).next_free
    ++ (tl.entries.drop 1).flatMap TailEntry.serialize

/-- Modelled from the spec: reading back one serialized tail entry. -/
def TailEntry.read (bytes : List ℕ) : Option (TailEntry ℤ × List ℕ) := do
  let (nf, bytes) ← readU32BE bytes
  match bytes with
  | l0 :: l1 :: bytes =>
    let len := ((l0 % 256) * 256 + l1 % 256)
    if 2 ^ 15 ≤ len then none
    else
      let suf := bytes.take len
      if suf.length < len then none
      else
        let bytes := bytes.drop len
        let (dv, bytes) ← readU32BE bytes
        if len = 0 then
          some ({ next_free := asI32 nf, suffix := none, data := none }, bytes)
        else
          some ({ next_free := asI32 nf, suffix := some suf, data := some (asI32 dv) }, bytes)
  | _ => none

/-- Modelled from the spec: the entry-reading loop of Tail
deserialization. -/
def Tail.readEntries : ℕ → List (TailEntry ℤ) → List ℕ →
    Except AmReadErr (List (TailEntry ℤ) × List ℕ)
  | 0, acc, bytes => .ok (acc, bytes)
  | n + 1, acc, bytes =>
    match TailEntry.read bytes with
    | none => .error .ioError
    | some (e, bytes) => Tail.readEntries n (acc ++ [e]) bytes

/-- Modelled from the spec (section 4.3 layout): Tail
deserialization. -/
def Tail.read (bytes : List ℕ) : Except AmReadErr (Tail ℤ × List ℕ) :=
  match readU32BE bytes with
  | none => .error .ioError
  | some (sig, bytes) =>
    if sig ≠ TAIL_SIGNATURE then .error .invalidData
    else
      match readU32BE bytes with
      | none => .error .ioError
      | some (nt, bytes) =>
        match readU32BE bytes with
        | none => .error .ioError
        | some (ff, bytes) =>
          let num := asI32 nt
          if num < 0 then .error .ioError
          else
            match Tail.readEntries num.toNat [{ next_free := asI32 ff }] bytes with
            | .error e => .error e
            | .ok (entries, bytes) => .ok ({ entries := entries }, bytes)

/-!
## Trie facade (src/trie.rs)

src/trie.rs uses method-style `AlphaMap` accessors whose file is not
under src/ in this snapshot; they are modelled from the spec (section
4.1), consistently with the C-style `alpha_map_char_to_trie` /
`alpha_map_char_to_trie_str` present in src/alpha_map.rs (`None`
standing for the `TRIE_INDEX_MAX` "unmapped" marker). -/

/-- Modelled from the spec: `alpha_map.char_to_trie(ac)`: `TERM` for
`0`, the packed symbol for a mapped in-range character, absent
otherwise (compare `alpha_map_char_to_trie`, src/alpha_map.rs lines
509-528). -/
def AlphaMap.char_to_trie (am : AlphaMap) (ac : ℕ) : Option ℤ :=
  if ac = 0 then some (TRIE_CHAR_TERM : ℤ)
  else if am.alpha_begin ≤ ac ∧ ac ≤ am.alpha_end then
    match am.alpha_to_trie.get? (ac - am.alpha_begin) with
    | some v => if v = TRIE_INDEX_MAX then none else some v
    | none => none
  else none

/-- Modelled from the spec: `alpha_map.char_to_trie_str(str)`:
translate every character before the `0` terminator (absent if any is
unmapped), cast each packed symbol to `TrieChar` (`u8`), and append
`TRIE_CHAR_TERM` (compare `alpha_map_char_to_trie_str`,
src/alpha_map.rs lines 544-566). -/
def AlphaMap.char_to_trie_str (am : AlphaMap) (key : List ℕ) : Option (List ℕ) :=
  ((key.takeWhile (· ≠ 0)).mapM
      (fun ac => (am.char_to_trie ac).map (fun v => (v % 256).toNat))).map
    (· ++ [TRIE_CHAR_TERM])

/-- Modelled from the spec: `alpha_map.trie_to_char(tc)` (compare
`alpha_map_trie_to_char`, src/alpha_map.rs lines 531-541). -/
def AlphaMap.trie_to_char (am : AlphaMap) (tc : ℕ) : ℕ :=
  (am.trie_to_alpha.get? tc).getD ALPHA_CHAR_ERROR

/-- Modelled from the spec: `d.is_separate(s)` is `base(s) < 0`
(spec, section 4.2; the method itself is in the missing newer
src/darray.rs). -/
def DArray.is_separate (d : DArray) (s : ℤ) : Bool :=
  (d.get_base s).getD TRIE_INDEX_ERROR < 0

/-- Modelled from the spec: `d.get_tail_index(s)` is `-base(s)`
(spec, section 4.2). -/
def DArray.get_tail_index (d : DArray) (s : ℤ) : ℤ :=
  -((d.get_base s).getD TRIE_INDEX_ERROR)

/-- Modelled from the spec: `d.set_tail_index(s, t)` is
`set_base(s, -t)` (spec, section 4.2). -/
def DArray.set_tail_index (d : DArray) (s t : ℤ) : DArray :=
  d.set_base s (-t)

/-- `ROTrie` (src/trie.rs lines 277-281). -/
structure ROTrie (α : Type) where
  alpha_map : AlphaMap
  da : DArray
  tail : Tail α
deriving DecidableEq, Repr

/-- `Trie` (src/trie.rs lines 21-24): a read-only trie plus the dirty
flag. -/
structure Trie (α : Type) where
  ro : ROTrie α
  is_dirty : Bool
deriving DecidableEq, Repr

/-- `ROTrie::new(alpha_map)` (src/trie.rs lines 284-290). -/
def ROTrie.new {α : Type} (am : AlphaMap) : ROTrie α :=
  { alpha_map := am, da := DArray.empty, tail := Tail.empty }

/-- `Trie::new(alpha_map)` (src/trie.rs lines 30-35): a fresh trie is
dirty. -/
def Trie.new {α : Type} (am : AlphaMap) : Trie α :=
  { ro := ROTrie.new am, is_dirty := true }

/-- Outcome of the double-array phase of `store_conditionally` /
`delete` (src/trie.rs): continue into the tail at a state with the
remaining key, take the missing-edge branch, or reject the key. -/
inductive DAPhase where
  | toTail : ℤ → List ℕ → DAPhase
  | branch : ℤ → List ℕ → DAPhase
  | reject : DAPhase
deriving DecidableEq, Repr

/-- The `while !is_separate(s)` walk of `store_conditionally`
(src/trie.rs lines 66-84); `p[0]` on an empty slice panics (`oob`). -/
def ROTrie.storeDALoop {α : Type} (ro : ROTrie α) : ℤ → List ℕ → Res DAPhase
  | s, p =>
    if ¬ ro.da.is_separate s then
      match p with
      | [] => .oob
      | ch :: rest =>
        match ro.alpha_map.char_to_trie ch with
        | none => .ok .reject
        | some tc =>
          match ro.da.walk s ((tc % 256).toNat) with
          | .oob => .oob
          | .uw => .uw
          | .fuel => .fuel
          | .ok none => .ok (.branch s (ch :: rest))
          | .ok (some next) =>
            if ch = 0 then .ok (.toTail next (ch :: rest))
            else ro.storeDALoop next rest
    else .ok (.toTail s p)

/-- Outcome of the tail phase of `store_conditionally` (src/trie.rs
lines 86-105). -/
inductive TailPhase where
  | matchAll : TailPhase
  | mismatch : TailPhase
  | reject : TailPhase
deriving DecidableEq, Repr

/-- The tail walk of `store_conditionally` (src/trie.rs lines
90-105). -/
def ROTrie.storeTailLoop {α : Type} (ro : ROTrie α) (t : ℤ) :
    List ℕ → ℕ → TailPhase
  | [], _ => .matchAll
  | ch :: rest, idx =>
    match ro.alpha_map.char_to_trie ch with
    | none => .reject
    | some tc =>
      match ro.tail.walk_char t idx ((tc % 256).toNat) with
      | none => .mismatch
      | some ni => if ch = 0 then .matchAll else ro.storeTailLoop t rest ni

/-- `Trie::branch_in_branch` (src/trie.rs lines 124-144). -/
def Trie.branch_in_branch {α : Type} (t : Trie α) (sep_node : ℤ)
    (suffix : List ℕ) (data : α) : Res (Trie α × Bool) :=
  match suffix with
  | [] => .oob
  | s0 :: _ =>
    match t.ro.da.insert_branch sep_node s0 with
    | .oob => .oob
    | .uw => .uw
    | .fuel => .fuel
    | .ok (da1, new_da) =>
      if new_da = TRIE_INDEX_ERROR then
        .ok ({ t with ro := { t.ro with da := da1 } }, false)
      else
        let suffix1 := if s0 ≠ TRIE_CHAR_TERM then suffix.tail else suffix
        let (tail1, new_tail) := t.ro.tail.add_suffix (some suffix1)
        let tail2 := tail1.set_data new_tail data
        let da2 := da1.set_tail_index new_da new_tail
        .ok ({ ro := { t.ro with da := da2, tail := tail2 }, is_dirty := true }, true)

/-- The shared-prefix loop of `Trie::branch_in_tail` (src/trie.rs
lines 153-167), with the rollback path (`prune_upto` and restoring the
old tail index) on `insert_branch` failure. -/
def Trie.bitLoop {α : Type} (sep_node old_tail : ℤ) :
    Trie α → ℤ → List ℕ → List ℕ → Res (Trie α × Option (ℤ × List ℕ × List ℕ))
  | t, s, p, suffix =>
    match p, suffix with
    | p0 :: prest, s0 :: srest =>
      if p0 = s0 then
        match t.ro.da.insert_branch s p0 with
        | .oob => .oob
        | .uw => .uw
        | .fuel => .fuel
        | .ok (da1, t1) =>
          if t1 = TRIE_INDEX_ERROR then
            match da1.prune_upto sep_node s with
            | .oob => .oob
            | .uw => .uw
            | .fuel => .fuel
            | .ok da2 =>
              let da3 := da2.set_tail_index sep_node old_tail
              .ok ({ t with ro := { t.ro with da := da3 } }, none)
          else
            Trie.bitLoop sep_node old_tail
              { t with ro := { t.ro with da := da1 } } t1 prest srest
      else .ok (t, some (s, p0 :: prest, s0 :: srest))
    | _, _ => .oob

/-- `Trie::branch_in_tail` (src/trie.rs lines 146-184). -/
def Trie.branch_in_tail {α : Type} (t : Trie α) (sep_node : ℤ)
    (suffix : List ℕ) (data : α) : Res (Trie α × Bool) :=
  let old_tail := t.ro.da.get_tail_index sep_node
  match t.ro.tail.get_suffix old_tail with
  | none => .ok (t, false)
  | some old_suffix =>
    match Trie.bitLoop sep_node old_tail t sep_node old_suffix suffix with
    | .oob => .oob
    | .uw => .uw
    | .fuel => .fuel
    | .ok (t1, none) => .ok (t1, false)
    | .ok (t1, some (s, p, suffix2)) =>
      match p with
      | [] => .oob
      | p0 :: _ =>
        match t1.ro.da.insert_branch s p0 with
        | .oob => .oob
        | .uw => .uw
        | .fuel => .fuel
        | .ok (da1, old_da) =>
          if old_da = TRIE_INDEX_ERROR then
            match da1.prune_upto sep_node s with
            | .oob => .oob
            | .uw => .uw
            | .fuel => .fuel
            | .ok da2 =>
              let da3 := da2.set_tail_index sep_node old_tail
              .ok ({ t1 with ro := { t1.ro with da := da3 } }, false)
          else
            let p1 := if p0 ≠ TRIE_CHAR_TERM then p.tail else p
            let tail1 := t1.ro.tail.set_suffix old_tail (some p1)
            let da2 := da1.set_tail_index old_da old_tail
            Trie.branch_in_branch
              { t1 with ro := { t1.ro with da := da2, tail := tail1 } }
              s suffix2 data

/-- `Trie::store_conditionally` (src/trie.rs lines 59-114). -/
def Trie.store_conditionally {α : Type} (t : Trie α) (key : List ℕ)
    (data : α) (is_overwrite : Bool) : Res (Trie α × Bool) :=
  match t.ro.storeDALoop t.ro.da.get_root key with
  | .oob => .oob
  | .uw => .uw
  | .fuel => .fuel
  | .ok .reject => .ok (t, false)
  | .ok (.branch s p) =>
    match t.ro.alpha_map.char_to_trie_str p with
    | none => .ok (t, false)
    | some key_str => t.branch_in_branch s key_str data
  | .ok (.toTail s p) =>
    let tidx := t.ro.da.get_tail_index s
    match t.ro.storeTailLoop tidx p 0 with
    | .reject => .ok (t, false)
    | .mismatch =>
      match t.ro.alpha_map.char_to_trie_str p with
      | none => .ok (t, false)
      | some tail_str => t.branch_in_tail s tail_str data
    | .matchAll =>
      if !is_overwrite then .ok (t, false)
      else
        .ok ({ ro := { t.ro with tail := t.ro.tail.set_data tidx data },
               is_dirty := true }, true)

/-- `Trie::store` (src/trie.rs lines 51-53). -/
def Trie.store {α : Type} (t : Trie α) (key : List ℕ) (data : α) :
    Res (Trie α × Bool) :=
  t.store_conditionally key data true

/-- `Trie::store_if_absent` (src/trie.rs lines 55-57). -/
def Trie.store_if_absent {α : Type} (t : Trie α) (key : List ℕ) (data : α) :
    Res (Trie α × Bool) :=
  t.store_conditionally key data false

/-- The double-array walk of `Trie::delete` (src/trie.rs lines
187-202); a missing edge means the key is absent. -/
def ROTrie.deleteDALoop {α : Type} (ro : ROTrie α) : ℤ → List ℕ → Res DAPhase
  | s, p =>
    if ¬ ro.da.is_separate s then
      match p with
      | [] => .oob
      | ch :: rest =>
        match ro.alpha_map.char_to_trie ch with
        | none => .ok .reject
        | some tc =>
          match ro.da.walk s ((tc % 256).toNat) with
          | .oob => .oob
          | .uw => .uw
          | .fuel => .fuel
          | .ok none => .ok .reject
          | .ok (some next) =>
            if ch = 0 then .ok (.toTail next (ch :: rest))
            else ro.deleteDALoop next rest
    else .ok (.toTail s p)

/-- `Trie::delete` (src/trie.rs lines 186-227). -/
def Trie.delete {α : Type} (t : Trie α) (key : List ℕ) : Res (Trie α × Bool) :=
  match t.ro.deleteDALoop t.ro.da.get_root key with
  | .oob => .oob
  | .uw => .uw
  | .fuel => .fuel
  | .ok .reject => .ok (t, false)
  | .ok (.branch _ _) => .ok (t, false)
  | .ok (.toTail s p) =>
    let tidx := t.ro.da.get_tail_index s
    match t.ro.storeTailLoop tidx p 0 with
    | .reject => .ok (t, false)
    | .mismatch => .ok (t, false)
    | .matchAll =>
      let tail1 := t.ro.tail.delete tidx
      let da1 := t.ro.da.set_base s TRIE_INDEX_ERROR
      match da1.prune s with
      | .oob => .oob
      | .uw => .uw
      | .fuel => .fuel
      | .ok da2 =>
        .ok ({ ro := { t.ro with da := da2, tail := tail1 }, is_dirty := true }, true)

/-- The double-array walk of `ROTrie::retrieve` (src/trie.rs lines
296-311): consume characters until a separate state, remembering the
last character taken from the iterator. -/
def ROTrie.retrieveDALoop {α : Type} (ro : ROTrie α) :
    ℤ → ℕ → List ℕ → Res (Option (ℤ × ℕ × List ℕ))
  | s, last_ch, p =>
    match p with
    | [] => .ok (some (s, last_ch, []))
    | ch :: rest =>
      if ro.da.is_separate s then .ok (some (s, ch, rest))
      else
        match ro.alpha_map.char_to_trie ch with
        | none => .ok none
        | some tc =>
          match ro.da.walk s ((tc % 256).toNat) with
          | .oob => .oob
          | .uw => .uw
          | .fuel => .fuel
          | .ok none => .ok none
          | .ok (some next) =>
            if ch = 0 then .ok (some (next, ch, rest))
            else ro.retrieveDALoop next ch rest

/-- The tail walk of `ROTrie::retrieve` (src/trie.rs lines 313-320). -/
def ROTrie.retrieveTailLoop {α : Type} (ro : ROTrie α) (t : ℤ) :
    List ℕ → ℕ → Option ℕ
  | [], idx => some idx
  | ch :: rest, idx =>
    match ro.alpha_map.char_to_trie ch with
    | none => none
    | some tc =>
      match ro.tail.walk_char t idx ((tc % 256).toNat) with
      | none => none
      | some ni => ro.retrieveTailLoop t rest ni

/-- `ROTrie::retrieve` (src/trie.rs lines 296-325); the final
`get_data(s).unwrap()` is a panicking assertion (`oob`). -/
def ROTrie.retrieve {α : Type} (ro : ROTrie α) (key : List ℕ) :
    Res (Option α) :=
  match ro.retrieveDALoop ro.da.get_root ALPHA_CHAR_ERROR key with
  | .oob => .oob
  | .uw => .uw
  | .fuel => .fuel
  | .ok none => .ok none
  | .ok (some (s, last_ch, rest)) =>
    let tidx := ro.da.get_tail_index s
    match ro.retrieveTailLoop tidx (last_ch :: rest) 0 with
    | none => .ok none
    | some _ =>
      match ro.tail.get_data tidx with
      | none => .uw
      | some v => .ok (some v)

/-- `Trie::retrieve` (src/trie.rs lines 120-122). -/
def Trie.retrieve {α : Type} (t : Trie α) (key : List ℕ) : Res (Option α) :=
  t.ro.retrieve key

/-- `ROTrie::serialize` (src/trie.rs lines 340-345): AlphaMap, then
DArray, then Tail. -/
def ROTrie.serialize (ro : ROTrie ℤ) : List ℕ :=
  amSerialize ro.alpha_map ++ ro.da.serialize ++ ro.tail.serialize

/-- `Trie::serialize` (src/trie.rs lines 243-247): serializing resets
the dirty flag. -/
def Trie.serialize (t : Trie ℤ) : List ℕ × Trie ℤ :=
  (t.ro.serialize, { t with is_dirty := false })

/-- `ROTrie::from_reader` (src/trie.rs lines 365-376). -/
def ROTrie.from_reader (bytes : List ℕ) : Except AmReadErr (ROTrie ℤ × List ℕ) :=
  match amRead bytes with
  | .error e => .error e
  | .ok (am, bytes) =>
    match DArray.read bytes with
    | .error e => .error e
    | .ok (da, bytes) =>
      match Tail.read bytes with
      | .error e => .error e
      | .ok (tail, bytes) => .ok ({ alpha_map := am, da := da, tail := tail }, bytes)

/-- `Trie::from_reader` (src/trie.rs lines 267-274): a freshly read
trie is not dirty. -/
def Trie.from_reader (bytes : List ℕ) : Except AmReadErr (Trie ℤ × List ℕ) :=
  match ROTrie.from_reader bytes with
  | .error e => .error e
  | .ok (ro, bytes) => .ok ({ ro := ro, is_dirty := false }, bytes)

/-- The key-slice precondition of the storing and deleting
operations: non-empty, and the only `0` element is the final one. -/
def KeyWF (key : List ℕ) : Prop := ∃ q, key = q ++ [0] ∧ 0 ∉ q

/-- A sane alphabet map: no non-terminator character is packed to the
`TrieChar` `0` (true of every map produced by `recalc_work_area` for
an alphabet within the 254-symbol limit). -/
def AmOk (am : AlphaMap) : Prop :=
  ∀ ac v, ac ≠ 0 → am.char_to_trie ac = some v → (v % 256).toNat ≠ 0

/-- A sane tail: every stored suffix ends with the terminator and has
no interior terminator. -/
def TailOk {α : Type} (tl : Tail α) : Prop :=
  ∀ t suf, tl.get_suffix t = some suf → KeyWF suf

/-- Decidable check implying `KeyWF`. -/
def keyWFB (key : List ℕ) : Bool :=
  key.getLast? = some 0 && !(key.dropLast.contains 0)

/-- Decidable check implying `AmOk`. -/
def amOkB (am : AlphaMap) : Bool :=
  am.alpha_to_trie.all (fun v => v = TRIE_INDEX_MAX || !((v % 256).toNat = 0))

/-- Decidable check implying `TailOk`. -/
def tailOkB {α : Type} (tl : Tail α) : Bool :=
  tl.entries.all (fun e =>
    match e.suffix with
    | none => true
    | some suf => keyWFB suf)

/-!
## Concrete instances used by witnesses -/

/-- A concrete `AlphaMap` over `a..=z` built through `add_range`. -/
def wAm : AlphaMap :=
  match alpha_map_add_range AlphaMap.default 97 122 with
  | .ok am => am
  | _ => AlphaMap.default

/-- The key `a` with its `0` terminator. -/
def wKeyA : List ℕ := [97, 0]

/-- The key `ab` with its `0` terminator. -/
def wKeyAB : List ℕ := [97, 98, 0]

/-- An empty trie over `a..=z`. -/
def wT0 : Trie ℤ := Trie.new wAm

/-- `wT0` with `a ↦ 5` stored. -/
def wT1 : Trie ℤ :=
  match wT0.store wKeyA 5 with
  | .ok (x, _) => x
  | _ => wT0

/-- `wT1` with `ab ↦ 7` stored through `store_if_absent`. -/
def wT2 : Trie ℤ :=
  match wT1.store_if_absent wKeyAB 7 with
  | .ok (x, _) => x
  | _ => wT1

/-- `wT2` with `a` deleted. -/
def wT3 : Trie ℤ :=
  match wT2.delete wKeyA with
  | .ok (x, _) => x
  | _ => wT2

/-- The serialized form of `wT2`. -/
def wBytes : List ℕ := wT2.serialize.1

/-- A key of `2^15 + 2` `a` characters with its `0` terminator. -/
def wKeyLong : List ℕ := List.replicate 32770 97 ++ [0]

/-- The tail suffix left by storing `wKeyLong`: `2^15 + 1` packed
symbols (the branch symbol is consumed by the double-array) and the
terminator. -/
def wLongSuffix : List ℕ := List.replicate 32769 1 ++ [0]

/-- The trie holding only `wKeyLong`: the result of
`wT0.store wKeyLong 9` (asserted by evaluation below), with the long
packed tail stored in tail slot `1`. -/
def wTLong : Trie ℤ :=
  { ro := { alpha_map := wAm
            da := { cells := [⟨-620963076, 5⟩, ⟨-3, -3⟩, ⟨3, 0⟩, ⟨-1, -1⟩,
              ⟨-1, 2⟩] }
            tail := { entries := [{ next_free := 0 },
              { next_free := 0, suffix := some wLongSuffix, data := some 9 }] } }
    is_dirty := true }

/-- A concrete five-cell double array with the single free cell `3`
and the in-use cell `4` (a child of the root): the state of the pool
after one branch insertion and one cell release. -/
def wC6da : DArray :=
  { cells := [⟨asI32 DA_SIGNATURE, 5⟩, ⟨-3, -3⟩, ⟨3, 0⟩, ⟨-1, -1⟩, ⟨-1, 2⟩] }

/-- The trie read back from `wBytes`. -/
def wTR : Trie ℤ :=
  match Trie.from_reader wBytes with
  | .ok (x, _) => x
  | _ => wT0

/-- Separation of consecutive ranges: a gap of at least one character
(coalescing would otherwise have merged them). -/
abbrev rgap (a b : ARange) : Prop := a.2 + 1 < b.1

/-- Well-formed range lists: each range is non-empty and stays below
the sentinel, and consecutive ranges are separated; this is the
canonical form maintained by `alpha_map_add_range`. -/
abbrev RangesWF (l : List ARange) : Prop :=
  (∀ r ∈ l, r.1 ≤ r.2 ∧ r.2 < ALPHA_CHAR_ERROR) ∧ l.Chain' rgap

/-- A value representable as an `i32`. -/
abbrev I32Range (z : ℤ) : Prop := -(2 ^ 31) ≤ z ∧ z < 2 ^ 31

/-- Serializability of one tail entry: the free link fits an `i32`,
and either the slot is free (no suffix, no payload) or it holds a
non-empty suffix of less than `2^15` bytes together with an `i32`
payload. -/
abbrev TailEntryWF (e : TailEntry ℤ) : Prop :=
  I32Range e.next_free ∧
  ((e.suffix = none ∧ e.data = none) ∨
   (e.suffix = some (e.suffix.getD []) ∧ e.data = some (e.data.getD 0) ∧
    e.suffix.getD [] ≠ [] ∧ (e.suffix.getD []).length < 2 ^ 15 ∧
    (∀ x ∈ e.suffix.getD [], x < 256) ∧ I32Range (e.data.getD 0)))

/-- Serializability of the tail: at least the sentinel entry, a count
fitting an `i32`, a bare sentinel, and serializable entries. -/
abbrev TailWF (tl : Tail ℤ) : Prop :=
  tl.entries ≠ [] ∧ (tl.entries.length : ℤ) - 1 < 2 ^ 31 ∧
  (tl.entries.head?.getD {}).suffix = none ∧
  (tl.entries.head?.getD {}).data = none ∧
  I32Range (tl.entries.head?.getD {}).next_free ∧
  ∀ e ∈ tl.entries.drop 1, TailEntryWF e

/-- Serializability of the double-array: the header cell holds the
signature and the cell count, the count fits an `i32`, and every cell
fits two `i32` values. -/
abbrev DArrayWF (d : DArray) : Prop :=
  d.cells ≠ [] ∧ (d.cells.length : ℤ) < 2 ^ 31 ∧
  (d.cells.head?.getD ⟨0, 0⟩).base = asI32 DA_SIGNATURE ∧
  (d.cells.head?.getD ⟨0, 0⟩).check = (d.cells.length : ℤ) ∧
  ∀ c ∈ d.cells, I32Range c.base ∧ I32Range c.check

/-- Serializability of the alphabet map: a canonical separated range
list whose count fits an `i32`, with work-area tables equal to their
own recomputation (true of every map produced by `add_range`, which
ends in `recalc_work_area`). -/
abbrev AmWF (am : AlphaMap) : Prop :=
  RangesWF am.ranges ∧ (am.ranges.length : ℤ) < 2 ^ 31 ∧
  alpha_map_recalc_work_area { AlphaMap.default with ranges := am.ranges } = .ok am

/-- Serializability of a whole read-only trie. -/
abbrev SerialWF (ro : ROTrie ℤ) : Prop :=
  AmWF ro.alpha_map ∧ DArrayWF ro.da ∧ TailWF ro.tail

/-- An adversarial cell array exercising the rollback path of
`branch_in_tail`: the free list holds the single huge index
`2147483654`, state `2` is separate with tail index `1`, and the pool
is already past `TRIE_INDEX_MAX` cells, so the pool cannot grow and
`insert_branch` fails with `TRIE_INDEX_ERROR`. -/
def wC7cells : List DACell :=
  (((List.replicate 2147483655 ⟨0, 0⟩).set 1 ⟨0, -2147483654⟩).set 2
    ⟨-1, 0⟩).set 2147483654 ⟨0, -1⟩

/-- The rollback-witness double-array. -/
def wC7da : DArray := { cells := wC7cells }

/-- A tail with one stored suffix for the rollback witness. -/
def wC7tail : Tail ℤ :=
  { entries := [{ next_free := 0 },
      { next_free := 0, suffix := some [255, 0], data := some 9 }] }

/-- The rollback-witness trie. -/
def wC7t : Trie ℤ :=
  { ro := { alpha_map := AlphaMap.default, da := wC7da, tail := wC7tail },
    is_dirty := true }

/-- The trie produced by the rollback: only the tail index on state
`2` has been re-set (to its original value). -/
def wC7rt : Trie ℤ :=
  { ro := { alpha_map := AlphaMap.default, da := wC7da.set_tail_index 2 1,
            tail := wC7tail },
    is_dirty := true }

/-- A doubly-linked segment of the free-list ring: starting after cell
`p`, the cells of `l` are chained by negated check (forward) and
negated base (backward) pointers, ending at `q`. -/
def FLSeg (d : DArray) : ℤ → List ℤ → ℤ → Prop
  | p, [], q => p = q
  | p, f :: fs, q =>
    d.get_check p = some (-f) ∧ d.get_base f = some (-p) ∧ FLSeg d f fs q

/-- A terminated segment: the chain from `p` through `l`, with the
last cell pointing back at the head by `check = -1`. -/
def FLTail (d : DArray) (p : ℤ) (l : List ℤ) : Prop :=
  FLSeg d p l (l.getLastD p) ∧ d.get_check (l.getLastD p) = some (-1)

/-- The circular free-list links over the ring `1 :: fl`: forward
`-check` pointers and backward `-base` pointers, closing at the
head cell `1`. -/
def FLinks (d : DArray) (fl : List ℤ) : Prop :=
  FLTail d 1 fl ∧ d.get_base 1 = some (-(fl.getLastD 1))

/-- Claim-level free-list well-formedness with the explicit free list
`fl`: the pool has at least the three fixed cells, the free cells are
ascending and inside the pool, and the ring links hold. -/
def FLOK (d : DArray) (fl : List ℤ) : Prop :=
  3 ≤ (d.cells.length : ℤ) ∧
  fl.Chain' (· < ·) ∧
  (∀ f ∈ fl, DA_POOL_BEGIN ≤ f ∧ f < (d.cells.length : ℤ)) ∧
  FLinks d fl

/-- The walk that follows `-check` from a cell, collecting the cells
visited before the head `1` is reached again. -/
def ringWalk (d : DArray) : ℕ → ℤ → List ℤ
  | 0, _ => []
  | n + 1, s =>
    let nxt := -((d.get_check s).getD 0)
    if nxt = 1 then [] else nxt :: ringWalk d n nxt

/-- The integer interval `[a, b]` as an ascending list (the indices of
the cells appended by `extend_pool`). -/
def intRange (a b : ℤ) : List ℤ :=
  (List.range (b + 1 - a).toNat).map (fun k : ℕ => a + (k : ℤ))

/-- The consecutive integers from `nb` to `nb + M` as a list. -/
def natSeg (nb : ℤ) (M : ℕ) : List ℤ :=
  (List.range (M + 1)).map (fun k : ℕ => nb + (k : ℤ))

/-- The grown cell vector of `extend_pool` before linking
(src/darray.rs: resizing with default cells). -/
def extendD1 (d : DArray) (ti : ℤ) : DArray :=
  ⟨d.cells ++ List.replicate (ti.toNat + 1 - d.cells.length) ⟨0, 0⟩⟩

/-- The linking loop of `extend_pool` over the appended cells
(src/darray.rs). -/
def extendFold (d : DArray) (ti : ℤ) : DArray :=
  (List.range (ti.toNat - d.cells.length)).foldl
    (fun (dd : DArray) (k : ℕ) =>
      ((dd.set_check ((d.cells.length : ℤ) + (k : ℤ))
        (-((d.cells.length : ℤ) + (k : ℤ) + 1))).set_base
        ((d.cells.length : ℤ) + (k : ℤ) + 1)
        (-((d.cells.length : ℤ) + (k : ℤ))))) (extendD1 d ti)

/-- The old free-list tail read by `extend_pool` (src/darray.rs). -/
def extendFT (d : DArray) (ti : ℤ) : ℤ :=
  -(((extendFold d ti).get_base 1).getD 0)

/-- The ring-merging writes of `extend_pool` (src/darray.rs). -/
def extendD3 (d : DArray) (ti : ℤ) : DArray :=
  ((((extendFold d ti).set_check (extendFT d ti)
    (-(d.cells.length : ℤ))).set_base (d.cells.length : ℤ)
    (-(extendFT d ti))).set_check ti (-1)).set_base 1 (-ti)

/-- The full result of a growing `extend_pool` call (src/darray.rs). -/
def extendRes (d : DArray) (ti : ℤ) : DArray :=
  (extendD3 d ti).set_check 0 ((extendD3 d ti).cells.length)

/-- A pool cell that is currently in use: inside the pool, beyond the
three fixed cells, and not on the free list. -/
def InUse (d : DArray) (fl : List ℤ) (i : ℤ) : Prop :=
  DA_POOL_BEGIN ≤ i ∧ i < (d.cells.length : ℤ) ∧ i ∉ fl

/-- Occupancy conditions on one in-use pool cell `i`: its check names
a parent state (the root or another in-use cell, never itself), the
parent base places `i` inside the parent's `TrieChar` window, and its
own base is either non-positive (separate or freshly allocated) or a
pool position. -/
def CellOK (d : DArray) (fl : List ℤ) (i : ℤ) : Prop :=
  ∃ v w, d.get_check i = some v ∧ d.get_base i = some w ∧
    (w ≤ 0 ∨ DA_POOL_BEGIN ≤ w) ∧
    v ≠ i ∧ (v = 2 ∨ InUse d fl v) ∧
    ∃ bv, d.get_base v = some bv ∧ DA_POOL_BEGIN ≤ bv ∧ bv ≤ i ∧
      i ≤ bv + (TRIE_CHAR_MAX : ℤ)

/-- Full structural well-formedness of the double array: the free-list
ring, the header check recording the pool size, the fixed root cell,
the occupancy conditions on every in-use cell, and a rank function
showing the parent relation is acyclic. -/
def DAWF (d : DArray) (fl : List ℤ) : Prop :=
  FLOK d fl ∧
  d.get_check 0 = some (d.cells.length : ℤ) ∧
  d.get_check 2 = some 0 ∧
  (∃ w, d.get_base 2 = some w ∧ (w ≤ 0 ∨ DA_POOL_BEGIN ≤ w)) ∧
  (∀ i, InUse d fl i → CellOK d fl i) ∧
  ∃ rank : ℤ → ℕ, ∀ i, InUse d fl i →
    ∀ v, d.get_check i = some v → rank v < rank i

/-- The invariant during `relocate_base`: like `DAWF`, except the
cells whose check names the state `s` being relocated (whose windows
are in flux) are only required to lie among the tracked positions `M`,
with sound bases and an acyclic, occupied parent. -/
def DAWFx (d : DArray) (fl : List ℤ) (s : ℤ) (M : List ℤ) : Prop :=
  FLOK d fl ∧
  d.get_check 0 = some (d.cells.length : ℤ) ∧
  d.get_check 2 = some 0 ∧
  (∃ w, d.get_base 2 = some w ∧ (w ≤ 0 ∨ DA_POOL_BEGIN ≤ w)) ∧
  (∀ i, InUse d fl i → d.get_check i ≠ some s → CellOK d fl i) ∧
  (∀ i, InUse d fl i → d.get_check i = some s → i ∈ M ∧
    ∃ w, d.get_base i = some w ∧ (w ≤ 0 ∨ DA_POOL_BEGIN ≤ w) ∧ s ≠ i ∧
      (s = 2 ∨ InUse d fl s)) ∧
  ∃ rank : ℤ → ℕ, ∀ i, InUse d fl i →
    ∀ v, d.get_check i = some v → rank v < rank i

/-- Safety predicate on the double-array walk results of store and
delete: no slice panic, and each exit phase carries a well-formed
remaining key. -/
def DAPhaseOk : Res DAPhase → Prop
  | .oob => False
  | .ok (.branch _ p1) => KeyWF p1
  | .ok (.toTail _ p1) => KeyWF p1
  | _ => True

/-- Safety predicate on `bitLoop` results: no slice panic, and a
returned split point carries non-empty remainders. -/
def BitOk {α : Type} : Res (Trie α × Option (ℤ × List ℕ × List ℕ)) → Prop
  | .oob => False
  | .ok (_, some (_, p1, s1)) => p1 ≠ [] ∧ s1 ≠ []
  | _ => True

/-- An alphabet of 300 characters `1..=300`, accepted by `add_range`
without complaint: character `256` packs to the `TrieChar`
`256 % 256 = 0`. -/
def wAm300 : AlphaMap :=
  match alpha_map_add_range AlphaMap.default 1 300 with
  | .ok am => am
  | _ => AlphaMap.default

/-- The key `[256, 7]` with its `0` terminator: every character is in
the 300-character alphabet. -/
def wKey256 : List ℕ := [256, 7, 0]

/-- The trie over the 300-character alphabet holding only `wKey256`
(with payload `5`). -/
def wT300 : Trie ℤ :=
  match (Trie.new wAm300).store wKey256 5 with
  | .ok (x, _) => x
  | _ => Trie.new wAm300

/-- The key reconstruction of `TrieIterator::key` for a separate
branch state (src/trie.rs lines 540-572; `map_to_alpha_char` modelled
from the spec, section 4.4.1): unpack the key buffer and the stored
suffix through `trie_to_char` and append the `0` terminator (a
missing suffix is modelled as empty, where the source would panic on
the unwrap). -/
def ROTrie.iterKeyOf {α : Type} (ro : ROTrie α) (sep : ℤ) (key : List ℕ) :
    List ℕ :=
  (key ++ ((ro.tail.get_suffix (ro.da.get_tail_index sep)).getD [])).map
    ro.alpha_map.trie_to_char ++ [0]

/-- `TrieIterator::data` for a branch state (src/trie.rs lines
574-589). -/
def ROTrie.iterData {α : Type} (ro : ROTrie α) (sep : ℤ) : Option α :=
  if ro.da.is_separate sep then ro.tail.get_data (ro.da.get_tail_index sep)
  else none

/-- The repeated `next` calls of `TrieIterator` from the current
separate state (src/trie.rs lines 591-637): yield the reconstructed
key and the payload, then advance with `next_separate` until its
`TRIE_INDEX_ERROR` sentinel. -/
def ROTrie.iterFrom {α : Type} (ro : ROTrie α) : ℕ → ℤ → List ℕ →
    Res (List (List ℕ × Option α))
  | 0, _, _ => .fuel
  | fuel + 1, sep, key =>
    match ro.da.next_separate ro.da.get_root sep key with
    | .oob => .oob
    | .uw => .uw
    | .fuel => .fuel
    | .ok (sep2, key2) =>
      if sep2 = TRIE_INDEX_ERROR then
        .ok [(ro.iterKeyOf sep key, ro.iterData sep)]
      else
        match ro.iterFrom fuel sep2 key2 with
        | .oob => .oob
        | .uw => .uw
        | .fuel => .fuel
        | .ok l => .ok ((ro.iterKeyOf sep key, ro.iterData sep) :: l)

/-- The full iteration of `TrieIterator` over a trie rooted at the
double-array root (src/trie.rs lines 591-637): the first `next` runs
`first_separate`, the following ones `next_separate`; the
`TRIE_INDEX_ERROR` results model the wrapped `None`. -/
def ROTrie.iterAll {α : Type} (ro : ROTrie α) (fuel : ℕ) :
    Res (List (List ℕ × Option α)) :=
  match ro.da.first_separate ro.da.get_root [] with
  | .oob => .oob
  | .uw => .uw
  | .fuel => .fuel
  | .ok (sep, key) =>
    if sep = TRIE_INDEX_ERROR then .ok []
    else ro.iterFrom fuel sep key

/-- `amReadRanges` never reports `InvalidData`. -/
theorem amReadRanges_ne_invalid (n : ℕ) :
    ∀ (rs : List ARange) (bytes : List ℕ),
      amReadRanges n rs bytes ≠ .error .invalidData := by
  induction n with
  | zero => intro rs bytes h; simp [amReadRanges] at h
  | succ n ih =>
    intro rs bytes h
    rw [amReadRanges] at h
    split at h
    · simp at h
    · split at h
      · simp at h
      · split at h
        · simp at h
        · exact ih _ _ h
        · exact ih _ _ h

/-- C3 counterexample: a byte stream with the correct signature whose
single serialized range has `begin = 5 > 3 = end` deserializes
successfully (the range is silently dropped), where the claim demands
a failure. -/
theorem C3_counterexample :
    amRead [217, 252, 217, 252, 0, 0, 0, 1, 0, 0, 0, 5, 0, 0, 0, 3]
        = .ok (AlphaMap.default, []) ∧ 3 < 5 := by
  exact ⟨by rfl, by norm_num⟩

/-- C3 amended: `_read` fails with `InvalidData` exactly when the
leading four bytes decode to a word other than `0xd9fcd9fc`; malformed
ranges (`begin > end`, sentinel, oversized) never produce
`InvalidData`. -/
theorem C3_read_invalid_iff (bytes : List ℕ) :
    amRead bytes = .error .invalidData ↔
      ∃ s rest, readU32BE bytes = some (s, rest) ∧ s ≠ ALPHAMAP_SIGNATURE := by
  unfold amRead
  rcases h : readU32BE bytes with _ | ⟨s, rest⟩
  · simp
  · by_cases hs : s = ALPHAMAP_SIGNATURE
    · subst hs
      simp only [ne_eq, not_true_eq_false, if_false]
      constructor
      · intro hbad
        exfalso
        split at hbad
        · simp at hbad
        · split at hbad
          · rename_i er heq
            rw [Except.error.inj hbad] at heq
            exact amReadRanges_ne_invalid _ _ _ heq
          · split at hbad
            · simp at hbad
            · simp at hbad
            · simp at hbad
      · rintro ⟨s', rest', hr, hne⟩
        injection hr with hpair
        injection hpair with h1 h2
        exact (hne h1.symm).elim
    · simp only [ne_eq, hs, not_false_eq_true, if_true, true_iff]
      exact ⟨s, rest, rfl, hs⟩

/-- In a well-separated chain, every later range starts above the end
of the first one. -/
theorem rgap_chain_lt {r : ARange} {tl : List ARange}
    (hwf : ∀ x ∈ tl, x.1 ≤ x.2) (hch : List.Chain' rgap (r :: tl)) :
    ∀ x ∈ tl, r.2 + 1 < x.1 := by
  induction tl generalizing r with
  | nil => simp
  | cons h t ih =>
    intro x hx
    rw [List.chain'_cons] at hch
    rcases List.mem_cons.mp hx with rfl | hx
    · exact hch.1
    · have h2 := ih (fun y hy => hwf y (List.mem_cons_of_mem _ hy)) hch.2 x hx
      have h3 := hwf h (List.mem_cons_self _ _)
      have h1 : r.2 + 1 < h.1 := hch.1
      unfold rgap at *
      omega

/-- A successful `branch_in_branch` marks the trie dirty. -/
theorem branch_in_branch_dirty {α : Type} (t t' : Trie α) (s : ℤ)
    (suf : List ℕ) (v : α) (h : t.branch_in_branch s suf v = .ok (t', true)) :
    t'.is_dirty = true := by
  unfold Trie.branch_in_branch at h
  split at h
  · exact Res.noConfusion h
  · split at h
    · exact Res.noConfusion h
    · exact Res.noConfusion h
    · exact Res.noConfusion h
    · split at h
      · simp at h
      · rw [Res.ok.injEq, Prod.mk.injEq] at h
        rw [← h.1]

/-- A successful `branch_in_tail` marks the trie dirty. -/
theorem branch_in_tail_dirty {α : Type} (t t' : Trie α) (s : ℤ)
    (suf : List ℕ) (v : α) (h : t.branch_in_tail s suf v = .ok (t', true)) :
    t'.is_dirty = true := by
  simp only [Trie.branch_in_tail] at h
  split at h
  · simp at h
  · split at h
    · exact Res.noConfusion h
    · exact Res.noConfusion h
    · exact Res.noConfusion h
    · simp at h
    · split at h
      · exact Res.noConfusion h
      · split at h
        · exact Res.noConfusion h
        · exact Res.noConfusion h
        · exact Res.noConfusion h
        · split at h
          · split at h
            · exact Res.noConfusion h
            · exact Res.noConfusion h
            · exact Res.noConfusion h
            · simp at h
          · exact branch_in_branch_dirty _ _ _ _ _ h

/-- A successful `store_conditionally` marks the trie dirty. -/
theorem store_conditionally_dirty {α : Type} (t t' : Trie α) (key : List ℕ)
    (v : α) (ow : Bool)
    (h : t.store_conditionally key v ow = .ok (t', true)) :
    t'.is_dirty = true := by
  simp only [Trie.store_conditionally] at h
  split at h
  · exact Res.noConfusion h
  · exact Res.noConfusion h
  · exact Res.noConfusion h
  · simp at h
  · split at h
    · simp at h
    · exact branch_in_branch_dirty _ _ _ _ _ h
  · split at h
    · simp at h
    · split at h
      · simp at h
      · exact branch_in_tail_dirty _ _ _ _ _ h
    · split at h
      · simp at h
      · rw [Res.ok.injEq, Prod.mk.injEq] at h
        rw [← h.1]

/-- C9: the dirty flag tracks unsaved mutations: a new trie is dirty,
a deserialized trie is clean, every successful `store`,
`store_if_absent` or `delete` marks the trie dirty, and `serialize`
resets the flag. -/
theorem C9_is_dirty (α : Type) :
    (∀ am : AlphaMap, (Trie.new (α := α) am).is_dirty = true) ∧
    (∀ (bytes rest : List ℕ) (t : Trie ℤ),
      Trie.from_reader bytes = .ok (t, rest) → t.is_dirty = false) ∧
    (∀ (t t' : Trie α) (key : List ℕ) (v : α),
      t.store key v = .ok (t', true) → t'.is_dirty = true) ∧
    (∀ (t t' : Trie α) (key : List ℕ) (v : α),
      t.store_if_absent key v = .ok (t', true) → t'.is_dirty = true) ∧
    (∀ (t t' : Trie α) (key : List ℕ),
      t.delete key = .ok (t', true) → t'.is_dirty = true) ∧
    (∀ t : Trie ℤ, t.serialize.2.is_dirty = false) := by
  refine ⟨fun _ => rfl, ?_, ?_, ?_, ?_, fun _ => rfl⟩
  · intro bytes rest t h
    unfold Trie.from_reader at h
    split at h
    · exact Except.noConfusion h
    · rw [Except.ok.injEq, Prod.mk.injEq] at h
      rw [← h.1]
  · exact fun t t' key v h => store_conditionally_dirty _ _ _ _ _ h
  · exact fun t t' key v h => store_conditionally_dirty _ _ _ _ _ h
  · intro t t' key h
    simp only [Trie.delete] at h
    split at h
    · exact Res.noConfusion h
    · exact Res.noConfusion h
    · exact Res.noConfusion h
    · simp at h
    · simp at h
    · split at h
      · simp at h
      · simp at h
      · split at h
        · exact Res.noConfusion h
        · exact Res.noConfusion h
        · exact Res.noConfusion h
        · rw [Res.ok.injEq, Prod.mk.injEq] at h
          rw [← h.1]

/-- Witness for C9 on concrete tries over the alphabet `a..=z`. -/
theorem C9_witness :
    (Trie.new (α := ℤ) wAm).is_dirty = true ∧
    (Trie.from_reader wBytes = .ok (wTR, []) ∧ wTR.is_dirty = false) ∧
    (wT0.store wKeyA 5 = .ok (wT1, true) ∧ wT1.is_dirty = true) ∧
    (wT1.store_if_absent wKeyAB 7 = .ok (wT2, true) ∧ wT2.is_dirty = true) ∧
    (wT2.delete wKeyA = .ok (wT3, true) ∧ wT3.is_dirty = true) ∧
    wT2.serialize.2.is_dirty = false := by
  have hfr : Trie.from_reader wBytes = .ok (wTR, []) := by rfl
  have hst : wT0.store wKeyA 5 = .ok (wT1, true) := by rfl
  have hsa : wT1.store_if_absent wKeyAB 7 = .ok (wT2, true) := by rfl
  have hdl : wT2.delete wKeyA = .ok (wT3, true) := by rfl
  exact ⟨(C9_is_dirty ℤ).1 wAm,
    ⟨hfr, (C9_is_dirty ℤ).2.1 wBytes [] wTR hfr⟩,
    ⟨hst, (C9_is_dirty ℤ).2.2.1 wT0 wT1 wKeyA 5 hst⟩,
    ⟨hsa, (C9_is_dirty ℤ).2.2.2.1 wT1 wT2 wKeyAB 7 hsa⟩,
    ⟨hdl, (C9_is_dirty ℤ).2.2.2.2.1 wT2 wT3 wKeyA hdl⟩,
    (C9_is_dirty ℤ).2.2.2.2.2 wT2⟩

/-!
## Panic analysis: the only sources of `Res.oob` are the key-slice
indexings (`p[0]`, `suffix[0]`) of src/trie.rs -/

/-- Binding two `oob`-free computations is `oob`-free. -/
theorem Res.bind_ne_oob {α β : Type} {r : Res α} {f : α → Res β}
    (hr : r ≠ .oob) (hf : ∀ a, f a ≠ .oob) : Res.bind r f ≠ .oob := by
  cases r with
  | ok a => exact hf a
  | oob => exact absurd rfl hr
  | uw => exact fun h => Res.noConfusion h
  | fuel => exact fun h => Res.noConfusion h

/-- `alloc_cell` panics only through `unwrap`. -/
theorem alloc_cell_ne_oob (d : DArray) (c : ℤ) : d.alloc_cell c ≠ .oob := by
  unfold DArray.alloc_cell
  split
  · exact fun h => Res.noConfusion h
  · exact fun h => Res.noConfusion h

/-- The free-list insertion walk panics only through `unwrap`. -/
theorem free_cell_loop_ne_oob (d : DArray) (c : ℤ) :
    ∀ (n : ℕ) (i : ℤ), d.free_cell_loop c n i ≠ .oob := by
  intro n
  induction n with
  | zero => intro i h; exact Res.noConfusion h
  | succ n ih =>
    intro i
    unfold DArray.free_cell_loop
    split
    · split
      · exact fun h => Res.noConfusion h
      · exact ih _
    · exact fun h => Res.noConfusion h

/-- `free_cell` panics only through `unwrap`. -/
theorem free_cell_ne_oob (d : DArray) (c : ℤ) : d.free_cell c ≠ .oob := by
  unfold DArray.free_cell
  simp only [bind, Bind.bind]
  split <;>
  · refine Res.bind_ne_oob (fun h => Res.noConfusion h) (fun y => ?_)
    refine Res.bind_ne_oob (free_cell_loop_ne_oob _ _ _ _) (fun i => ?_)
    split <;>
      exact Res.bind_ne_oob (fun h => Res.noConfusion h)
        (fun z => fun h => Res.noConfusion h)

/-- The first `find_free_base` walk panics only through `unwrap`. -/
theorem ffb_loopA_ne_oob (d : DArray) (lim : ℤ) :
    ∀ (n : ℕ) (s : ℤ), d.ffb_loopA lim n s ≠ .oob := by
  intro n
  induction n with
  | zero => intro s h; exact Res.noConfusion h
  | succ n ih =>
    intro s
    unfold DArray.ffb_loopA
    split
    · split
      · exact fun h => Res.noConfusion h
      · exact ih _
    · exact fun h => Res.noConfusion h

/-- The pool-extension scan of `find_free_base` panics only through
`unwrap`. -/
theorem ffb_scan_ne_oob :
    ∀ (n : ℕ) (d : DArray) (s : ℤ), DArray.ffb_scan n d s ≠ .oob := by
  intro n
  induction n with
  | zero => intro d s h; exact Res.noConfusion h
  | succ n ih =>
    intro d s
    unfold DArray.ffb_scan
    split
    split
    · exact fun h => Res.noConfusion h
    · split
      · exact fun h => Res.noConfusion h
      · split
        · exact fun h => Res.noConfusion h
        · exact ih _ _

/-- The fitting walk of `find_free_base` panics only through
`unwrap`. -/
theorem ffb_loopB_ne_oob (first : ℤ) (symbols : List ℕ) :
    ∀ (n : ℕ) (d : DArray) (s : ℤ),
      DArray.ffb_loopB first symbols n d s ≠ .oob := by
  intro n
  induction n with
  | zero => intro d s h; exact Res.noConfusion h
  | succ n ih =>
    intro d s
    unfold DArray.ffb_loopB
    split
    split
    · exact fun h => Res.noConfusion h
    · split
      · exact fun h => Res.noConfusion h
      · split
        · split
          split
          · exact fun h => Res.noConfusion h
          · split
            · exact fun h => Res.noConfusion h
            · exact ih _ _
        · exact ih _ _

/-- `find_free_base` panics only through `unwrap`. -/
theorem find_free_base_ne_oob (d : DArray) (symbols : List ℕ) :
    d.find_free_base symbols ≠ .oob := by
  unfold DArray.find_free_base
  split
  · exact fun h => Res.noConfusion h
  · split
    · exact fun h => Res.noConfusion h
    · split
      · rename_i heq
        exact absurd heq (ffb_loopA_ne_oob _ _ _ _)
      · exact fun h => Res.noConfusion h
      · exact fun h => Res.noConfusion h
      · split
        · split
          · rename_i heq
            exact absurd heq (ffb_scan_ne_oob _ _ _)
          · exact fun h => Res.noConfusion h
          · exact fun h => Res.noConfusion h
          · exact fun h => Res.noConfusion h
          · exact ffb_loopB_ne_oob _ _ _ _ _
        · exact ffb_loopB_ne_oob _ _ _ _ _

/-- One relocation step panics only through `unwrap`. -/
theorem relocate_one_ne_oob (s nb ob : ℤ) (d : DArray) (sym : ℕ) :
    DArray.relocate_one s nb ob d sym ≠ .oob := by
  unfold DArray.relocate_one
  simp only [bind, Bind.bind]
  refine Res.bind_ne_oob (alloc_cell_ne_oob _ _) (fun d1 => ?_)
  exact free_cell_ne_oob _ _

/-- `relocate_base` panics only through `unwrap`. -/
theorem relocate_base_ne_oob (d : DArray) (s nb : ℤ) :
    d.relocate_base s nb ≠ .oob := by
  unfold DArray.relocate_base
  simp only [bind, Bind.bind]
  refine Res.bind_ne_oob ?_ (fun d1 => fun h => Res.noConfusion h)
  generalize (d.get_base s).getD TRIE_INDEX_ERROR = ob
  generalize d.output_symbols s = syms
  induction syms generalizing d with
  | nil => exact fun h => Res.noConfusion h
  | cons x xs ih =>
    simp only [List.foldlM_cons, bind, Bind.bind]
    refine Res.bind_ne_oob (relocate_one_ne_oob _ _ _ _ _) (fun d2 => ?_)
    exact ih d2

/-- The allocation tail of `da_insert_branch` panics only through
`unwrap`. -/
theorem ib_alloc_ne_oob (d : DArray) (s next : ℤ) :
    d.ib_alloc s next ≠ .oob := by
  unfold DArray.ib_alloc
  simp only [bind, Bind.bind]
  exact Res.bind_ne_oob (alloc_cell_ne_oob _ _) (fun a => fun h => Res.noConfusion h)

/-- The relocation path of `da_insert_branch` panics only through
`unwrap`. -/
theorem ib_reloc_ne_oob (d : DArray) (s : ℤ) (c : ℕ) :
    d.ib_reloc s c ≠ .oob := by
  unfold DArray.ib_reloc
  simp only [bind, Bind.bind]
  refine Res.bind_ne_oob (find_free_base_ne_oob _ _) (fun p => ?_)
  rcases p with ⟨d1, nb⟩
  split
  · exact fun h => Res.noConfusion h
  · simp only [bind, Bind.bind]
    exact Res.bind_ne_oob (relocate_base_ne_oob _ _ _) (fun d2 => ib_alloc_ne_oob _ _ _)

/-- `da_insert_branch` panics only through `unwrap`. -/
theorem insert_branch_ne_oob (d : DArray) (s : ℤ) (c : ℕ) :
    d.insert_branch s c ≠ .oob := by
  simp only [DArray.insert_branch]
  split
  · split
    · exact fun h => Res.noConfusion h
    · split
      · exact ib_reloc_ne_oob _ _ _
      · split
        · exact ib_alloc_ne_oob _ _ _
        · exact ib_reloc_ne_oob _ _ _
  · simp only [bind, Bind.bind]
    refine Res.bind_ne_oob (find_free_base_ne_oob _ _) (fun p => ?_)
    rcases p with ⟨d1, nb⟩
    split
    · exact fun h => Res.noConfusion h
    · exact ib_alloc_ne_oob _ _ _

/-- The pruning loop panics only through `unwrap`. -/
theorem prune_upto_loop_ne_oob (p : ℤ) :
    ∀ (n : ℕ) (d : DArray) (s : ℤ), DArray.prune_upto_loop p n d s ≠ .oob := by
  intro n
  induction n with
  | zero => intro d s h; exact Res.noConfusion h
  | succ n ih =>
    intro d s
    unfold DArray.prune_upto_loop
    split
    · split
      · exact fun h => Res.noConfusion h
      · simp only [bind, Bind.bind]
        exact Res.bind_ne_oob (free_cell_ne_oob _ _) (fun d1 => ih _ _)
    · exact fun h => Res.noConfusion h

/-- `prune_upto` panics only through `unwrap`. -/
theorem prune_upto_ne_oob (d : DArray) (p s : ℤ) : d.prune_upto p s ≠ .oob :=
  prune_upto_loop_ne_oob p _ d s

/-- `prune` panics only through `unwrap`. -/
theorem prune_ne_oob (d : DArray) (s : ℤ) : d.prune s ≠ .oob :=
  prune_upto_ne_oob d _ s

/-- `walk` panics only through `unwrap`. -/
theorem walk_ne_oob (d : DArray) (s : ℤ) (c : ℕ) : d.walk s c ≠ .oob := by
  unfold DArray.walk
  split
  · exact fun h => Res.noConfusion h
  · split
    · exact fun h => Res.noConfusion h
    · exact fun h => Res.noConfusion h

/-- The empty slice is not well formed. -/
theorem KeyWF.not_nil : ¬ KeyWF ([] : List ℕ) := by
  rintro ⟨q, hq, -⟩
  have := congrArg List.length hq
  simp at this

/-- A well-formed slice headed by the terminator is exactly `[0]`. -/
theorem KeyWF.zero_head {rest : List ℕ} (h : KeyWF (0 :: rest)) : rest = [] := by
  obtain ⟨q, hq, hz⟩ := h
  cases q with
  | nil =>
    rw [List.nil_append] at hq
    injection hq
  | cons a q2 =>
    rw [List.cons_append] at hq
    injection hq with h1 h2
    have : (0 : ℕ) ∈ a :: q2 := by
      rw [h1]
      exact List.mem_cons_self a q2
    exact absurd this hz

/-- A well-formed slice headed by a non-terminator has a well-formed
tail. -/
theorem KeyWF.cons_tail {ch : ℕ} {rest : List ℕ} (hch : ¬ ch = 0)
    (h : KeyWF (ch :: rest)) : KeyWF rest := by
  obtain ⟨q, hq, hz⟩ := h
  cases q with
  | nil =>
    rw [List.nil_append] at hq
    injection hq with h1 h2
    exact absurd h1 hch
  | cons a q2 =>
    rw [List.cons_append] at hq
    injection hq with h1 h2
    exact ⟨q2, h2, fun hm => hz (List.mem_cons_of_mem a hm)⟩

/-- Under a well-formed key the double-array walk of store never
indexes out of bounds, and both exit phases carry a well-formed
remainder. -/
theorem storeDALoop_wf {α : Type} (ro : ROTrie α) :
    ∀ (p : List ℕ) (s : ℤ), KeyWF p → DAPhaseOk (ro.storeDALoop s p) := by
  intro p
  induction p with
  | nil => exact fun s hp => absurd hp KeyWF.not_nil
  | cons ch rest ih =>
    intro s hp
    rw [ROTrie.storeDALoop]
    split
    · split
      · trivial
      · split
        · rename_i heq
          exact absurd heq (walk_ne_oob _ _ _)
        · trivial
        · trivial
        · exact hp
        · split
          · exact hp
          · rename_i hch0
            exact ih _ (KeyWF.cons_tail hch0 hp)
    · exact hp

/-- Under a well-formed key the double-array walk of delete never
indexes out of bounds, and both exit phases carry a well-formed
remainder. -/
theorem deleteDALoop_wf {α : Type} (ro : ROTrie α) :
    ∀ (p : List ℕ) (s : ℤ), KeyWF p → DAPhaseOk (ro.deleteDALoop s p) := by
  intro p
  induction p with
  | nil => exact fun s hp => absurd hp KeyWF.not_nil
  | cons ch rest ih =>
    intro s hp
    rw [ROTrie.deleteDALoop]
    split
    · split
      · trivial
      · split
        · rename_i heq
          exact absurd heq (walk_ne_oob _ _ _)
        · trivial
        · trivial
        · trivial
        · split
          · exact hp
          · rename_i hch0
            exact ih _ (KeyWF.cons_tail hch0 hp)
    · exact hp

/-- Characterisation of `walk_char` through the stored suffix. -/
theorem walk_char_eq {α : Type} (tl : Tail α) (t : ℤ) (idx c : ℕ)
    (osuf : List ℕ) (hos : tl.get_suffix t = some osuf) :
    tl.walk_char t idx c =
      if osuf.get? idx = some c then some (idx + 1) else none := by
  unfold Tail.walk_char
  rw [hos]
  split
  · rename_i hx
    exact absurd hx (fun h => Option.noConfusion h)
  · rename_i suf hx
    have hsuf : suf = osuf := (Option.some.inj hx).symm
    subst hsuf
    split
    · rename_i x hx2
      by_cases hxc : x = c
      · rw [if_pos hxc, if_pos (by rw [hx2, hxc])]
      · rw [if_neg hxc, if_neg (by rw [hx2]; exact fun h => hxc (Option.some.inj h))]
    · rename_i hx2
      rw [if_neg (by rw [hx2]; exact fun h => Option.noConfusion h)]

/-- Elements produced by a successful `mapM` over `Option` come from
applying the function to list elements. -/
theorem mapM_option_mem {α β : Type} (f : α → Option β) :
    ∀ (l : List α) (m : List β), l.mapM f = some m →
      ∀ x ∈ m, ∃ a ∈ l, f a = some x := by
  intro l
  induction l with
  | nil =>
    intro m hm x hx
    rw [List.mapM_nil] at hm
    have hm2 : ([] : List β) = m := Option.some.inj hm
    rw [← hm2] at hx
    exact absurd hx (List.not_mem_nil x)
  | cons a l ih =>
    intro m hm x hx
    rw [List.mapM_cons] at hm
    rcases hfa : f a with _ | b
    · rw [hfa] at hm
      exact Option.noConfusion hm
    · rw [hfa] at hm
      rcases hml : l.mapM f with _ | bs
      · rw [hml] at hm
        exact Option.noConfusion hm
      · rw [hml] at hm
        have hm2 : b :: bs = m := Option.some.inj hm
        rw [← hm2] at hx
        rcases List.mem_cons.mp hx with hxb | hxl
        · exact ⟨a, List.mem_cons_self a l, by rw [hfa, hxb]⟩
        · obtain ⟨a2, ha2, hfa2⟩ := ih bs hml x hxl
          exact ⟨a2, List.mem_cons_of_mem a ha2, hfa2⟩

/-- A successful `char_to_trie_str` splits into the translated body
and the appended terminator. -/
theorem char_to_trie_str_parts {am : AlphaMap} {p ks : List ℕ}
    (h : am.char_to_trie_str p = some ks) :
    ∃ m, (p.takeWhile (· ≠ 0)).mapM
        (fun ac => (am.char_to_trie ac).map (fun v => (v % 256).toNat)) = some m ∧
      ks = m ++ [TRIE_CHAR_TERM] := by
  unfold AlphaMap.char_to_trie_str at h
  rw [Option.map_eq_some'] at h
  obtain ⟨m, hm, hb⟩ := h
  exact ⟨m, hm, hb.symm⟩

/-- Under a sane alphabet map a successful `char_to_trie_str` output
is a well-formed slice. -/
theorem char_to_trie_str_wf {am : AlphaMap} {p ks : List ℕ} (ham : AmOk am)
    (h : am.char_to_trie_str p = some ks) : KeyWF ks := by
  obtain ⟨m, hm, hks⟩ := char_to_trie_str_parts h
  refine ⟨m, hks, ?_⟩
  intro h0
  obtain ⟨a, ha, hfa⟩ := mapM_option_mem _ _ _ hm 0 h0
  rw [Option.map_eq_some'] at hfa
  obtain ⟨v, hv, hv0⟩ := hfa
  have ha0 : a ≠ 0 := by
    have := List.mem_takeWhile_imp ha
    simpa using this
  exact ham a v ha0 hv hv0

/-- When the tail walk of `store_conditionally` reports a mismatch,
the translated remaining key differs from the stored suffix taken
from the current position on. -/
theorem storeTailLoop_mismatch_ne {α : Type} (ro : ROTrie α) (tidx : ℤ)
    (osuf : List ℕ) (hos : ro.tail.get_suffix tidx = some osuf) :
    ∀ (p : List ℕ) (idx : ℕ) (m : List ℕ),
      ro.storeTailLoop tidx p idx = .mismatch →
      (p.takeWhile (· ≠ 0)).mapM
        (fun ac => (ro.alpha_map.char_to_trie ac).map (fun v => (v % 256).toNat))
        = some m →
      m ++ [0] ≠ osuf.drop idx := by
  intro p
  induction p with
  | nil =>
    intro idx m hm _
    exact TailPhase.noConfusion hm
  | cons ch rest ih =>
    intro idx m hm hmapm
    simp only [ROTrie.storeTailLoop] at hm
    split at hm
    · exact TailPhase.noConfusion hm
    · rename_i tc hct
      have hdrop : (osuf.drop idx).head? = osuf.get? idx := by
        rw [List.head?_drop, List.get?_eq_getElem?]
      split at hm
      · rename_i hwc
        have hgc : ¬ osuf.get? idx = some ((tc % 256).toNat) := by
          intro hg
          rw [walk_char_eq ro.tail tidx idx _ osuf hos, if_pos hg] at hwc
          exact Option.noConfusion hwc
        intro hEq
        apply hgc
        rw [← hdrop, ← hEq]
        by_cases hch : ch = 0
        · subst hch
          rw [List.takeWhile_cons, if_neg (by simp), List.mapM_nil] at hmapm
          have hm0 : ([] : List ℕ) = m := Option.some.inj hmapm
          have htc : tc = 0 := by
            have hc0 : ro.alpha_map.char_to_trie 0 = some 0 := by
              unfold AlphaMap.char_to_trie
              rw [if_pos rfl]
              rfl
            have := hc0.symm.trans hct
            exact (Option.some.inj this).symm
          rw [← hm0, htc]
          simp
        · rw [List.takeWhile_cons, if_pos (by simp [hch]), List.mapM_cons, hct,
            Option.map_some'] at hmapm
          rcases hml : (rest.takeWhile (· ≠ 0)).mapM
              (fun ac => (ro.alpha_map.char_to_trie ac).map (fun v => (v % 256).toNat))
              with _ | m2
          · rw [hml] at hmapm
            exact Option.noConfusion hmapm
          · rw [hml] at hmapm
            have hm2 : (tc % 256).toNat :: m2 = m := Option.some.inj hmapm
            rw [← hm2, List.cons_append, List.head?_cons]
      · rename_i ni hwc
        have hni : osuf.get? idx = some ((tc % 256).toNat) ∧ ni = idx + 1 := by
          by_cases hg : osuf.get? idx = some ((tc % 256).toNat)
          · rw [walk_char_eq ro.tail tidx idx _ osuf hos, if_pos hg] at hwc
            exact ⟨hg, (Option.some.inj hwc).symm⟩
          · rw [walk_char_eq ro.tail tidx idx _ osuf hos, if_neg hg] at hwc
            exact absurd hwc (fun h => Option.noConfusion h)
        split at hm
        · exact TailPhase.noConfusion hm
        · rename_i hch
          rw [hni.2] at hm
          rw [List.takeWhile_cons, if_pos (by simp [hch]), List.mapM_cons, hct,
            Option.map_some'] at hmapm
          rcases hml : (rest.takeWhile (· ≠ 0)).mapM
              (fun ac => (ro.alpha_map.char_to_trie ac).map (fun v => (v % 256).toNat))
              with _ | m2
          · rw [hml] at hmapm
            exact Option.noConfusion hmapm
          · rw [hml] at hmapm
            have hm2 : (tc % 256).toNat :: m2 = m := Option.some.inj hmapm
            intro hEq
            rw [← hm2, List.cons_append] at hEq
            have htl := congrArg List.tail hEq
            simp only [List.tail_cons, List.tail_drop] at htl
            exact ih (idx + 1) m2 hm hml htl

/-- Under well-formed distinct slices the shared-prefix loop of
`branch_in_tail` never indexes out of bounds, and any split point it
returns has non-empty remainders. -/
theorem bitLoop_wf {α : Type} (sep old : ℤ) :
    ∀ (p suffix : List ℕ) (t : Trie α) (s : ℤ),
      KeyWF p → KeyWF suffix → p ≠ suffix →
      BitOk (Trie.bitLoop sep old t s p suffix) := by
  intro p
  induction p with
  | nil => exact fun suffix t s hp _ _ => absurd hp KeyWF.not_nil
  | cons p0 prest ih =>
    intro suffix t s hp hs hne
    cases suffix with
    | nil => exact absurd hs KeyWF.not_nil
    | cons s0 srest =>
      rw [Trie.bitLoop]
      split
      · rename_i hps
        split
        · rename_i heq
          exact absurd heq (insert_branch_ne_oob _ _ _)
        · trivial
        · trivial
        · rename_i da1 t1 heq
          split
          · split
            · rename_i heq2
              exact absurd heq2 (prune_upto_ne_oob _ _ _)
            · trivial
            · trivial
            · trivial
          · by_cases hp0 : p0 = 0
            · subst hp0
              have h1 : prest = [] := KeyWF.zero_head hp
              have h2 : srest = [] := by
                rw [← hps] at hs
                exact KeyWF.zero_head hs
              exact absurd (by rw [h1, h2, ← hps]) hne
            · have hp2 := KeyWF.cons_tail hp0 hp
              have hs0 : ¬ s0 = 0 := by
                rw [← hps]
                exact hp0
              have hs2 := KeyWF.cons_tail hs0 hs
              have hne2 : prest ≠ srest := fun hE => hne (by rw [hps, hE])
              exact ih srest _ t1 hp2 hs2 hne2
      · exact ⟨List.cons_ne_nil _ _, List.cons_ne_nil _ _⟩

/-- With a non-empty suffix `branch_in_branch` never indexes out of
bounds. -/
theorem branch_in_branch_ne_oob {α : Type} (t : Trie α) (s : ℤ)
    (suffix : List ℕ) (data : α) (hne : suffix ≠ []) :
    t.branch_in_branch s suffix data ≠ .oob := by
  unfold Trie.branch_in_branch
  split
  · exact absurd rfl hne
  · split
    · rename_i heq
      exact absurd heq (insert_branch_ne_oob _ _ _)
    · exact fun h => Res.noConfusion h
    · exact fun h => Res.noConfusion h
    · split
      · exact fun h => Res.noConfusion h
      · exact fun h => Res.noConfusion h

/-- With a sane tail, a well-formed suffix distinct from the stored
one, `branch_in_tail` never indexes out of bounds. -/
theorem branch_in_tail_ne_oob {α : Type} (t : Trie α) (s : ℤ)
    (suffix : List ℕ) (data : α) (htail : TailOk t.ro.tail)
    (hsuf : KeyWF suffix)
    (hne : ∀ osuf, t.ro.tail.get_suffix (t.ro.da.get_tail_index s) = some osuf →
      osuf ≠ suffix) :
    t.branch_in_tail s suffix data ≠ .oob := by
  simp only [Trie.branch_in_tail]
  split
  · exact fun h => Res.noConfusion h
  · rename_i osuf hos
    have hb := bitLoop_wf s (t.ro.da.get_tail_index s) osuf suffix t s
      (htail _ _ hos) hsuf (hne osuf hos)
    split
    · rename_i heq
      rw [heq] at hb
      exact hb.elim
    · exact fun h => Res.noConfusion h
    · exact fun h => Res.noConfusion h
    · exact fun h => Res.noConfusion h
    · rename_i t1 s1 p sfx heq
      rw [heq] at hb
      have hb2 : p ≠ [] ∧ sfx ≠ [] := hb
      split
      · exact absurd rfl hb2.1
      · split
        · rename_i heq2
          exact absurd heq2 (insert_branch_ne_oob _ _ _)
        · exact fun h => Res.noConfusion h
        · exact fun h => Res.noConfusion h
        · split
          · split
            · rename_i heq3
              exact absurd heq3 (prune_upto_ne_oob _ _ _)
            · exact fun h => Res.noConfusion h
            · exact fun h => Res.noConfusion h
            · exact fun h => Res.noConfusion h
          · exact branch_in_branch_ne_oob _ _ _ _ hb2.2

/-- Under a well-formed key, a sane alphabet map and a sane tail,
`store_conditionally` never indexes out of bounds. -/
theorem store_conditionally_ne_oob {α : Type} (t : Trie α) (key : List ℕ)
    (data : α) (ow : Bool) (hkey : KeyWF key) (ham : AmOk t.ro.alpha_map)
    (htail : TailOk t.ro.tail) :
    t.store_conditionally key data ow ≠ .oob := by
  have hda := storeDALoop_wf t.ro key t.ro.da.get_root hkey
  simp only [Trie.store_conditionally]
  split
  · rename_i heq
    rw [heq] at hda
    exact hda.elim
  · exact fun h => Res.noConfusion h
  · exact fun h => Res.noConfusion h
  · exact fun h => Res.noConfusion h
  · rename_i s p heq
    split
    · exact fun h => Res.noConfusion h
    · rename_i ks hks
      exact branch_in_branch_ne_oob _ _ _ _ (by
        obtain ⟨m, _, hkse⟩ := char_to_trie_str_parts hks
        rw [hkse]
        exact List.append_ne_nil_of_right_ne_nil m (List.cons_ne_nil _ _))
  · rename_i s p heq
    rw [heq] at hda
    split
    · exact fun h => Res.noConfusion h
    · rename_i hmm
      split
      · exact fun h => Res.noConfusion h
      · rename_i tail_str hts
        refine branch_in_tail_ne_oob t s tail_str data htail
          (char_to_trie_str_wf ham hts) ?_
        intro osuf hos hEq
        obtain ⟨m, hmapm, hks⟩ := char_to_trie_str_parts hts
        refine storeTailLoop_mismatch_ne t.ro _ osuf hos p 0 m hmm hmapm ?_
        rw [List.drop_zero, hEq, hks]
        simp only [TRIE_CHAR_TERM]
    · split
      · exact fun h => Res.noConfusion h
      · exact fun h => Res.noConfusion h

/-- Under a well-formed key `delete` never indexes out of bounds. -/
theorem delete_ne_oob {α : Type} (t : Trie α) (key : List ℕ)
    (hkey : KeyWF key) : t.delete key ≠ .oob := by
  have hda := deleteDALoop_wf t.ro key t.ro.da.get_root hkey
  simp only [Trie.delete]
  split
  · rename_i heq
    rw [heq] at hda
    exact hda.elim
  · exact fun h => Res.noConfusion h
  · exact fun h => Res.noConfusion h
  · exact fun h => Res.noConfusion h
  · exact fun h => Res.noConfusion h
  · split
    · exact fun h => Res.noConfusion h
    · exact fun h => Res.noConfusion h
    · split
      · rename_i heq2
        exact absurd heq2 (prune_ne_oob _ _)
      · exact fun h => Res.noConfusion h
      · exact fun h => Res.noConfusion h
      · exact fun h => Res.noConfusion h

/-- On the empty slice the store walk indexes out of bounds whenever
the entry state is not separate. -/
theorem storeDALoop_nil_oob {α : Type} (ro : ROTrie α) (s : ℤ)
    (hsep : ro.da.is_separate s = false) :
    ro.storeDALoop s [] = .oob := by
  have hc : ¬ ro.da.is_separate s = true := by
    rw [hsep]
    exact Bool.false_ne_true
  rw [ROTrie.storeDALoop, if_pos hc]

/-- On the empty slice the delete walk indexes out of bounds whenever
the entry state is not separate. -/
theorem deleteDALoop_nil_oob {α : Type} (ro : ROTrie α) (s : ℤ)
    (hsep : ro.da.is_separate s = false) :
    ro.deleteDALoop s [] = .oob := by
  have hc : ¬ ro.da.is_separate s = true := by
    rw [hsep]
    exact Bool.false_ne_true
  rw [ROTrie.deleteDALoop, if_pos hc]

/-- The decidable well-formedness check implies `KeyWF`. -/
theorem keyWFB_KeyWF {key : List ℕ} (h : keyWFB key = true) : KeyWF key := by
  unfold keyWFB at h
  rw [Bool.and_eq_true] at h
  obtain ⟨h1, h2⟩ := h
  rw [decide_eq_true_eq] at h1
  have hne : key ≠ [] := by
    intro he
    rw [he] at h1
    exact Option.noConfusion h1
  refine ⟨key.dropLast, ?_, ?_⟩
  · have hg : key.getLast hne = 0 := by
      have := List.getLast?_eq_getLast key hne
      rw [h1] at this
      exact (Option.some.inj this).symm
    rw [← hg]
    exact (List.dropLast_append_getLast hne).symm
  · intro hm
    rw [Bool.not_eq_true'] at h2
    rw [← List.elem_iff] at hm
    have h3 : List.elem 0 key.dropLast = false := h2
    rw [hm] at h3
    exact Bool.noConfusion h3

/-- The decidable alphabet-map check implies `AmOk`. -/
theorem amOkB_AmOk {am : AlphaMap} (h : amOkB am = true) : AmOk am := by
  intro ac v hac hct
  unfold AlphaMap.char_to_trie at hct
  rw [if_neg hac] at hct
  split at hct
  · split at hct
    · rename_i v2 hg
      split at hct
      · exact Option.noConfusion hct
      · rename_i hvmax
        have hv : v2 = v := Option.some.inj hct
        subst hv
        unfold amOkB at h
        rw [List.all_eq_true] at h
        have hall := h v2 (List.get?_mem hg)
        simp only [Bool.or_eq_true, decide_eq_true_eq, Bool.not_eq_true',
          decide_eq_false_iff_not] at hall
        rcases hall with hmax | hnz
        · exact absurd hmax hvmax
        · exact hnz
    · exact Option.noConfusion hct
  · exact Option.noConfusion hct

/-- The decidable tail check implies `TailOk`. -/
theorem tailOkB_TailOk {α : Type} {tl : Tail α} (h : tailOkB tl = true) :
    TailOk tl := by
  intro t suf hsuf
  unfold Tail.get_suffix Tail.entry? at hsuf
  split at hsuf
  · exact Option.noConfusion hsuf
  · rcases hg : tl.entries.get? t.toNat with _ | e
    · rw [hg] at hsuf
      exact Option.noConfusion hsuf
    · rw [hg] at hsuf
      have hsuf2 : e.suffix = some suf := hsuf
      unfold tailOkB at h
      rw [List.all_eq_true] at h
      have hm := h e (List.get?_mem hg)
      rw [hsuf2] at hm
      exact keyWFB_KeyWF hm

/-- C10: `store`, `store_if_absent` and `delete` index the key slice
without an emptiness check: when the key slice is non-empty with its
only `0` element final, and the alphabet map and tail are sane, no
out-of-bounds slice index is reachable in these operations; on the
empty slice the first `p[0]` access is out of bounds. -/
theorem C10_key_index_safety (α : Type) :
    (∀ (t : Trie α) (key : List ℕ) (data : α),
      KeyWF key → AmOk t.ro.alpha_map → TailOk t.ro.tail →
        t.store key data ≠ .oob ∧ t.store_if_absent key data ≠ .oob ∧
        t.delete key ≠ .oob) ∧
    (∀ (t : Trie α) (data : α),
      t.ro.da.is_separate t.ro.da.get_root = false →
        t.store [] data = .oob ∧ t.store_if_absent [] data = .oob ∧
        t.delete [] = .oob) := by
  constructor
  · intro t key data hkey ham htail
    exact ⟨store_conditionally_ne_oob t key data true hkey ham htail,
      store_conditionally_ne_oob t key data false hkey ham htail,
      delete_ne_oob t key hkey⟩
  · intro t data hsep
    refine ⟨?_, ?_, ?_⟩
    · show t.store_conditionally [] data true = .oob
      simp only [Trie.store_conditionally,
        storeDALoop_nil_oob t.ro t.ro.da.get_root hsep]
    · show t.store_conditionally [] data false = .oob
      simp only [Trie.store_conditionally,
        storeDALoop_nil_oob t.ro t.ro.da.get_root hsep]
    · simp only [Trie.delete,
        deleteDALoop_nil_oob t.ro t.ro.da.get_root hsep]

/-- Witness for C10 on the concrete trie `wT1` over `a..=z`. -/
theorem C10_witness :
    (KeyWF wKeyAB ∧ AmOk wT1.ro.alpha_map ∧ TailOk wT1.ro.tail ∧
      wT1.store wKeyAB (7 : ℤ) ≠ .oob ∧ wT1.store_if_absent wKeyAB 7 ≠ .oob ∧
      wT1.delete wKeyAB ≠ .oob) ∧
    (wT1.ro.da.is_separate wT1.ro.da.get_root = false ∧
      wT1.store [] (7 : ℤ) = .oob ∧ wT1.store_if_absent [] 7 = .oob ∧
      wT1.delete [] = .oob) := by
  have hk : KeyWF wKeyAB := keyWFB_KeyWF (by decide)
  have ham : AmOk wT1.ro.alpha_map := amOkB_AmOk (by rfl)
  have htl : TailOk wT1.ro.tail := tailOkB_TailOk (by rfl)
  have hsep : wT1.ro.da.is_separate wT1.ro.da.get_root = false := by rfl
  have hA := (C10_key_index_safety ℤ).1 wT1 wKeyAB 7 hk ham htl
  have hB := (C10_key_index_safety ℤ).2 wT1 7 hsep
  exact ⟨⟨hk, ham, htl, hA.1, hA.2.1, hA.2.2⟩, ⟨hsep, hB.1, hB.2.1, hB.2.2⟩⟩

/-- Reading back four serialized `u32` bytes recovers the value. -/
theorem readU32BE_u32Bytes (x : ℕ) (h : x < U32MOD) (rest : List ℕ) :
    readU32BE (u32BytesBE x ++ rest) = some (x, rest) := by
  simp only [u32BytesBE, List.cons_append, List.nil_append, readU32BE]
  rw [Option.some.injEq, Prod.mk.injEq]
  refine ⟨?_, rfl⟩
  simp only [U32MOD] at h ⊢
  omega

/-- Reading back four serialized `i32` bytes recovers the twos
complement image. -/
theorem readU32BE_i32Bytes (z : ℤ) (h1 : -(2 ^ 31) ≤ z) (h2 : z < 2 ^ 31)
    (rest : List ℕ) :
    readU32BE (i32BytesBE z ++ rest) = some ((z % (U32MOD : ℤ)).toNat, rest) := by
  unfold i32BytesBE
  apply readU32BE_u32Bytes
  simp only [U32MOD]
  omega

/-- Reinterpreting the twos-complement image recovers an `i32`
value. -/
theorem asI32_mod (z : ℤ) (h1 : -(2 ^ 31) ≤ z) (h2 : z < 2 ^ 31) :
    asI32 (z % (U32MOD : ℤ)).toNat = z := by
  unfold asI32
  simp only [U32MOD]
  split <;> omega

/-- Phase 1 of `add_range_only` walks past every range that ends
strictly below the new begin. -/
theorem aroPhase1_all (bg : ℕ) :
    ∀ (l pre : List ARange),
      (∀ q ∈ l, q.1 ≤ q.2 ∧ q.2 + 1 < bg ∧ q.2 + 1 < U32MOD) →
      aroPhase1 bg pre l = (l.reverse ++ pre, false, []) := by
  intro l
  induction l with
  | nil =>
    intro pre _
    simp [aroPhase1]
  | cons r tl ih =>
    intro pre hq
    obtain ⟨h1, h2, h3⟩ := hq r (List.mem_cons_self _ _)
    rw [aroPhase1]
    rw [if_pos (by omega)]
    rw [if_neg (by omega)]
    rw [if_neg (by unfold w1 U32MOD at *; omega)]
    rw [ih (r :: pre) (fun q hm => hq q (List.mem_cons_of_mem _ hm))]
    simp

/-- Appending a range above every existing one through
`add_range_only` extends the list at the back. -/
theorem add_range_only_append (l : List ARange) (b e : ℕ)
    (hl : ∀ q ∈ l, q.1 ≤ q.2 ∧ q.2 + 1 < b ∧ q.2 + 1 < U32MOD)
    (hbe : b ≤ e) :
    alpha_map_add_range_only l b e = .ok (l ++ [(b, e)]) := by
  unfold alpha_map_add_range_only
  rw [if_neg (by omega)]
  rw [aroPhase1_all b l [] hl]
  simp only [List.append_nil]
  rcases hrev : l.reverse with _ | ⟨q, tl⟩
  · have hl0 : l = [] := by
      rw [← List.reverse_reverse l, hrev]
      rfl
    subst hl0
    simp [aroPhase3, aroPhase5]
  · have hq : q ∈ l := by
      rw [← List.mem_reverse, hrev]
      exact List.mem_cons_self _ _
    have hqb := (hl q hq).2.1
    simp only [aroPhase3]
    rw [if_neg (by omega)]
    simp only [aroPhase5, aroMerge]
    rw [← hrev]
    simp

/-- Reading back a serialized canonical range list re-adds every range
at the back. -/
theorem amReadRanges_serialized (rest : List ℕ) :
    ∀ (l acc : List ARange),
      (∀ q ∈ acc, q.1 ≤ q.2 ∧ q.2 < ALPHA_CHAR_ERROR) →
      (∀ q ∈ acc, ∀ r ∈ l, q.2 + 1 < r.1) →
      (∀ r ∈ l, r.1 ≤ r.2 ∧ r.2 < ALPHA_CHAR_ERROR) →
      l.Chain' rgap →
      amReadRanges l.length acc
        (l.flatMap (fun r => u32BytesBE r.1 ++ u32BytesBE r.2) ++ rest)
        = .ok (acc ++ l, rest) := by
  intro l
  induction l with
  | nil =>
    intro acc _ _ _ _
    simp [amReadRanges]
  | cons r tl ih =>
    intro acc hacc hsep hl hch
    obtain ⟨hr1, hr2⟩ := hl r (List.mem_cons_self _ _)
    have hb1 : r.1 < U32MOD := by
      unfold ALPHA_CHAR_ERROR U32MOD at *
      omega
    have hb2 : r.2 < U32MOD := by
      unfold ALPHA_CHAR_ERROR U32MOD at *
      omega
    have hAdd : ∀ q ∈ acc, q.1 ≤ q.2 ∧ q.2 + 1 < r.1 ∧ q.2 + 1 < U32MOD := by
      intro q hm
      have h1 := (hacc q hm).1
      have h2 := (hacc q hm).2
      have h3 := hsep q hm r (List.mem_cons_self _ _)
      unfold ALPHA_CHAR_ERROR U32MOD at *
      omega
    rw [List.flatMap_cons, List.length_cons, List.append_assoc,
      List.append_assoc]
    simp only [amReadRanges, readU32BE_u32Bytes r.1 hb1,
      readU32BE_u32Bytes r.2 hb2,
      add_range_only_append acc r.1 r.2 hAdd hr1]
    have heta : ((r.1, r.2) : ARange) = r := rfl
    rw [heta]
    have hacc2 : ∀ q ∈ acc ++ [r], q.1 ≤ q.2 ∧ q.2 < ALPHA_CHAR_ERROR := by
      intro q hm
      rcases List.mem_append.mp hm with hm | hm
      · exact hacc q hm
      · rw [List.mem_singleton] at hm
        subst hm
        exact ⟨hr1, hr2⟩
    have hsep2 : ∀ q ∈ acc ++ [r], ∀ x ∈ tl, q.2 + 1 < x.1 := by
      intro q hm x hx
      rcases List.mem_append.mp hm with hm | hm
      · exact hsep q hm x (List.mem_cons_of_mem _ hx)
      · rw [List.mem_singleton] at hm
        subst hm
        exact rgap_chain_lt (fun y hy => (hl y (List.mem_cons_of_mem _ hy)).1)
          hch x hx
    rw [ih (acc ++ [r]) hacc2 hsep2
      (fun x hx => hl x (List.mem_cons_of_mem _ hx)) hch.tail]
    simp

/-- Reading back a serialized well-formed alphabet map recovers it. -/
theorem amRead_serialized (am : AlphaMap) (h : AmWF am) (rest : List ℕ) :
    amRead (amSerialize am ++ rest) = .ok (am, rest) := by
  obtain ⟨⟨hwf, hch⟩, hlen, hrec⟩ := h
  have hz : -(2 ^ 31) ≤ (am.ranges.length : ℤ) := by omega
  unfold amSerialize
  rw [List.append_assoc, List.append_assoc]
  simp only [amRead, readU32BE_u32Bytes ALPHAMAP_SIGNATURE (by decide),
    readU32BE_i32Bytes (am.ranges.length : ℤ) hz hlen, ne_eq,
    not_true_eq_false, if_false, asI32_mod (am.ranges.length : ℤ) hz hlen,
    Int.toNat_natCast]
  rw [amReadRanges_serialized rest am.ranges [] (by simp) (by simp) hwf hch]
  simp only [List.nil_append]
  rw [hrec]

/-- Reading back serialized cells recovers them. -/
theorem readCells_serialized (rest : List ℕ) :
    ∀ (cs acc : List DACell),
      (∀ c ∈ cs, I32Range c.base ∧ I32Range c.check) →
      DArray.readCells cs.length acc
        (cs.flatMap (fun c => i32BytesBE c.base ++ i32BytesBE c.check) ++ rest)
        = .ok (acc ++ cs, rest) := by
  intro cs
  induction cs with
  | nil =>
    intro acc _
    simp [DArray.readCells]
  | cons c cs ih =>
    intro acc hc
    obtain ⟨hb, hk⟩ := hc c (List.mem_cons_self _ _)
    rw [List.flatMap_cons, List.length_cons, List.append_assoc,
      List.append_assoc]
    simp only [DArray.readCells, readU32BE_i32Bytes c.base hb.1 hb.2,
      readU32BE_i32Bytes c.check hk.1 hk.2, asI32_mod c.base hb.1 hb.2,
      asI32_mod c.check hk.1 hk.2]
    have heta : (⟨c.base, c.check⟩ : DACell) = c := rfl
    rw [heta, ih (acc ++ [c]) (fun x hx => hc x (List.mem_cons_of_mem _ hx))]
    simp

/-- Reading back a serialized well-formed double-array recovers it. -/
theorem darray_read_serialized (d : DArray) (h : DArrayWF d) (rest : List ℕ) :
    DArray.read (d.serialize ++ rest) = .ok (d, rest) := by
  obtain ⟨hne, hlen, hbase, hcheck, hcells⟩ := h
  rcases hcs : d.cells with _ | ⟨c0, cs⟩
  · exact absurd hcs hne
  rw [hcs] at hbase hcheck hcells hlen
  simp only [List.head?_cons, Option.getD_some] at hbase hcheck
  have hsig : (asI32 DA_SIGNATURE % (U32MOD : ℤ)).toNat = DA_SIGNATURE := by decide
  have hsigR : I32Range (asI32 DA_SIGNATURE) := by
    constructor <;> decide
  have hlen0 : (0 : ℤ) ≤ ((c0 :: cs).length : ℤ) := by omega
  unfold DArray.serialize
  rw [hcs, List.flatMap_cons, List.append_assoc, List.append_assoc]
  simp only [DArray.read, hbase, hcheck,
    readU32BE_i32Bytes (asI32 DA_SIGNATURE) hsigR.1 hsigR.2,
    readU32BE_i32Bytes ((c0 :: cs).length : ℤ) (by omega) hlen, hsig, ne_eq,
    not_true_eq_false, if_false,
    asI32_mod ((c0 :: cs).length : ℤ) (by omega) hlen]
  rw [if_neg (by omega)]
  have hparm : (((c0 :: cs).length : ℤ) - 1).toNat = cs.length := by
    rw [List.length_cons]
    omega
  rw [hparm]
  rw [readCells_serialized rest cs [⟨asI32 DA_SIGNATURE, ((c0 :: cs).length : ℤ)⟩]
    (fun x hx => hcells x (List.mem_cons_of_mem _ hx))]
  have hc0 : (⟨asI32 DA_SIGNATURE, ((c0 :: cs).length : ℤ)⟩ : DACell) = c0 := by
    rw [← hbase, ← hcheck]
  rw [hc0]
  rw [List.singleton_append]
  rw [← hcs]

/-- Reading back one serialized well-formed tail entry recovers it. -/
theorem tailEntry_read_serialized (e : TailEntry ℤ) (h : TailEntryWF e)
    (rest : List ℕ) :
    TailEntry.read (e.serialize ++ rest) = some (e, rest) := by
  obtain ⟨hnf, hcase⟩ := h
  rcases hcase with ⟨hs, hd⟩ | ⟨hs, hd, hne, hlt, hlt256, hdr⟩
  · have h16 : i16BytesBE 0 = [0, 0] := by decide
    simp only [TailEntry.serialize, hs, hd, Option.getD_none, h16,
      List.append_assoc, List.cons_append, List.nil_append]
    simp only [TailEntry.read, readU32BE_i32Bytes e.next_free hnf.1 hnf.2,
      Option.bind_eq_bind, Option.some_bind,
      readU32BE_i32Bytes 0 (by decide) (by decide)]
    norm_num
    rw [readU32BE_i32Bytes 0 (by decide) (by decide), Option.some_bind]
    rw [Option.some.injEq, Prod.mk.injEq]
    exact ⟨by rw [asI32_mod e.next_free hnf.1 hnf.2, ← hs, ← hd], rfl⟩
  · have hlen16 : ((e.suffix.getD []).length : ℤ) % 65536
        = ((e.suffix.getD []).length : ℤ) := by
      omega
    have h16 : i16BytesBE ((e.suffix.getD []).length : ℤ)
        = [(e.suffix.getD []).length / 256, (e.suffix.getD []).length % 256] := by
      unfold i16BytesBE
      rw [hlen16]
      rw [Int.toNat_natCast]
    have hmap : (e.suffix.getD []).map (· % 256) = e.suffix.getD [] := by
      conv_rhs => rw [← List.map_id (e.suffix.getD [])]
      exact List.map_congr_left (fun x hx => Nat.mod_eq_of_lt (hlt256 x hx))
    conv_lhs => rw [TailEntry.serialize, hs, hd]
    simp only [h16, hmap, List.append_assoc, List.cons_append, List.nil_append,
      Option.getD_some]
    simp only [TailEntry.read, readU32BE_i32Bytes e.next_free hnf.1 hnf.2,
      Option.bind_eq_bind, Option.some_bind]
    have hlen2 : (e.suffix.getD []).length / 256 % 256 * 256
        + (e.suffix.getD []).length % 256 % 256 = (e.suffix.getD []).length := by
      omega
    rw [hlen2]
    rw [if_neg (by omega)]
    rw [List.take_left, List.drop_left]
    rw [if_neg (by omega)]
    rw [readU32BE_i32Bytes (e.data.getD 0) hdr.1 hdr.2, Option.some_bind]
    rw [if_neg (by
      intro hc
      exact hne (List.length_eq_zero.mp hc))]
    rw [asI32_mod e.next_free hnf.1 hnf.2, asI32_mod (e.data.getD 0) hdr.1 hdr.2]
    rw [Option.some.injEq, Prod.mk.injEq]
    exact ⟨by rw [← hs, ← hd], rfl⟩

/-- Reading back serialized well-formed tail entries recovers them. -/
theorem readEntries_serialized (rest : List ℕ) :
    ∀ (es acc : List (TailEntry ℤ)),
      (∀ e ∈ es, TailEntryWF e) →
      Tail.readEntries es.length acc (es.flatMap TailEntry.serialize ++ rest)
        = .ok (acc ++ es, rest) := by
  intro es
  induction es with
  | nil =>
    intro acc _
    simp [Tail.readEntries]
  | cons e es ih =>
    intro acc he
    rw [List.flatMap_cons, List.length_cons, List.append_assoc]
    simp only [Tail.readEntries,
      tailEntry_read_serialized e (he e (List.mem_cons_self _ _))]
    rw [ih (acc ++ [e]) (fun x hx => he x (List.mem_cons_of_mem _ hx))]
    simp

/-- Reading back a serialized well-formed tail recovers it. -/
theorem tail_read_serialized (tl : Tail ℤ) (h : TailWF tl) (rest : List ℕ) :
    Tail.read (tl.serialize ++ rest) = .ok (tl, rest) := by
  obtain ⟨hne, hlen, hs0s, hs0d, hs0n, hes⟩ := h
  rcases hcs : tl.entries with _ | ⟨s0, es⟩
  · exact absurd hcs hne
  rw [hcs] at hlen hs0s hs0d hs0n hes
  simp only [List.head?_cons, Option.getD_some] at hs0s hs0d hs0n
  have hm1 : -(2 ^ 31) ≤ ((s0 :: es).length : ℤ) - 1 := by
    rw [List.length_cons]
    omega
  have hent : tl.entry? 0 = some s0 := by
    unfold Tail.entry?
    rw [if_neg (by omega), hcs]
    rfl
  unfold Tail.serialize
  rw [hcs, hent, Option.getD_some, List.drop_one, List.tail_cons]
  simp only [List.append_assoc]
  simp only [Tail.read, readU32BE_u32Bytes TAIL_SIGNATURE (by decide), ne_eq,
    not_true_eq_false, if_false,
    readU32BE_i32Bytes (((s0 :: es).length : ℤ) - 1) hm1 hlen,
    readU32BE_i32Bytes s0.next_free hs0n.1 hs0n.2,
    asI32_mod (((s0 :: es).length : ℤ) - 1) hm1 hlen,
    asI32_mod s0.next_free hs0n.1 hs0n.2]
  rw [if_neg (by rw [List.length_cons]; omega)]
  have hparm : (((s0 :: es).length : ℤ) - 1).toNat = es.length := by
    rw [List.length_cons]
    omega
  rw [hparm]
  rw [readEntries_serialized rest es [{ next_free := s0.next_free }] hes]
  have hs0 : ({ next_free := s0.next_free } : TailEntry ℤ) = s0 := by
    rw [← hs0s, ← hs0d]
  rw [hs0, List.singleton_append, ← hcs]

/-- Reading back a serialized well-formed read-only trie recovers
it. -/
theorem from_reader_serialized (ro : ROTrie ℤ) (h : SerialWF ro)
    (rest : List ℕ) :
    ROTrie.from_reader (ro.serialize ++ rest) = .ok (ro, rest) := by
  obtain ⟨ham, hda, htl⟩ := h
  unfold ROTrie.serialize
  simp only [List.append_assoc]
  simp only [ROTrie.from_reader, amRead_serialized ro.alpha_map ham,
    darray_read_serialized ro.da hda, tail_read_serialized ro.tail htl]

/-- C4: on a serializable trie (header cells intact, all values in
range, canonical alphabet ranges — invariants of every trie built by
store and delete), deserializing the serialized bytes yields a trie
with the same read-only state, hence the same key-to-payload map, and
re-serializing it reproduces the byte stream exactly. -/
theorem C4_serialize_roundtrip (t : Trie ℤ) (h : SerialWF t.ro) :
    ∃ t2 : Trie ℤ, Trie.from_reader t.serialize.1 = .ok (t2, []) ∧
      t2.ro = t.ro ∧ (∀ key, t2.retrieve key = t.retrieve key) ∧
      t2.serialize.1 = t.serialize.1 := by
  refine ⟨{ ro := t.ro, is_dirty := false }, ?_, rfl, fun key => rfl, rfl⟩
  unfold Trie.from_reader
  have hser : t.serialize.1 = t.ro.serialize ++ [] := by
    rw [List.append_nil]
    rfl
  rw [hser, from_reader_serialized t.ro h []]

/-- Witness for C4 on the two-key trie `wT2`. -/
theorem C4_witness :
    SerialWF wT2.ro ∧
    ∃ t2 : Trie ℤ, Trie.from_reader wT2.serialize.1 = .ok (t2, []) ∧
      t2.ro = wT2.ro ∧ (∀ key, t2.retrieve key = wT2.retrieve key) ∧
      t2.serialize.1 = wT2.serialize.1 := by
  have hr : wT2.ro.alpha_map.ranges = [(97, 122)] := by decide
  have h : SerialWF wT2.ro := by
    refine ⟨⟨⟨by decide, ?_⟩, by decide, by decide⟩,
      ⟨by decide, by decide, by decide, by decide, by decide⟩,
      ⟨by decide, by decide, by decide, by decide, by decide, by decide⟩⟩
    rw [hr]
    exact List.chain'_singleton _
  exact ⟨h, C4_serialize_roundtrip wT2 h⟩

/-- A run of `a` characters survives the terminator-bounded prefix
extraction. -/
theorem takeWhile_replicate_a (n : ℕ) :
    (List.replicate n 97 ++ [0]).takeWhile (· ≠ 0) = List.replicate n 97 := by
  induction n with
  | zero => rfl
  | succ k ih =>
    rw [List.replicate_succ, List.cons_append,
      List.takeWhile_cons_of_pos (by decide), ih]

/-- Packing a run of `a` characters with `wAm` maps each to the
symbol `1`. -/
theorem mapM_replicate_a (n : ℕ) :
    (List.replicate n 97).mapM
      (fun ac => (wAm.char_to_trie ac).map (fun v => (v % 256).toNat)) =
      some (List.replicate n 1) := by
  induction n with
  | zero => rfl
  | succ k ih =>
    rw [List.replicate_succ, List.mapM_cons, ih]
    rfl

/-- Packing a terminated run of `a` characters with `wAm`. -/
theorem char_to_trie_str_replicate_a (n : ℕ) :
    wAm.char_to_trie_str (List.replicate n 97 ++ [0]) =
      some (List.replicate n 1 ++ [0]) := by
  rw [AlphaMap.char_to_trie_str, takeWhile_replicate_a n, mapM_replicate_a n]
  rfl

/-- On the fresh trie the double-array walk stops at the root with
the whole key left, whatever follows its first `a`. -/
theorem storeDALoop_wT0_a (R : List ℕ) :
    wT0.ro.storeDALoop wT0.ro.da.get_root (97 :: R) =
      .ok (.branch 2 (97 :: R)) := rfl

/-- `branch_in_branch` on the fresh trie with first packed symbol
`1`: a new walkable cell `4` is inserted, pointing at a fresh tail
slot holding the remaining symbols (terminator ensured). -/
theorem branch_in_branch_wT0 (S : List ℕ) :
    wT0.branch_in_branch 2 (1 :: S) 9 =
      .ok ({ ro := { alpha_map := wAm
                     da := { cells := [⟨-620963076, 5⟩, ⟨-3, -3⟩, ⟨3, 0⟩,
                       ⟨-1, -1⟩, ⟨-1, 2⟩] }
                     tail := { entries := [{ next_free := 0 },
                       { next_free := 0, suffix := some (ensureTerm S),
                         data := some 9 }] } }
             is_dirty := true }, true) := rfl

/-- The long suffix already ends in the terminator. -/
theorem ensureTerm_wLongSuffix : ensureTerm wLongSuffix = wLongSuffix := by
  have h : wLongSuffix.getLast? = some TRIE_CHAR_TERM := by
    rw [wLongSuffix]
    exact List.getLast?_concat _
  rw [ensureTerm, if_pos h]

/-- The long suffix has `2^15 + 2` symbols. -/
theorem wLongSuffix_length : wLongSuffix.length = 32770 := by
  rw [wLongSuffix, List.length_append, List.length_replicate]
  rfl

/-- Deserializing a serialized two-entry tail whose stored suffix has
length in `[2^15, 2^16)` fails with `IoError`: the length is written
as an `i16`, which the entry reader rejects as negative. -/
theorem tail_read_long (suf : List ℕ) (hl : 2 ^ 15 ≤ suf.length)
    (hu : suf.length < 2 ^ 16) :
    Tail.read (Tail.serialize
      { entries := [{ next_free := 0 },
        { next_free := 0, suffix := some suf, data := some 9 }] }) =
      .error .ioError := by
  have hser : Tail.serialize
      { entries := [{ next_free := 0 },
        { next_free := 0, suffix := some suf, data := some 9 }] } =
      u32BytesBE TAIL_SIGNATURE ++ i32BytesBE 1 ++ i32BytesBE 0 ++
        ((i32BytesBE 0 ++ (i16BytesBE (suf.length : ℤ) ++
          suf.map (fun x => x % 256)) ++ i32BytesBE 9) ++ []) := rfl
  have hent : TailEntry.read
      (i32BytesBE 0 ++ (i16BytesBE (suf.length : ℤ) ++
        (suf.map (fun x => x % 256) ++ (i32BytesBE 9 ++ [])))) = none := by
    simp only [TailEntry.read, readU32BE_i32Bytes 0 (by decide) (by decide),
      Option.bind_eq_bind, Option.some_bind]
    simp only [i16BytesBE, List.cons_append, List.nil_append]
    rw [if_pos (by omega)]
  have hent1 : Tail.readEntries 1 [{ next_free := (0 : ℤ) }]
      (i32BytesBE 0 ++ (i16BytesBE (suf.length : ℤ) ++
        (suf.map (fun x => x % 256) ++ (i32BytesBE 9 ++ [])))) =
      .error .ioError := by
    rw [show (1 : ℕ) = 0 + 1 from rfl]
    simp only [Tail.readEntries, hent]
  rw [hser]
  simp only [List.append_assoc]
  simp only [Tail.read, readU32BE_u32Bytes TAIL_SIGNATURE (by decide), ne_eq,
    not_true_eq_false, if_false,
    readU32BE_i32Bytes 1 (by decide) (by decide),
    readU32BE_i32Bytes 0 (by decide) (by decide),
    asI32_mod 1 (by decide) (by decide),
    asI32_mod 0 (by decide) (by decide)]
  rw [if_neg (by decide)]
  simp only [Int.toNat_one, hent1]

/-- A failing tail read surfaces as the result of the whole trie
read, after the alphabet map and double-array sections parse back. -/
theorem from_reader_tail_error (am : AlphaMap) (ham : AmWF am) (d : DArray)
    (hd : DArrayWF d) (tb : List ℕ) (e : AmReadErr)
    (htb : Tail.read tb = .error e) :
    Trie.from_reader (amSerialize am ++ (d.serialize ++ tb)) = .error e := by
  rw [Trie.from_reader]
  simp only [ROTrie.from_reader, amRead_serialized am ham,
    darray_read_serialized d hd, htb]

/-- C4, counterexample: the claim quantifies over every store-built
trie, but storing the single `2^15 + 2`-character key `wKeyLong`
succeeds and yields `wTLong`, whose stored tail suffix has `2^15 + 2`
symbols; its length is serialized through a 16-bit field, so
deserializing the serialized bytes fails with `IoError` instead of
reproducing the trie. -/
theorem C4_counterexample :
    wT0.store wKeyLong 9 = .ok (wTLong, true) ∧
    Trie.from_reader wTLong.serialize.1 = .error .ioError := by
  constructor
  · rw [Trie.store, Trie.store_conditionally]
    have hkey : wKeyLong = 97 :: (List.replicate 32769 97 ++ [0]) := by
      rw [wKeyLong, show (32770 : ℕ) = 32769 + 1 from rfl, List.replicate_succ,
        List.cons_append]
    have hloop : wT0.ro.storeDALoop wT0.ro.da.get_root wKeyLong =
        .ok (.branch 2 wKeyLong) := by
      rw [hkey]
      exact storeDALoop_wT0_a _
    simp only [hloop]
    have hstrW : wT0.ro.alpha_map.char_to_trie_str wKeyLong =
        some (1 :: wLongSuffix) := by
      show wAm.char_to_trie_str wKeyLong = some (1 :: wLongSuffix)
      rw [wKeyLong, char_to_trie_str_replicate_a]
      rw [show List.replicate 32770 1 ++ [0] = 1 :: wLongSuffix from by
        rw [wLongSuffix, show (32770 : ℕ) = 32769 + 1 from rfl,
          List.replicate_succ, List.cons_append]]
    simp only [hstrW]
    rw [branch_in_branch_wT0 wLongSuffix, ensureTerm_wLongSuffix]
    rfl
  · have hl : 2 ^ 15 ≤ wLongSuffix.length := by
      rw [wLongSuffix_length]
      norm_num
    have hu : wLongSuffix.length < 2 ^ 16 := by
      rw [wLongSuffix_length]
      norm_num
    have hAm : AmWF wAm := by
      refine ⟨⟨by decide, ?_⟩, by decide, by decide⟩
      rw [show wAm.ranges = [(97, 122)] from by decide]
      exact List.chain'_singleton _
    have hDa : DArrayWF wTLong.ro.da := by
      refine ⟨by decide, by decide, by decide, by decide, by decide⟩
    have htail : Tail.read (Tail.serialize
        { entries := [{ next_free := 0 },
          { next_free := 0, suffix := some wLongSuffix, data := some 9 }] }) =
        .error .ioError := tail_read_long wLongSuffix hl hu
    rw [show wTLong.serialize.1 =
        amSerialize wAm ++ wTLong.ro.da.serialize ++ Tail.serialize
          { entries := [{ next_free := 0 },
            { next_free := 0, suffix := some wLongSuffix, data := some 9 }] }
      from rfl]
    rw [List.append_assoc]
    exact from_reader_tail_error wAm hAm wTLong.ro.da hDa _ .ioError htail

/-- C7: when `branch_in_tail` meets an `insert_branch` failure (the
`TRIE_INDEX_ERROR` result) along the shared prefix (first and second
conjuncts) or at the branch point (third conjunct), it rolls back:
the double-array is pruned through `prune_upto sep s` from the
failure state `s`, the tail index is re-set on `sep` — restoring the
original value, last conjunct — the call returns `false`, and the
alphabet map and the tail, hence every stored suffix and payload,
are unchanged. -/
theorem C7_branch_in_tail_rollback (α : Type) :
    (∀ (sep old : ℤ) (p suffix : List ℕ) (t t1 : Trie α) (s : ℤ),
      Trie.bitLoop sep old t s p suffix = .ok (t1, none) →
      t1.ro.alpha_map = t.ro.alpha_map ∧ t1.ro.tail = t.ro.tail ∧
      ∃ (dm : DArray) (sm : ℤ) (cm : ℕ) (da1 da2 : DArray),
        dm.insert_branch sm cm = .ok (da1, TRIE_INDEX_ERROR) ∧
        da1.prune_upto sep sm = .ok da2 ∧
        t1.ro.da = da2.set_tail_index sep old) ∧
    (∀ (t t1 : Trie α) (sep : ℤ) (osuf suffix : List ℕ) (data : α),
      t.ro.tail.get_suffix (t.ro.da.get_tail_index sep) = some osuf →
      Trie.bitLoop sep (t.ro.da.get_tail_index sep) t sep osuf suffix
        = .ok (t1, none) →
      t.branch_in_tail sep suffix data = .ok (t1, false)) ∧
    (∀ (t tm : Trie α) (sep : ℤ) (osuf suffix p1 sfx1 : List ℕ) (data : α)
       (sm : ℤ) (p0 : ℕ) (da1 da2 : DArray),
      t.ro.tail.get_suffix (t.ro.da.get_tail_index sep) = some osuf →
      Trie.bitLoop sep (t.ro.da.get_tail_index sep) t sep osuf suffix
        = .ok (tm, some (sm, p0 :: p1, sfx1)) →
      tm.ro.da.insert_branch sm p0 = .ok (da1, TRIE_INDEX_ERROR) →
      da1.prune_upto sep sm = .ok da2 →
      t.branch_in_tail sep suffix data
        = .ok ({ tm with ro := { tm.ro with
            da := da2.set_tail_index sep (t.ro.da.get_tail_index sep) } },
          false)) ∧
    (∀ (d : DArray) (sep old : ℤ), 0 ≤ sep → sep.toNat < d.cells.length →
      (d.set_tail_index sep old).get_tail_index sep = old) := by
  refine ⟨?_, ?_, ?_, ?_⟩
  · intro sep old p
    induction p with
    | nil => exact fun suffix t t1 s h => Res.noConfusion h
    | cons p0 prest ih =>
      intro suffix t t1 s h
      cases suffix with
      | nil => exact Res.noConfusion h
      | cons s0 srest =>
        rw [Trie.bitLoop] at h
        split at h
        · split at h
          · exact Res.noConfusion h
          · exact Res.noConfusion h
          · exact Res.noConfusion h
          · rename_i da1x t1x heq_ins
            split at h
            · rename_i hzero
              split at h
              · exact Res.noConfusion h
              · exact Res.noConfusion h
              · exact Res.noConfusion h
              · rename_i da2x heq_pr
                rw [Res.ok.injEq, Prod.mk.injEq] at h
                obtain ⟨ht1, -⟩ := h
                subst ht1
                rw [hzero] at heq_ins
                exact ⟨rfl, rfl, t.ro.da, s, p0, da1x, da2x, heq_ins,
                  heq_pr, rfl⟩
            · obtain ⟨ha, htl, ex⟩ := ih srest _ t1 t1x h
              exact ⟨ha, htl, ex⟩
        · rw [Res.ok.injEq, Prod.mk.injEq] at h
          exact absurd h.2 (fun hh => Option.noConfusion hh)
  · intro t t1 sep osuf suffix data hos hloop
    simp only [Trie.branch_in_tail, hos, hloop]
  · intro t tm sep osuf suffix p1 sfx1 data sm p0 da1 da2 hos hloop hins hpr
    simp only [Trie.branch_in_tail, hos, hloop, hins, hpr]
    rw [if_pos trivial]
  · intro d sep old h0 hlt
    unfold DArray.set_tail_index DArray.set_base
    rw [if_neg (by omega)]
    split
    · rename_i hg
      rw [List.get?_eq_getElem?, List.getElem?_eq_none_iff] at hg
      omega
    · rename_i c hg
      unfold DArray.get_tail_index DArray.get_base
      rw [if_neg (by omega)]
      simp only [List.get?_eq_getElem?]
      rw [List.getElem?_set_eq_of_lt _ hlt]
      simp

/-- Monadic bind on a `Res.ok` value reduces. -/
theorem Res.ok_bind {α β : Type} (a : α) (f : α → Res β) :
    Bind.bind (Res.ok a) f = f a := rfl

/-- The length of the rollback-witness array. -/
theorem wC7_len : wC7da.cells.length = 2147483655 := by
  unfold wC7da wC7cells
  rw [List.length_set, List.length_set, List.length_set, List.length_replicate]

/-- State `2` of the witness array is separate. -/
theorem wC7_get_base_2 : wC7da.get_base 2 = some (-1) := by
  unfold wC7da wC7cells DArray.get_base
  rw [if_neg (by omega)]
  rw [List.get?_eq_getElem?]
  rw [show ((2 : ℤ)).toNat = 2 from rfl]
  rw [List.getElem?_set_ne (by omega)]
  rw [List.getElem?_set_eq_of_lt _ (by
    rw [List.length_set, List.length_replicate]
    omega)]
  rfl

/-- The free-list head of the witness array points at `2147483654`. -/
theorem wC7_get_check_1 : wC7da.get_check 1 = some (-2147483654) := by
  unfold wC7da wC7cells DArray.get_check
  rw [if_neg (by omega)]
  rw [List.get?_eq_getElem?]
  rw [show ((1 : ℤ)).toNat = 1 from rfl]
  rw [List.getElem?_set_ne (by omega), List.getElem?_set_ne (by omega)]
  rw [List.getElem?_set_eq_of_lt _ (by
    rw [List.length_replicate]
    omega)]
  rfl

/-- The single free cell of the witness array links back to the
head. -/
theorem wC7_get_check_hi : wC7da.get_check 2147483654 = some (-1) := by
  unfold wC7da wC7cells DArray.get_check
  rw [if_neg (by omega)]
  rw [List.get?_eq_getElem?]
  rw [show ((2147483654 : ℤ)).toNat = 2147483654 from rfl]
  rw [List.getElem?_set_eq_of_lt _ (by
    rw [List.length_set, List.length_set, List.length_replicate]
    omega)]
  rfl

/-- The tail index stored on state `2` of the witness array. -/
theorem wC7_gti : wC7da.get_tail_index 2 = 1 := by
  unfold DArray.get_tail_index
  rw [wC7_get_base_2]
  rfl

/-- One non-advancing step of the first `find_free_base` walk. -/
theorem ffb_loopA_stop (d : DArray) (lim : ℤ) (n : ℕ) (s : ℤ)
    (h : ¬(s ≠ 1 ∧ s < lim)) : d.ffb_loopA lim (n + 1) s = .ok s := by
  rw [DArray.ffb_loopA, if_neg h]

/-- The failing-extension step of the second `find_free_base` walk. -/
theorem ffb_loopB_err (first : ℤ) (symbols : List ℕ) (n : ℕ) (d : DArray)
    (s : ℤ) (hfit : d.fit_symbols (s - first) symbols = (d, false))
    (hchk : d.get_check s = some (-1))
    (hext : d.extend_pool d.cells.length = (d, false)) :
    DArray.ffb_loopB first symbols (n + 1) d s = .ok (d, TRIE_INDEX_ERROR) := by
  rw [DArray.ffb_loopB, hfit]
  simp [hchk, hext]

/-- On the witness array `find_free_base` fails: the only free cell is
beyond `TRIE_INDEX_MAX` and the pool cannot be extended. -/
theorem wC7_ffb (c : ℕ) (hc : c < 256) :
    wC7da.find_free_base [c] = .ok (wC7da, TRIE_INDEX_ERROR) := by
  have hA : wC7da.ffb_loopA ((c : ℤ) + DA_POOL_BEGIN) 2147483657
      2147483654 = .ok 2147483654 :=
    ffb_loopA_stop wC7da _ 2147483656 _ (by
      intro hand
      have h2 := hand.2
      unfold DA_POOL_BEGIN at h2
      omega)
  have hfit : wC7da.fit_symbols ((2147483654 : ℤ) - (c : ℤ)) [c]
      = (wC7da, false) := by
    rw [DArray.fit_symbols]
    rw [if_pos (by unfold TRIE_INDEX_MAX; omega)]
  have hext : wC7da.extend_pool (wC7da.cells.length : ℤ) = (wC7da, false) := by
    rw [DArray.extend_pool]
    rw [if_pos (Or.inr (by rw [wC7_len]; unfold TRIE_INDEX_MAX; omega))]
  have hB : DArray.ffb_loopB (c : ℤ) [c] 2147484255 wC7da
      2147483654 = .ok (wC7da, TRIE_INDEX_ERROR) :=
    ffb_loopB_err (c : ℤ) [c] 2147484254 wC7da 2147483654
      hfit wC7_get_check_hi hext
  rw [DArray.find_free_base]
  rw [wC7_len]
  simp only [wC7_get_check_1, neg_neg, hA]
  rw [if_neg (by norm_num)]
  rw [hB]

/-- On the witness array every single-symbol `insert_branch` at state
`2` fails with `TRIE_INDEX_ERROR`, leaving the array unchanged. -/
theorem wC7_insert (c : ℕ) (hc : c < 256) :
    wC7da.insert_branch 2 c = .ok (wC7da, TRIE_INDEX_ERROR) := by
  simp only [DArray.insert_branch, wC7_get_base_2, Option.getD_some]
  rw [if_neg (by unfold TRIE_INDEX_ERROR; omega)]
  simp only [wC7_ffb c hc, Res.ok_bind]
  rw [if_pos (show TRIE_INDEX_ERROR = (0 : ℤ) from rfl)]
  rfl

/-- Pruning up to the start state frees nothing. -/
theorem prune_upto_loop_self (p : ℤ) (n : ℕ) (d : DArray) :
    DArray.prune_upto_loop p (n + 1) d p = .ok d := by
  rw [DArray.prune_upto_loop]
  rw [if_neg (by simp)]

/-- `prune_upto` from its own target returns the array unchanged. -/
theorem prune_upto_self (d : DArray) (s : ℤ) : d.prune_upto s s = .ok d :=
  prune_upto_loop_self s (d.cells.length + 1) d

/-- The rollback loop outcome on the witness: the first shared
character triggers the failing insert, and the result is the restored
trie with the `none` marker. -/
theorem wC7_bitLoop_none :
    Trie.bitLoop 2 1 wC7t 2 [255, 0] [255, 33, 0] = .ok (wC7rt, none) := by
  rw [Trie.bitLoop]
  rw [if_pos (show (255 : ℕ) = 255 from rfl)]
  rw [show wC7t.ro.da = wC7da from rfl]
  rw [wC7_insert 255 (by norm_num)]
  split
  · rename_i heq
    exact Res.noConfusion heq
  · rename_i heq
    exact Res.noConfusion heq
  · rename_i heq
    exact Res.noConfusion heq
  · rename_i da1 newda heq
    rw [Res.ok.injEq, Prod.mk.injEq] at heq
    obtain ⟨hd, hn⟩ := heq
    subst hd
    subst hn
    rw [if_pos (show TRIE_INDEX_ERROR = TRIE_INDEX_ERROR from rfl)]
    split
    · rename_i heq2
      rw [prune_upto_self] at heq2
      exact Res.noConfusion heq2
    · rename_i heq2
      rw [prune_upto_self] at heq2
      exact Res.noConfusion heq2
    · rename_i heq2
      rw [prune_upto_self] at heq2
      exact Res.noConfusion heq2
    · rename_i da2 heq2
      rw [prune_upto_self] at heq2
      have hd2 : wC7da = da2 := Res.ok.inj heq2
      subst hd2
      rfl

/-- On distinct head characters the loop returns the split point at
once. -/
theorem wC7_bitLoop_split :
    Trie.bitLoop 2 1 wC7t 2 [255, 0] [77, 0]
      = .ok (wC7t, some (2, [255, 0], [77, 0])) := by
  rw [Trie.bitLoop]
  rw [if_neg (by norm_num)]

/-- Witness for C7: on the adversarial trie the shared-prefix insert
fails and `branch_in_tail` returns the pruned-and-restored trie with
`false`, both when the failure happens inside the loop and at the
branch point; the restored tail index is readable back. -/
theorem C7_witness :
    (wC7rt.ro.alpha_map = wC7t.ro.alpha_map ∧ wC7rt.ro.tail = wC7t.ro.tail ∧
      ∃ (dm : DArray) (sm : ℤ) (cm : ℕ) (da1 da2 : DArray),
        dm.insert_branch sm cm = .ok (da1, TRIE_INDEX_ERROR) ∧
        da1.prune_upto 2 sm = .ok da2 ∧
        wC7rt.ro.da = da2.set_tail_index 2 1) ∧
    wC7t.branch_in_tail 2 [255, 33, 0] (5 : ℤ) = .ok (wC7rt, false) ∧
    wC7t.branch_in_tail 2 [77, 0] (5 : ℤ) = .ok (wC7rt, false) ∧
    (DArray.empty.set_tail_index 2 9).get_tail_index 2 = 9 := by
  have hgti : wC7t.ro.da.get_tail_index 2 = 1 := wC7_gti
  have hos : wC7t.ro.tail.get_suffix (wC7t.ro.da.get_tail_index 2)
      = some [255, 0] := by
    rw [hgti]
    decide
  have hbitA : Trie.bitLoop 2 (wC7t.ro.da.get_tail_index 2) wC7t 2 [255, 0]
      [255, 33, 0] = .ok (wC7rt, none) := by
    rw [hgti]
    exact wC7_bitLoop_none
  have hbitB : Trie.bitLoop 2 (wC7t.ro.da.get_tail_index 2) wC7t 2 [255, 0]
      [77, 0] = .ok (wC7t, some (2, [255, 0], [77, 0])) := by
    rw [hgti]
    exact wC7_bitLoop_split
  have hins : wC7t.ro.da.insert_branch 2 255 = .ok (wC7da, TRIE_INDEX_ERROR) :=
    wC7_insert 255 (by norm_num)
  have hpr : wC7da.prune_upto 2 2 = .ok wC7da := prune_upto_self _ _
  have h1 := (C7_branch_in_tail_rollback ℤ).1 2 1 [255, 0] [255, 33, 0] wC7t
    wC7rt 2 wC7_bitLoop_none
  have h2 := (C7_branch_in_tail_rollback ℤ).2.1 wC7t wC7rt 2 [255, 0]
    [255, 33, 0] 5 hos hbitA
  have h3 := (C7_branch_in_tail_rollback ℤ).2.2.1 wC7t wC7t 2 [255, 0]
    [77, 0] [0] [77, 0] 5 2 255 wC7da wC7da hos hbitB hins hpr
  rw [hgti] at h3
  have h4 := (C7_branch_in_tail_rollback ℤ).2.2.2 DArray.empty 2 9
    (by omega) (by decide)
  exact ⟨h1, h2, h3, h4⟩

/-!
## Pointwise lemmas for the cell accessors -/

/-- Setting a check leaves every base unchanged. -/
theorem get_base_set_check (d : DArray) (i v j : ℤ) :
    (d.set_check i v).get_base j = d.get_base j := by
  unfold DArray.set_check DArray.get_base
  split
  · rfl
  · split
    · rfl
    · split
      · rfl
      · rename_i hx cc hcc
        rw [List.get?_eq_getElem?] at hcc
        simp only [List.get?_eq_getElem?]
        rcases eq_or_ne i.toNat j.toNat with he | hne
        · rw [← he]
          rw [List.getElem?_set_eq_of_lt _ (List.getElem?_eq_some_iff.mp hcc).1]
          rw [hcc]
          rfl
        · rw [List.getElem?_set_ne hne]

/-- Setting a base leaves every check unchanged. -/
theorem get_check_set_base (d : DArray) (i v j : ℤ) :
    (d.set_base i v).get_check j = d.get_check j := by
  unfold DArray.set_base DArray.get_check
  split
  · rfl
  · split
    · rfl
    · split
      · rfl
      · rename_i hx cc hcc
        rw [List.get?_eq_getElem?] at hcc
        simp only [List.get?_eq_getElem?]
        rcases eq_or_ne i.toNat j.toNat with he | hne
        · rw [← he]
          rw [List.getElem?_set_eq_of_lt _ (List.getElem?_eq_some_iff.mp hcc).1]
          rw [hcc]
          rfl
        · rw [List.getElem?_set_ne hne]

/-- Reading back a check just set (the index is in range). -/
theorem get_check_set_check_self (d : DArray) (i v : ℤ) (h0 : 0 ≤ i)
    (hl : i.toNat < d.cells.length) :
    (d.set_check i v).get_check i = some v := by
  unfold DArray.set_check DArray.get_check
  rw [if_neg (show ¬ i < 0 by omega)]
  rw [if_neg (show ¬ i < 0 by omega)]
  split
  · rename_i hg
    rw [List.get?_eq_getElem?, List.getElem?_eq_none_iff] at hg
    omega
  · simp only [List.get?_eq_getElem?]
    rw [List.getElem?_set_eq_of_lt _ hl]
    rfl

/-- Reading back a base just set (the index is in range). -/
theorem get_base_set_base_self (d : DArray) (i v : ℤ) (h0 : 0 ≤ i)
    (hl : i.toNat < d.cells.length) :
    (d.set_base i v).get_base i = some v := by
  unfold DArray.set_base DArray.get_base
  rw [if_neg (show ¬ i < 0 by omega)]
  rw [if_neg (show ¬ i < 0 by omega)]
  split
  · rename_i hg
    rw [List.get?_eq_getElem?, List.getElem?_eq_none_iff] at hg
    omega
  · simp only [List.get?_eq_getElem?]
    rw [List.getElem?_set_eq_of_lt _ hl]
    rfl

/-- Reading a check at a different index after a check write. -/
theorem get_check_set_check_other (d : DArray) (i v j : ℤ) (h : i ≠ j) :
    (d.set_check i v).get_check j = d.get_check j := by
  unfold DArray.set_check DArray.get_check
  split
  · rfl
  · split
    · rfl
    · rename_i c hg
      split
      · rfl
      · rename_i h0
        simp only [List.get?_eq_getElem?]
        rcases eq_or_ne i.toNat j.toNat with he | hne
        · omega
        · rw [List.getElem?_set_ne hne]

/-- Reading a base at a different index after a base write. -/
theorem get_base_set_base_other (d : DArray) (i v j : ℤ) (h : i ≠ j) :
    (d.set_base i v).get_base j = d.get_base j := by
  unfold DArray.set_base DArray.get_base
  split
  · rfl
  · split
    · rfl
    · rename_i c hg
      split
      · rfl
      · rename_i h0
        simp only [List.get?_eq_getElem?]
        rcases eq_or_ne i.toNat j.toNat with he | hne
        · omega
        · rw [List.getElem?_set_ne hne]

/-- Check writes keep the pool size. -/
theorem length_set_check (d : DArray) (i v : ℤ) :
    (d.set_check i v).cells.length = d.cells.length := by
  unfold DArray.set_check
  split
  · rfl
  · split
    · rfl
    · rw [List.length_set]

/-- Base writes keep the pool size. -/
theorem length_set_base (d : DArray) (i v : ℤ) :
    (d.set_base i v).cells.length = d.cells.length := by
  unfold DArray.set_base
  split
  · rfl
  · split
    · rfl
    · rw [List.length_set]

/-- In-range cells always have a check. -/
theorem get_check_isSome (d : DArray) (i : ℤ) (h0 : 0 ≤ i)
    (hl : i.toNat < d.cells.length) : ∃ v, d.get_check i = some v := by
  unfold DArray.get_check
  rw [if_neg (by omega)]
  rcases hg : d.cells.get? i.toNat with _ | c
  · rw [List.get?_eq_getElem?, List.getElem?_eq_none_iff] at hg
    omega
  · exact ⟨c.check, rfl⟩

/-- In-range cells always have a base. -/
theorem get_base_isSome (d : DArray) (i : ℤ) (h0 : 0 ≤ i)
    (hl : i.toNat < d.cells.length) : ∃ v, d.get_base i = some v := by
  unfold DArray.get_base
  rw [if_neg (by omega)]
  rcases hg : d.cells.get? i.toNat with _ | c
  · rw [List.get?_eq_getElem?, List.getElem?_eq_none_iff] at hg
    omega
  · exact ⟨c.base, rfl⟩

/-- A successful check read implies the index is in range. -/
theorem get_check_some_bounds {d : DArray} {i v : ℤ}
    (h : d.get_check i = some v) : 0 ≤ i ∧ i.toNat < d.cells.length := by
  unfold DArray.get_check at h
  split at h
  · exact Option.noConfusion h
  · rename_i h0
    rcases hg : d.cells.get? i.toNat with _ | c
    · rw [hg] at h
      exact Option.noConfusion h
    · rw [List.get?_eq_getElem?] at hg
      exact ⟨by omega, (List.getElem?_eq_some_iff.mp hg).1⟩

/-!
## Free-list segment algebra -/

/-- A segment over an appended list splits at the last cell of the
first part. -/
theorem FLSeg_append {d : DArray} {p q : ℤ} {l1 l2 : List ℤ}
    (h : FLSeg d p (l1 ++ l2) q) :
    FLSeg d p l1 (l1.getLastD p) ∧ FLSeg d (l1.getLastD p) l2 q := by
  induction l1 generalizing p with
  | nil => exact ⟨rfl, h⟩
  | cons x xs ih =>
    obtain ⟨h1, h2, h3⟩ := h
    obtain ⟨h4, h5⟩ := ih h3
    rw [List.getLastD_cons]
    exact ⟨⟨h1, h2, h4⟩, h5⟩

/-- Two adjacent segments glue. -/
theorem FLSeg_glue {d : DArray} {p q r : ℤ} {l1 l2 : List ℤ}
    (h1 : FLSeg d p l1 r) (h2 : FLSeg d r l2 q) :
    FLSeg d p (l1 ++ l2) q := by
  induction l1 generalizing p with
  | nil => exact (show p = r from h1) ▸ h2
  | cons x xs ih =>
    obtain ⟨ha, hb, hc⟩ := h1
    exact ⟨ha, hb, ih hc⟩

/-- The endpoint of a segment is its last cell. -/
theorem FLSeg_last {d : DArray} {p q : ℤ} {l : List ℤ}
    (h : FLSeg d p l q) : q = l.getLastD p := by
  induction l generalizing p with
  | nil => exact (show p = q from h).symm
  | cons x xs ih =>
    rw [List.getLastD_cons]
    exact ih h.2.2

/-- Unfolding a terminated segment at its first cell. -/
theorem FLTail_cons {d : DArray} {p x : ℤ} {xs : List ℤ}
    (h : FLTail d p (x :: xs)) :
    d.get_check p = some (-x) ∧ d.get_base x = some (-p) ∧ FLTail d x xs := by
  obtain ⟨hs, hc⟩ := h
  rw [List.getLastD_cons] at hs hc
  exact ⟨hs.1, hs.2.1, hs.2.2, hc⟩

/-- Rebuilding a terminated segment from its first cell. -/
theorem FLTail_cons_intro {d : DArray} {p x : ℤ} {xs : List ℤ}
    (h1 : d.get_check p = some (-x)) (h2 : d.get_base x = some (-p))
    (h3 : FLTail d x xs) : FLTail d p (x :: xs) := by
  obtain ⟨hs, hc⟩ := h3
  unfold FLTail
  rw [List.getLastD_cons]
  exact ⟨⟨h1, h2, hs⟩, hc⟩

/-- The first forward pointer of a terminated segment. -/
theorem FLTail_head {d : DArray} {p : ℤ} {l : List ℤ} (h : FLTail d p l) :
    d.get_check p = some (-(l.headD 1)) := by
  cases l with
  | nil => exact h.2
  | cons x xs => exact (FLTail_cons h).1

/-- The last cell of a list with a default is the default or a member. -/
theorem getLastD_mem_cons (l : List ℤ) (p : ℤ) :
    l.getLastD p = p ∨ l.getLastD p ∈ l := by
  induction l generalizing p with
  | nil => exact Or.inl rfl
  | cons x xs ih =>
    rw [List.getLastD_cons]
    rcases ih x with h | h
    · rw [h]
      exact Or.inr (List.mem_cons_self x xs)
    · exact Or.inr (List.mem_cons_of_mem x h)

/-- A check write away from the segment cells leaves the segment. -/
theorem FLSeg_set_check_frame {d : DArray} {p q x v : ℤ} {l : List ℤ}
    (h : FLSeg d p l q) (hx : x ≠ p) (hxl : x ∉ l) :
    FLSeg (d.set_check x v) p l q := by
  induction l generalizing p with
  | nil => exact h
  | cons f fs ih =>
    obtain ⟨h1, h2, h3⟩ := h
    have hf : x ≠ f := fun hh => hxl (hh ▸ List.mem_cons_self f fs)
    refine ⟨?_, ?_, ih h3 hf (fun hm => hxl (List.mem_cons_of_mem _ hm))⟩
    · rw [get_check_set_check_other d x v p hx]
      exact h1
    · rw [get_base_set_check]
      exact h2

/-- A base write away from the segment cells leaves the segment. -/
theorem FLSeg_set_base_frame {d : DArray} {p q x v : ℤ} {l : List ℤ}
    (h : FLSeg d p l q) (hxl : x ∉ l) :
    FLSeg (d.set_base x v) p l q := by
  induction l generalizing p with
  | nil => exact h
  | cons f fs ih =>
    obtain ⟨h1, h2, h3⟩ := h
    have hf : x ≠ f := fun hh => hxl (hh ▸ List.mem_cons_self f fs)
    refine ⟨?_, ?_, ih h3 (fun hm => hxl (List.mem_cons_of_mem _ hm))⟩
    · rw [get_check_set_base]
      exact h1
    · rw [get_base_set_base_other d x v f hf]
      exact h2

/-- A check write away from the ring leaves the ring links. -/
theorem FLinks_set_check_frame {d : DArray} {x v : ℤ} {fl : List ℤ}
    (h : FLinks d fl) (hx1 : x ≠ 1) (hxl : x ∉ fl) :
    FLinks (d.set_check x v) fl := by
  obtain ⟨⟨hs, hc⟩, hb⟩ := h
  refine ⟨⟨FLSeg_set_check_frame hs hx1 hxl, ?_⟩, ?_⟩
  · have hlast : x ≠ fl.getLastD 1 := by
      rcases getLastD_mem_cons fl 1 with h1 | h1
      · rw [h1]; exact hx1
      · exact fun hh => hxl (hh ▸ h1)
    rw [get_check_set_check_other d x v _ hlast]
    exact hc
  · rw [get_base_set_check]
    exact hb

/-- A base write away from the ring leaves the ring links. -/
theorem FLinks_set_base_frame {d : DArray} {x v : ℤ} {fl : List ℤ}
    (h : FLinks d fl) (hx1 : x ≠ 1) (hxl : x ∉ fl) :
    FLinks (d.set_base x v) fl := by
  obtain ⟨⟨hs, hc⟩, hb⟩ := h
  refine ⟨⟨FLSeg_set_base_frame hs hxl, ?_⟩, ?_⟩
  · rw [get_check_set_base]
    exact hc
  · rw [get_base_set_base_other d x v 1 hx1]
    exact hb

/-- A check write away from the ring keeps `FLOK`. -/
theorem FLOK_set_check_frame {d : DArray} {x v : ℤ} {fl : List ℤ}
    (h : FLOK d fl) (hx1 : x ≠ 1) (hxl : x ∉ fl) :
    FLOK (d.set_check x v) fl := by
  obtain ⟨h1, h2, h3, h4⟩ := h
  rw [FLOK, length_set_check]
  exact ⟨h1, h2, h3, FLinks_set_check_frame h4 hx1 hxl⟩

/-- A base write away from the ring keeps `FLOK`. -/
theorem FLOK_set_base_frame {d : DArray} {x v : ℤ} {fl : List ℤ}
    (h : FLOK d fl) (hx1 : x ≠ 1) (hxl : x ∉ fl) :
    FLOK (d.set_base x v) fl := by
  obtain ⟨h1, h2, h3, h4⟩ := h
  rw [FLOK, length_set_base]
  exact ⟨h1, h2, h3, FLinks_set_base_frame h4 hx1 hxl⟩

/-- An ascending integer list inside `[a, b)` has at most `b - a`
elements. -/
theorem chain_lt_length_le {l : List ℤ} {a b : ℤ} (hab : a ≤ b)
    (hc : l.Chain' (· < ·)) (hm : ∀ x ∈ l, a ≤ x ∧ x < b) :
    (l.length : ℤ) ≤ b - a := by
  induction l generalizing a with
  | nil => simpa using hab
  | cons x xs ih =>
    rw [List.chain'_iff_pairwise, List.pairwise_cons,
      ← List.chain'_iff_pairwise] at hc
    have hx := hm x (List.mem_cons_self x xs)
    have hlen := @ih (x + 1) (by have := hx.2; omega) hc.2
      (fun y hy => ⟨by have := hc.1 y hy; omega, (hm y (List.mem_cons_of_mem x hy)).2⟩)
    have : (xs.length : ℤ) ≤ b - (x + 1) := hlen
    rw [List.length_cons]
    push_cast
    omega

/-- Splitting a terminated segment at a member. -/
theorem FLTail_mem_split {d : DArray} {p f : ℤ} {l : List ℤ}
    (h : FLTail d p l) (hf : f ∈ l) :
    ∃ l1 l2, l = l1 ++ f :: l2 ∧ FLTail d f l2 := by
  induction l generalizing p with
  | nil => cases hf
  | cons x xs ih =>
    obtain ⟨h1, h2, h3⟩ := FLTail_cons h
    rcases List.mem_cons.mp hf with rfl | hm
    · exact ⟨[], xs, rfl, h3⟩
    · obtain ⟨l1, l2, heq, h4⟩ := ih h3 hm
      exact ⟨x :: l1, l2, by rw [heq, List.cons_append], h4⟩

/-- The head of a list with a default is the default or a member. -/
theorem headD_mem_cons (l : List ℤ) (a : ℤ) :
    l.headD a = a ∨ l.headD a ∈ l := by
  cases l with
  | nil => exact Or.inl rfl
  | cons x xs => exact Or.inr (List.mem_cons_self x xs)

/-- `getLastD` over an append. -/
theorem getLastD_append (l1 l2 : List ℤ) (a : ℤ) :
    (l1 ++ l2).getLastD a = l2.getLastD (l1.getLastD a) := by
  induction l1 generalizing a with
  | nil => rfl
  | cons x xs ih =>
    rw [List.cons_append, List.getLastD_cons, List.getLastD_cons, ih]

/-- Every ring member's check is the negated next ring position. -/
theorem FLinks_mem_check {d : DArray} {fl : List ℤ} {f : ℤ}
    (h : FLinks d fl) (hf : f ∈ fl) :
    ∃ l1 l2, fl = l1 ++ f :: l2 ∧
      d.get_check f = some (-(l2.headD 1)) ∧
      (l2.headD 1 ∈ fl ∨ l2.headD 1 = 1) := by
  obtain ⟨l1, l2, heq, htail⟩ := FLTail_mem_split h.1 hf
  refine ⟨l1, l2, heq, FLTail_head htail, ?_⟩
  rcases headD_mem_cons l2 1 with h1 | h1
  · exact Or.inr h1
  · refine Or.inl ?_
    rw [heq]
    exact List.mem_append.mpr (Or.inr (List.mem_cons_of_mem f h1))

/-- Every ring member's base is the negated previous ring position. -/
theorem FLinks_mem_base {d : DArray} {fl : List ℤ} {f : ℤ}
    (h : FLinks d fl) (hf : f ∈ fl) :
    ∃ l1 l2, fl = l1 ++ f :: l2 ∧
      d.get_base f = some (-(l1.getLastD 1)) ∧
      (l1.getLastD 1 ∈ fl ∨ l1.getLastD 1 = 1) := by
  obtain ⟨l1, l2, heq, -⟩ := FLTail_mem_split h.1 hf
  obtain ⟨hs1, hs2⟩ := FLSeg_append (heq ▸ h.1.1)
  refine ⟨l1, l2, heq, hs2.2.1, ?_⟩
  rcases getLastD_mem_cons l1 1 with h1 | h1
  · exact Or.inr h1
  · refine Or.inl ?_
    rw [heq]
    exact List.mem_append.mpr (Or.inl h1)

/-- Elements after a distinguished member of an ascending list are
larger, and elements before it are smaller. -/
theorem chain_lt_split {l1 l2 : List ℤ} {f : ℤ}
    (hc : (l1 ++ f :: l2).Chain' (· < ·)) :
    (∀ x ∈ l1, x < f) ∧ (∀ y ∈ l2, f < y) := by
  rw [List.chain'_iff_pairwise, List.pairwise_append] at hc
  obtain ⟨h1, h2, h3⟩ := hc
  rw [List.pairwise_cons] at h2
  constructor
  · exact fun x hx => h3 x hx f (List.mem_cons_self f l2)
  · exact h2.1

/-- Ascending lists have no duplicates. -/
theorem chain_lt_nodup {l : List ℤ} (hc : l.Chain' (· < ·)) : l.Nodup := by
  rw [List.chain'_iff_pairwise] at hc
  exact hc.imp (fun h => ne_of_lt h)

/-- Following `-check` along a terminated segment enumerates exactly
its cells. -/
theorem FLTail_ringWalk {d : DArray} {p : ℤ} {l : List ℤ}
    (h : FLTail d p l) (h1 : ∀ x ∈ l, x ≠ 1) :
    ∀ n, l.length < n → ringWalk d n p = l := by
  induction l generalizing p with
  | nil =>
    intro n hn
    match n, hn with
    | n + 1, _ =>
      rw [ringWalk]
      rw [FLTail_head h]
      simp
  | cons x xs ih =>
    intro n hn
    match n, hn with
    | n + 1, hn =>
      rw [ringWalk]
      rw [FLTail_head h]
      have hx1 : x ≠ 1 := h1 x (List.mem_cons_self x xs)
      simp only [List.headD_cons, Option.getD_some, neg_neg]
      rw [if_neg hx1]
      rw [ih (FLTail_cons h).2.2 (fun y hy => h1 y (List.mem_cons_of_mem x hy))
        n (by simpa using Nat.lt_of_succ_lt_succ hn)]

/-- A check write at the endpoint of a duplicate-free segment leaves
the segment (its reads stop before the endpoint). -/
theorem FLSeg_set_check_endpoint {d : DArray} {p q v : ℤ} {l : List ℤ}
    (h : FLSeg d p l q) (hnd : (p :: l).Nodup) :
    FLSeg (d.set_check q v) p l q := by
  induction l generalizing p with
  | nil => exact h
  | cons x xs ih =>
    obtain ⟨h1, h2, h3⟩ := h
    have hq : q = xs.getLastD x := FLSeg_last h3
    rw [List.nodup_cons] at hnd
    have hqp : q ≠ p := by
      intro hh
      apply hnd.1
      rw [← hh, hq]
      rcases getLastD_mem_cons xs x with h4 | h4
      · rw [h4]
        exact List.mem_cons_self x xs
      · exact List.mem_cons_of_mem x h4
    refine ⟨?_, ?_, ih h3 hnd.2⟩
    · rw [get_check_set_check_other d q v p hqp]
      exact h1
    · rw [get_base_set_check]
      exact h2

/-- Unlinking a ring member: rewriting the predecessor's forward
pointer and the successor's backward pointer removes `c` from the
ring. This is exactly the write pattern of `alloc_cell`. -/
theorem FLinks_splice_out {d : DArray} {l1 l2 : List ℤ} {c : ℤ}
    (h : FLinks d (l1 ++ c :: l2)) (hlen3 : 3 ≤ (d.cells.length : ℤ))
    (hb : ∀ f ∈ l1 ++ c :: l2, 3 ≤ f ∧ f < (d.cells.length : ℤ))
    (hnd : (l1 ++ c :: l2).Nodup) :
    FLinks ((d.set_check (l1.getLastD 1) (-(l2.headD 1))).set_base (l2.headD 1)
      (-(l1.getLastD 1))) (l1 ++ l2) := by
  obtain ⟨⟨hseg, hclose⟩, hb1⟩ := h
  rw [List.nodup_append] at hnd
  obtain ⟨hnd1, hnd2, hdisj⟩ := hnd
  rw [List.nodup_cons] at hnd2
  have h1notl1 : (1 : ℤ) ∉ l1 := fun hm =>
    by have := hb 1 (List.mem_append.mpr (Or.inl hm)); omega
  have h1notl2 : (1 : ℤ) ∉ l2 := fun hm =>
    by have := hb 1 (List.mem_append.mpr (Or.inr (List.mem_cons_of_mem c hm))); omega
  have hprl1 : l1.getLastD 1 ∈ l1 ∨ l1.getLastD 1 = 1 := by
    rcases getLastD_mem_cons l1 1 with hx | hx
    · exact Or.inr hx
    · exact Or.inl hx
  have hprbound : 1 ≤ l1.getLastD 1 ∧ l1.getLastD 1 < (d.cells.length : ℤ) := by
    rcases hprl1 with hx | hx
    · have := hb _ (List.mem_append.mpr (Or.inl hx)); omega
    · rw [hx]; omega
  have hprnotl2 : l1.getLastD 1 ∉ l2 := by
    rcases hprl1 with hx | hx
    · exact fun hm => hdisj hx (List.mem_cons_of_mem c hm)
    · rw [hx]; exact h1notl2
  obtain ⟨hs1, hs2⟩ := FLSeg_append hseg
  obtain ⟨hc1, hc2, hc3⟩ := hs2
  cases l2 with
  | nil =>
    simp only [List.headD_nil, List.append_nil]
    refine ⟨⟨?_, ?_⟩, ?_⟩
    · exact FLSeg_set_base_frame
        (FLSeg_set_check_endpoint hs1 (List.nodup_cons.mpr ⟨h1notl1, hnd1⟩)) h1notl1
    · rw [get_check_set_base,
        get_check_set_check_self d _ _ (by omega) (by omega)]
    · rw [get_base_set_base_self _ _ _ (by omega) (by
        rw [length_set_check]; omega)]
  | cons f fs =>
    simp only [List.headD_cons]
    have hfb := hb f (List.mem_append.mpr
      (Or.inr (List.mem_cons_of_mem c (List.mem_cons_self f fs))))
    have hf1 : f ≠ 1 := by omega
    have hfnotl1 : f ∉ l1 := fun hm =>
      hdisj hm (List.mem_cons_of_mem c (List.mem_cons_self f fs))
    have hfnotfs : f ∉ fs := by
      have h5 := hnd2.2
      rw [List.nodup_cons] at h5
      exact h5.1
    have hprf : l1.getLastD 1 ≠ f := by
      rcases hprl1 with hx | hx
      · exact fun hh => hfnotl1 (hh ▸ hx)
      · rw [hx]; exact fun hh => hf1 hh.symm
    have hL : (l1 ++ c :: f :: fs).getLastD 1 = fs.getLastD f := by
      rw [getLastD_append, List.getLastD_cons, List.getLastD_cons]
    have hL2 : (l1 ++ f :: fs).getLastD 1 = fs.getLastD f := by
      rw [getLastD_append, List.getLastD_cons]
    have hlastmem : fs.getLastD f ∈ f :: fs := by
      rcases getLastD_mem_cons fs f with hx | hx
      · rw [hx]; exact List.mem_cons_self f fs
      · exact List.mem_cons_of_mem f hx
    have hlastpr : fs.getLastD f ≠ l1.getLastD 1 := by
      rcases hprl1 with hx | hx
      · exact fun hh => hdisj (hh ▸ hx) (List.mem_cons_of_mem c hlastmem)
      · rw [hx]
        have := hb _ (List.mem_append.mpr (Or.inr (List.mem_cons_of_mem c hlastmem)))
        omega
    rw [hL] at hclose hb1
    obtain ⟨hd1, hd2, hd3⟩ := hc3
    rw [hL] at hd3
    refine ⟨⟨?_, ?_⟩, ?_⟩
    · rw [hL2]
      have hseg1 : FLSeg ((d.set_check (l1.getLastD 1) (-f)).set_base f
          (-(l1.getLastD 1))) 1 l1 (l1.getLastD 1) :=
        FLSeg_set_base_frame
          (FLSeg_set_check_endpoint hs1 (List.nodup_cons.mpr ⟨h1notl1, hnd1⟩)) hfnotl1
      have hck : ((d.set_check (l1.getLastD 1) (-f)).set_base f
          (-(l1.getLastD 1))).get_check (l1.getLastD 1) = some (-f) := by
        rw [get_check_set_base,
          get_check_set_check_self d _ _ (by omega) (by omega)]
      have hbs : ((d.set_check (l1.getLastD 1) (-f)).set_base f
          (-(l1.getLastD 1))).get_base f = some (-(l1.getLastD 1)) := by
        rw [get_base_set_base_self _ _ _ (by omega) (by
          rw [length_set_check]; omega)]
      have hseg2 : FLSeg ((d.set_check (l1.getLastD 1) (-f)).set_base f
          (-(l1.getLastD 1))) f fs (fs.getLastD f) :=
        FLSeg_set_base_frame
          (FLSeg_set_check_frame hd3 hprf
            (fun hm => hprnotl2 (List.mem_cons_of_mem f hm))) hfnotfs
      exact FLSeg_glue hseg1 ⟨hck, hbs, hseg2⟩
    · rw [hL2, get_check_set_base,
        get_check_set_check_other d _ _ _ (Ne.symm hlastpr)]
      exact hclose
    · rw [hL2, get_base_set_base_other _ _ _ _ hf1, get_base_set_check]
      exact hb1

/-- Linking a cell into the ring between `l1` and `l2`: writing the
four pointers of `free_cell` produces the spliced ring. -/
theorem FLinks_splice_in {d : DArray} {l1 l2 : List ℤ} {c : ℤ}
    (h : FLinks d (l1 ++ l2)) (hlen3 : 3 ≤ (d.cells.length : ℤ))
    (hb : ∀ f ∈ l1 ++ l2, 3 ≤ f ∧ f < (d.cells.length : ℤ))
    (hnd : (l1 ++ l2).Nodup)
    (hc3 : 3 ≤ c) (hclen : c < (d.cells.length : ℤ))
    (hcl1 : c ∉ l1) (hcl2 : c ∉ l2) :
    FLinks ((((d.set_check c (-(l2.headD 1))).set_base c
      (-(l1.getLastD 1))).set_check (l1.getLastD 1) (-c)).set_base (l2.headD 1)
      (-c)) (l1 ++ c :: l2) := by
  obtain ⟨⟨hseg, hclose⟩, hb1⟩ := h
  rw [List.nodup_append] at hnd
  obtain ⟨hnd1, hnd2, hdisj⟩ := hnd
  have hcne1 : c ≠ 1 := by omega
  have h1notl1 : (1 : ℤ) ∉ l1 := fun hm =>
    by have := hb 1 (List.mem_append.mpr (Or.inl hm)); omega
  have h1notl2 : (1 : ℤ) ∉ l2 := fun hm =>
    by have := hb 1 (List.mem_append.mpr (Or.inr hm)); omega
  have hprl1 : l1.getLastD 1 ∈ l1 ∨ l1.getLastD 1 = 1 := by
    rcases getLastD_mem_cons l1 1 with hx | hx
    · exact Or.inr hx
    · exact Or.inl hx
  have hprbound : 1 ≤ l1.getLastD 1 ∧ l1.getLastD 1 < (d.cells.length : ℤ) := by
    rcases hprl1 with hx | hx
    · have := hb _ (List.mem_append.mpr (Or.inl hx)); omega
    · rw [hx]; omega
  have hprc : l1.getLastD 1 ≠ c := by
    rcases hprl1 with hx | hx
    · exact fun hh => hcl1 (hh ▸ hx)
    · rw [hx]; exact fun hh => hcne1 hh.symm
  have hprnotl2 : l1.getLastD 1 ∉ l2 := by
    rcases hprl1 with hx | hx
    · exact fun hm => hdisj hx hm
    · rw [hx]; exact h1notl2
  obtain ⟨hs1, hs2⟩ := FLSeg_append hseg
  have hstep : FLSeg ((((d.set_check c (-(l2.headD 1))).set_base c
      (-(l1.getLastD 1))).set_check (l1.getLastD 1) (-c)).set_base (l2.headD 1)
      (-c)) 1 l1 (l1.getLastD 1) := by
    refine FLSeg_set_base_frame (FLSeg_set_check_endpoint
      (FLSeg_set_base_frame (FLSeg_set_check_frame hs1 hcne1 hcl1) hcl1)
      (List.nodup_cons.mpr ⟨h1notl1, hnd1⟩)) ?_
    rcases headD_mem_cons l2 1 with hx | hx
    · rw [hx]; exact h1notl1
    · exact fun hm => hdisj hm hx
  have hck_pr : ((((d.set_check c (-(l2.headD 1))).set_base c
      (-(l1.getLastD 1))).set_check (l1.getLastD 1) (-c)).set_base (l2.headD 1)
      (-c)).get_check (l1.getLastD 1) = some (-c) := by
    rw [get_check_set_base, get_check_set_check_self _ _ _ (by omega) (by
      rw [length_set_base, length_set_check]; omega)]
  have hbs_c : ((((d.set_check c (-(l2.headD 1))).set_base c
      (-(l1.getLastD 1))).set_check (l1.getLastD 1) (-c)).set_base (l2.headD 1)
      (-c)).get_base c = some (-(l1.getLastD 1)) := by
    have hnxc : l2.headD 1 ≠ c := by
      rcases headD_mem_cons l2 1 with hx | hx
      · rw [hx]; exact fun hh => hcne1 hh.symm
      · exact fun hh => hcl2 (hh ▸ hx)
    rw [get_base_set_base_other _ _ _ _ hnxc, get_base_set_check,
      get_base_set_base_self _ _ _ (by omega) (by rw [length_set_check]; omega)]
  have hck_c : ((((d.set_check c (-(l2.headD 1))).set_base c
      (-(l1.getLastD 1))).set_check (l1.getLastD 1) (-c)).set_base (l2.headD 1)
      (-c)).get_check c = some (-(l2.headD 1)) := by
    rw [get_check_set_base, get_check_set_check_other _ _ _ _ hprc,
      get_check_set_base, get_check_set_check_self d _ _ (by omega) (by omega)]
  cases l2 with
  | nil =>
    have hL : (l1 ++ [c]).getLastD 1 = c := by
      rw [getLastD_append, List.getLastD_cons]
      rfl
    refine ⟨⟨?_, ?_⟩, ?_⟩
    · rw [hL]
      exact FLSeg_glue hstep ⟨hck_pr, hbs_c, rfl⟩
    · rw [hL]
      exact hck_c
    · rw [hL]
      simp only [List.headD_nil]
      rw [get_base_set_base_self _ _ _ (by omega) (by
        rw [length_set_check, length_set_base, length_set_check]; omega)]
  | cons f fs =>
    simp only [List.headD_cons] at hstep hck_pr hbs_c hck_c ⊢
    have hfb := hb f (List.mem_append.mpr (Or.inr (List.mem_cons_self f fs)))
    have hf1 : f ≠ 1 := by omega
    have hfc : f ≠ c := fun hh => hcl2 (hh ▸ List.mem_cons_self f fs)
    have hfnotfs : f ∉ fs := by
      rw [List.nodup_cons] at hnd2
      exact hnd2.1
    have hcnotfs : c ∉ fs := fun hm => hcl2 (List.mem_cons_of_mem f hm)
    have hprf : l1.getLastD 1 ≠ f := fun hh =>
      hprnotl2 (hh ▸ List.mem_cons_self f fs)
    have hprnotfs : l1.getLastD 1 ∉ fs := fun hm =>
      hprnotl2 (List.mem_cons_of_mem f hm)
    have hL : (l1 ++ f :: fs).getLastD 1 = fs.getLastD f := by
      rw [getLastD_append, List.getLastD_cons]
    have hL2 : (l1 ++ c :: f :: fs).getLastD 1 = fs.getLastD f := by
      rw [getLastD_append, List.getLastD_cons, List.getLastD_cons]
    have hlastmem : fs.getLastD f ∈ f :: fs := by
      rcases getLastD_mem_cons fs f with hx | hx
      · rw [hx]; exact List.mem_cons_self f fs
      · exact List.mem_cons_of_mem f hx
    have hlastc : c ≠ fs.getLastD f := fun hh => hcl2 (hh ▸ hlastmem)
    have hlastpr : l1.getLastD 1 ≠ fs.getLastD f := fun hh =>
      hprnotl2 (hh ▸ hlastmem)
    rw [hL] at hclose hb1
    obtain ⟨hc1, hc2, hd3⟩ := hs2
    rw [hL] at hd3
    have hbs_f : ((((d.set_check c (-f)).set_base c
        (-(l1.getLastD 1))).set_check (l1.getLastD 1) (-c)).set_base f
        (-c)).get_base f = some (-c) := by
      rw [get_base_set_base_self _ _ _ (by omega) (by
        rw [length_set_check, length_set_base, length_set_check]; omega)]
    have hseg_fs : FLSeg ((((d.set_check c (-f)).set_base c
        (-(l1.getLastD 1))).set_check (l1.getLastD 1) (-c)).set_base f
        (-c)) f fs (fs.getLastD f) := by
      exact FLSeg_set_base_frame (FLSeg_set_check_frame
        (FLSeg_set_base_frame (FLSeg_set_check_frame hd3 hfc.symm hcnotfs)
          hcnotfs) hprf hprnotfs) hfnotfs
    refine ⟨⟨?_, ?_⟩, ?_⟩
    · rw [hL2]
      exact FLSeg_glue hstep ⟨hck_pr, hbs_c, hck_c, hbs_f, hseg_fs⟩
    · rw [hL2, get_check_set_base,
        get_check_set_check_other _ _ _ _ hlastpr, get_check_set_base,
        get_check_set_check_other _ _ _ _ hlastc]
      exact hclose
    · rw [hL2, get_base_set_base_other _ _ _ _ hf1, get_base_set_check,
        get_base_set_base_other _ _ _ _ hcne1, get_base_set_check]
      exact hb1

/-- Free-list members are pool positions at `3` or above. -/
theorem FLOK_bounds {d : DArray} {fl : List ℤ} (h : FLOK d fl) :
    ∀ f ∈ fl, 3 ≤ f ∧ f < (d.cells.length : ℤ) := by
  intro f hf
  have h2 := h.2.2.1 f hf
  rw [DA_POOL_BEGIN] at h2
  exact h2

/-- `alloc_cell` on a free-list member: it succeeds, performs the
splice-out writes, and the free list loses exactly that member. -/
theorem FLOK_alloc {d : DArray} {fl : List ℤ} {c : ℤ}
    (h : FLOK d fl) (hc : c ∈ fl) :
    ∃ l1 l2, fl = l1 ++ c :: l2 ∧
      d.alloc_cell c =
        .ok ((d.set_check (l1.getLastD 1) (-(l2.headD 1))).set_base (l2.headD 1)
          (-(l1.getLastD 1))) ∧
      FLOK ((d.set_check (l1.getLastD 1) (-(l2.headD 1))).set_base (l2.headD 1)
        (-(l1.getLastD 1))) (l1 ++ l2) ∧
      ((d.set_check (l1.getLastD 1) (-(l2.headD 1))).set_base (l2.headD 1)
        (-(l1.getLastD 1))).cells.length = d.cells.length ∧
      (∀ x : ℤ, x ∉ (1 :: fl) →
        ((d.set_check (l1.getLastD 1) (-(l2.headD 1))).set_base (l2.headD 1)
          (-(l1.getLastD 1))).get_check x = d.get_check x ∧
        ((d.set_check (l1.getLastD 1) (-(l2.headD 1))).set_base (l2.headD 1)
          (-(l1.getLastD 1))).get_base x = d.get_base x) ∧
      ((d.set_check (l1.getLastD 1) (-(l2.headD 1))).set_base (l2.headD 1)
        (-(l1.getLastD 1))).get_check c = d.get_check c ∧
      ((d.set_check (l1.getLastD 1) (-(l2.headD 1))).set_base (l2.headD 1)
        (-(l1.getLastD 1))).get_base c = d.get_base c := by
  obtain ⟨hlen, hchain, hbnd, hlinks⟩ := h
  have hb := FLOK_bounds ⟨hlen, hchain, hbnd, hlinks⟩
  have hnd : fl.Nodup := chain_lt_nodup hchain
  obtain ⟨l1, l2, heq, htail⟩ := FLTail_mem_split hlinks.1 hc
  subst heq
  have hcb := hb c (List.mem_append.mpr (Or.inr (List.mem_cons_self c l2)))
  have hnd' := hnd
  rw [List.nodup_append] at hnd'
  obtain ⟨hnd1, hnd2, hdisj⟩ := hnd'
  rw [List.nodup_cons] at hnd2
  have hcl1 : c ∉ l1 := fun hm => hdisj hm (List.mem_cons_self c l2)
  have hprmem : l1.getLastD 1 ∈ 1 :: (l1 ++ c :: l2) := by
    rcases getLastD_mem_cons l1 1 with hx | hx
    · rw [hx]; exact List.mem_cons_self _ _
    · exact List.mem_cons_of_mem _ (List.mem_append.mpr (Or.inl hx))
  have hnxmem : l2.headD 1 ∈ 1 :: (l1 ++ c :: l2) := by
    rcases headD_mem_cons l2 1 with hx | hx
    · rw [hx]; exact List.mem_cons_self _ _
    · exact List.mem_cons_of_mem _
        (List.mem_append.mpr (Or.inr (List.mem_cons_of_mem c hx)))
  have hprc : l1.getLastD 1 ≠ c := by
    rcases getLastD_mem_cons l1 1 with hx | hx
    · rw [hx]; omega
    · exact fun hh => hcl1 (hh ▸ hx)
  have hnxc : l2.headD 1 ≠ c := by
    rcases headD_mem_cons l2 1 with hx | hx
    · rw [hx]; omega
    · exact fun hh => hnd2.1 (hh ▸ hx)
  have hbase : d.get_base c = some (-(l1.getLastD 1)) := by
    obtain ⟨hs1, hs2⟩ := FLSeg_append hlinks.1.1
    exact hs2.2.1
  have hcheck : d.get_check c = some (-(l2.headD 1)) := FLTail_head htail
  refine ⟨l1, l2, rfl, ?_, ?_, ?_, ?_, ?_, ?_⟩
  · rw [DArray.alloc_cell, hbase, hcheck]
    simp only [neg_neg]
  · refine ⟨?_, ?_, ?_, ?_⟩
    · rw [length_set_base, length_set_check]
      exact hlen
    · rw [List.chain'_iff_pairwise]
      exact List.Pairwise.sublist ((List.sublist_cons_self c l2).append_left l1)
        (List.chain'_iff_pairwise.mp hchain)
    · intro f hf
      rw [length_set_base, length_set_check]
      rcases List.mem_append.mp hf with hx | hx
      · exact hbnd f (List.mem_append.mpr (Or.inl hx))
      · exact hbnd f (List.mem_append.mpr (Or.inr (List.mem_cons_of_mem c hx)))
    · exact FLinks_splice_out hlinks hlen hb hnd
  · rw [length_set_base, length_set_check]
  · intro x hx
    have hxpr : l1.getLastD 1 ≠ x := fun hh => hx (hh ▸ hprmem)
    have hxnx : l2.headD 1 ≠ x := fun hh => hx (hh ▸ hnxmem)
    constructor
    · rw [get_check_set_base, get_check_set_check_other _ _ _ _ hxpr]
    · rw [get_base_set_base_other _ _ _ _ hxnx, get_base_set_check]
  · rw [get_check_set_base, get_check_set_check_other _ _ _ _ hprc]
  · rw [get_base_set_base_other _ _ _ _ hnxc, get_base_set_check]

/-- The head of a `dropWhile` fails the predicate. -/
theorem dropWhile_head_not {p : ℤ → Bool} :
    ∀ (l : List ℤ) (f : ℤ) (fs : List ℤ), l.dropWhile p = f :: fs → p f = false := by
  intro l
  induction l with
  | nil => intro f fs hh; cases hh
  | cons x xs ih =>
    intro f fs hh
    rw [List.dropWhile_cons] at hh
    by_cases hp : p x
    · rw [if_pos hp] at hh
      exact ih f fs hh
    · rw [if_neg hp] at hh
      cases hh
      exact Bool.eq_false_iff.mpr hp

/-- The insertion walk of `free_cell` along a terminated segment stops
at the first cell not below `c` (or at the head if there is none). -/
theorem free_cell_loop_ring {d : DArray} {c : ℤ} {l2 : List ℤ} {pr : ℤ}
    (htail : FLTail d pr l2) (hm : ∀ x ∈ l2, 3 ≤ x) :
    ∀ n, l2.length < n →
      d.free_cell_loop c n (l2.headD 1) =
        .ok ((l2.dropWhile (fun x => decide (x < c))).headD 1) := by
  induction l2 generalizing pr with
  | nil =>
    intro n hn
    match n, hn with
    | n + 1, _ =>
      simp only [DArray.free_cell_loop, List.headD_nil, List.dropWhile_nil]
      rw [if_neg (by simp)]
  | cons x xs ih =>
    intro n hn
    match n, hn with
    | n + 1, hn =>
      obtain ⟨h1, h2, h3⟩ := FLTail_cons htail
      have hx3 := hm x (List.mem_cons_self x xs)
      simp only [DArray.free_cell_loop, List.headD_cons, List.dropWhile_cons]
      by_cases hc : x < c
      · rw [if_pos ⟨by omega, hc⟩, FLTail_head h3]
        simp only [neg_neg]
        rw [if_pos (by simpa using hc)]
        exact ih h3 (fun y hy => hm y (List.mem_cons_of_mem x hy)) n
          (by simpa using Nat.lt_of_succ_lt_succ hn)
      · rw [if_neg (fun hh => hc hh.2), if_neg (by simpa using hc)]
        rfl

/-- `free_cell` on a non-free pool cell: it succeeds, splices the cell
into the free list at the first position whose index exceeds it (so
the list stays in ascending order), and performs no other writes. -/
theorem FLOK_free {d : DArray} {fl : List ℤ} {c : ℤ}
    (h : FLOK d fl) (hcnot : c ∉ fl) (hc3 : 3 ≤ c)
    (hclen : c < (d.cells.length : ℤ)) :
    ∃ l1 l2 d2, fl = l1 ++ l2 ∧ (∀ x ∈ l1, x < c) ∧ (∀ y ∈ l2, c < y) ∧
      d.free_cell c = .ok d2 ∧ FLOK d2 (l1 ++ c :: l2) ∧
      d2.cells.length = d.cells.length ∧
      (∀ x : ℤ, x ∉ (1 :: c :: fl) →
        d2.get_check x = d.get_check x ∧ d2.get_base x = d.get_base x) := by
  obtain ⟨hlen, hchain, hbnd, hlinks⟩ := h
  have hb := FLOK_bounds ⟨hlen, hchain, hbnd, hlinks⟩
  have hnd : fl.Nodup := chain_lt_nodup hchain
  set tw := fl.takeWhile (fun x => decide (x < c)) with htw
  set dw := fl.dropWhile (fun x => decide (x < c)) with hdwdef
  have hsplit : tw ++ dw = fl := List.takeWhile_append_dropWhile _ _
  have hl1lt : ∀ x ∈ tw, x < c := by
    intro x hx
    rw [htw] at hx
    simpa using List.mem_takeWhile_imp hx
  have hl2gt : ∀ y ∈ dw, c < y := by
    rcases hdw : dw with _ | ⟨f, fs⟩
    · intro y hy; cases hy
    · have hsplit2 : tw ++ f :: fs = fl := by rw [← hdw]; exact hsplit
      have hfc : ¬ f < c := by
        have := dropWhile_head_not fl f fs (by rw [← hdwdef]; exact hdw)
        simpa using this
      have hffl : f ∈ fl := by
        rw [← hsplit2]
        exact List.mem_append.mpr (Or.inr (List.mem_cons_self f fs))
      have hfne : f ≠ c := fun hh => hcnot (hh ▸ hffl)
      have hch2 : (tw ++ f :: fs).Chain' (· < ·) := by
        rw [hsplit2]; exact hchain
      intro y hy
      rcases List.mem_cons.mp hy with rfl | hm
      · omega
      · have := (chain_lt_split hch2).2 y hm
        omega
  have hcl1 : c ∉ tw := fun hm => absurd (hl1lt c hm) (lt_irrefl c)
  have hcl2 : c ∉ dw := fun hm => absurd (hl2gt c hm) (lt_irrefl c)
  have hfuel : fl.length < d.cells.length + 2 := by
    have h9 := chain_lt_length_le (show (3 : ℤ) ≤ (d.cells.length : ℤ) by omega)
      hchain hb
    omega
  have hcheck1 : d.get_check 1 = some (-(fl.headD 1)) := FLTail_head hlinks.1
  have hbasei : d.get_base (dw.headD 1) = some (-(tw.getLastD 1)) := by
    rcases hdw : dw with _ | ⟨f, fs⟩
    · simp only [List.headD_nil]
      have hfl : fl = tw := by rw [← hsplit, hdw, List.append_nil]
      rw [hlinks.2, ← hfl]
    · simp only [List.headD_cons]
      have hsplit2 : tw ++ f :: fs = fl := by rw [← hdw]; exact hsplit
      have hseg : FLSeg d 1 (tw ++ f :: fs) ((tw ++ f :: fs).getLastD 1) := by
        rw [hsplit2]; exact hlinks.1.1
      exact (FLSeg_append hseg).2.2.1
  have hwalkpre := @free_cell_loop_ring d c fl 1 hlinks.1
    (fun x hx => (hb x hx).1) (d.cells.length + 2) hfuel
  have hwalk : d.free_cell_loop c (d.cells.length + 2) (fl.headD 1) =
      .ok (dw.headD 1) := hwalkpre
  have hlinks2 : FLinks d (tw ++ dw) := by rw [hsplit]; exact hlinks
  have hb2 : ∀ f ∈ tw ++ dw, 3 ≤ f ∧ f < (d.cells.length : ℤ) := by
    rw [hsplit]; exact hb
  have hnd2 : (tw ++ dw).Nodup := by rw [hsplit]; exact hnd
  have hspliced := FLinks_splice_in hlinks2 hlen hb2 hnd2 hc3 hclen hcl1 hcl2
  refine ⟨tw, dw,
    (((d.set_check c (-(dw.headD 1))).set_base c (-(tw.getLastD 1))).set_check
      (tw.getLastD 1) (-c)).set_base (dw.headD 1) (-c),
    hsplit.symm, hl1lt, hl2gt, ?_, ?_, ?_, ?_⟩
  · rw [DArray.free_cell, hcheck1]
    simp only [Res.ok_bind, neg_neg]
    rw [hwalk]
    simp only [Res.ok_bind]
    rw [hbasei]
    simp only [Res.ok_bind, neg_neg]
  · refine ⟨?_, ?_, ?_, hspliced⟩
    · rw [length_set_base, length_set_check, length_set_base, length_set_check]
      exact hlen
    · rw [List.chain'_iff_pairwise]
      have hpw := List.chain'_iff_pairwise.mp hchain
      rw [← hsplit, List.pairwise_append] at hpw
      refine List.pairwise_append.mpr ⟨hpw.1, ?_, ?_⟩
      · exact List.pairwise_cons.mpr ⟨hl2gt, hpw.2.1⟩
      · intro x hx y hy
        rcases List.mem_cons.mp hy with rfl | hm
        · exact hl1lt x hx
        · have := hl1lt x hx
          have := hl2gt y hm
          omega
    · intro f hf
      rw [length_set_base, length_set_check, length_set_base, length_set_check]
      rcases List.mem_append.mp hf with hx | hx
      · exact hbnd f (by rw [← hsplit]; exact List.mem_append.mpr (Or.inl hx))
      · rcases List.mem_cons.mp hx with rfl | hm
        · rw [DA_POOL_BEGIN]
          exact ⟨hc3, hclen⟩
        · exact hbnd f (by rw [← hsplit]; exact List.mem_append.mpr (Or.inr hm))
  · rw [length_set_base, length_set_check, length_set_base, length_set_check]
  · intro x hx
    rw [List.mem_cons, List.mem_cons] at hx
    push_neg at hx
    have hxc : c ≠ x := fun hh => hx.2.1 hh.symm
    have hxpr : tw.getLastD 1 ≠ x := by
      rcases getLastD_mem_cons tw 1 with hy | hy
      · rw [hy]; exact fun hh => hx.1 hh.symm
      · intro hh
        exact hx.2.2 (hh ▸ (by rw [← hsplit]; exact List.mem_append.mpr (Or.inl hy)))
    have hxnx : dw.headD 1 ≠ x := by
      rcases headD_mem_cons dw 1 with hy | hy
      · rw [hy]; exact fun hh => hx.1 hh.symm
      · intro hh
        exact hx.2.2 (hh ▸ (by rw [← hsplit]; exact List.mem_append.mpr (Or.inr hy)))
    constructor
    · rw [get_check_set_base, get_check_set_check_other _ _ _ _ hxpr,
        get_check_set_base, get_check_set_check_other _ _ _ _ hxc]
    · rw [get_base_set_base_other _ _ _ _ hxnx, get_base_set_check,
        get_base_set_base_other _ _ _ _ hxc, get_base_set_check]

/-- Appending cells does not change reads below the old length. -/
theorem get_check_mk_append (d : DArray) (l : List DACell) (x : ℤ)
    (hx : x < (d.cells.length : ℤ)) :
    (DArray.mk (d.cells ++ l)).get_check x = d.get_check x := by
  unfold DArray.get_check
  by_cases h0 : x < 0
  · rw [if_pos h0, if_pos h0]
  · rw [if_neg h0, if_neg h0]
    show (((d.cells ++ l).get? x.toNat).map _ : Option ℤ) = _
    rw [List.get?_eq_getElem?, List.get?_eq_getElem?,
      List.getElem?_append_left (by omega)]

/-- Appending cells does not change base reads below the old length. -/
theorem get_base_mk_append (d : DArray) (l : List DACell) (x : ℤ)
    (hx : x < (d.cells.length : ℤ)) :
    (DArray.mk (d.cells ++ l)).get_base x = d.get_base x := by
  unfold DArray.get_base
  by_cases h0 : x < 0
  · rw [if_pos h0, if_pos h0]
  · rw [if_neg h0, if_neg h0]
    show (((d.cells ++ l).get? x.toNat).map _ : Option ℤ) = _
    rw [List.get?_eq_getElem?, List.get?_eq_getElem?,
      List.getElem?_append_left (by omega)]

/-- `intRange` is a `natSeg`. -/
theorem intRange_eq_natSeg {a b : ℤ} (hab : a ≤ b) :
    intRange a b = natSeg a (b - a).toNat := by
  unfold intRange natSeg
  have : (b + 1 - a).toNat = (b - a).toNat + 1 := by omega
  rw [this]

/-- Membership in a `natSeg`. -/
theorem natSeg_mem {nb : ℤ} {M : ℕ} {x : ℤ} (h : x ∈ natSeg nb M) :
    nb ≤ x ∧ x ≤ nb + M := by
  unfold natSeg at h
  rw [List.mem_map] at h
  obtain ⟨k, hk, rfl⟩ := h
  rw [List.mem_range] at hk
  omega

/-- A `natSeg` is ascending. -/
theorem natSeg_pairwise (nb : ℤ) (M : ℕ) :
    (natSeg nb M).Pairwise (· < ·) := by
  unfold natSeg
  exact (List.pairwise_lt_range (M + 1)).map _ (fun a b hab => by omega)

/-- The last element of a `natSeg`. -/
theorem natSeg_getLastD (nb : ℤ) (M : ℕ) (a : ℤ) :
    (natSeg nb M).getLastD a = nb + M := by
  unfold natSeg
  rw [List.range_succ, List.map_append, getLastD_append]
  rfl

/-- Building the forward/backward chain over a `natSeg` from pointwise
link values. -/
theorem FLSeg_natSeg {d : DArray} {nb pr : ℤ} (M : ℕ)
    (hck : ∀ k : ℕ, k < M → d.get_check (nb + (k : ℤ)) = some (-(nb + (k : ℤ) + 1)))
    (hbs : ∀ k : ℕ, 1 ≤ k → k ≤ M → d.get_base (nb + (k : ℤ)) = some (-(nb + (k : ℤ) - 1)))
    (hck0 : d.get_check pr = some (-nb)) (hbs0 : d.get_base nb = some (-pr)) :
    FLSeg d pr (natSeg nb M) (nb + (M : ℤ)) := by
  induction M with
  | zero =>
    have e1 : natSeg nb 0 = [nb] := by
      simp [natSeg, List.range_succ]
    rw [e1, show nb + ((0 : ℕ) : ℤ) = nb by norm_num]
    exact ⟨hck0, hbs0, rfl⟩
  | succ M ih =>
    have hs1 : FLSeg d pr (natSeg nb M) (nb + (M : ℤ)) :=
      ih (fun k hk => hck k (by omega)) (fun k h1 h2 => hbs k h1 (by omega))
    have hs2 : FLSeg d (nb + (M : ℤ)) [nb + ((M + 1 : ℕ) : ℤ)]
        (nb + ((M + 1 : ℕ) : ℤ)) := by
      refine ⟨?_, ?_, rfl⟩
      · have h6 := hck M (by omega)
        rw [h6]
        congr 1
        push_cast
        ring
      · have h7 := hbs (M + 1) (by omega) (by omega)
        rw [h7]
        congr 1
        push_cast
        ring
    have hglue := FLSeg_glue hs1 hs2
    have hshape : natSeg nb M ++ [nb + ((M + 1 : ℕ) : ℤ)] = natSeg nb (M + 1) := by
      unfold natSeg
      conv_rhs => rw [List.range_succ]
      rw [List.map_append]
      rfl
    rw [hshape] at hglue
    exact hglue

/-- A segment transfers to any array agreeing on its reads. -/
theorem FLSeg_of_agree {d d2 : DArray} {p q : ℤ} {l : List ℤ}
    (h : FLSeg d p l q)
    (hck : ∀ x, x = p ∨ x ∈ l → d2.get_check x = d.get_check x)
    (hbs : ∀ x, x ∈ l → d2.get_base x = d.get_base x) :
    FLSeg d2 p l q := by
  induction l generalizing p with
  | nil => exact h
  | cons f fs ih =>
    obtain ⟨h1, h2, h3⟩ := h
    refine ⟨?_, ?_, ih h3 ?_ ?_⟩
    · rw [hck p (Or.inl rfl)]
      exact h1
    · rw [hbs f (List.mem_cons_self f fs)]
      exact h2
    · intro x hx
      rcases hx with rfl | hx
      · exact hck x (Or.inr (List.mem_cons_self x fs))
      · exact hck x (Or.inr (List.mem_cons_of_mem f hx))
    · intro x hx
      exact hbs x (List.mem_cons_of_mem f hx)

/-- Pointwise description of the linking loop of `extend_pool`: the
new cells are chained forward by checks and backward by bases, and
nothing else is written. -/
theorem extend_fold_spec (d1 : DArray) (nb : ℤ) (hnb : 0 ≤ nb) :
    ∀ (M : ℕ), nb + M < (d1.cells.length : ℤ) →
    ∀ dd, dd = (List.range M).foldl (fun (dd : DArray) (k : ℕ) =>
        ((dd.set_check (nb + (k : ℤ)) (-(nb + (k : ℤ) + 1))).set_base
          (nb + (k : ℤ) + 1) (-(nb + (k : ℤ))))) d1 →
      dd.cells.length = d1.cells.length ∧
      (∀ k : ℕ, k < M → dd.get_check (nb + k) = some (-(nb + k + 1))) ∧
      (∀ k : ℕ, 1 ≤ k → k ≤ M → dd.get_base (nb + k) = some (-(nb + k - 1))) ∧
      (∀ x : ℤ, x < nb ∨ nb + M ≤ x → dd.get_check x = d1.get_check x) ∧
      (∀ x : ℤ, x ≤ nb ∨ nb + M < x → dd.get_base x = d1.get_base x) := by
  intro M
  induction M with
  | zero =>
    intro hin dd hdd
    subst hdd
    refine ⟨rfl, ?_, ?_, fun x _ => rfl, fun x _ => rfl⟩
    · intro k hk
      omega
    · intro k h1 h2
      omega
  | succ M ih =>
    intro hin dd hdd
    obtain ⟨ih1, ih2, ih3, ih4, ih5⟩ := ih (by push_cast at hin ⊢; omega) _ rfl
    rw [List.range_succ, List.foldl_append, List.foldl_cons, List.foldl_nil] at hdd
    subst hdd
    have hMlt : nb + (M : ℤ) < (d1.cells.length : ℤ) := by
      push_cast at hin; omega
    have hM1lt : nb + (M : ℤ) + 1 < (d1.cells.length : ℤ) := by
      push_cast at hin; omega
    refine ⟨?_, ?_, ?_, ?_, ?_⟩
    · rw [length_set_base, length_set_check, ih1]
    · intro k hk
      rcases Nat.lt_succ_iff_lt_or_eq.mp hk with hk2 | hk2
      · rw [get_check_set_base,
          get_check_set_check_other _ _ _ _ (by omega : nb + (M : ℤ) ≠ nb + (k : ℤ))]
        exact ih2 k hk2
      · subst hk2
        rw [get_check_set_base, get_check_set_check_self _ _ _ (by omega)
          (by rw [ih1]; omega)]
    · intro k h1 h2
      rcases Nat.lt_succ_iff_lt_or_eq.mp (Nat.lt_succ_of_le h2) with hk2 | hk2
      · have hk3 : k ≤ M := by omega
        rw [get_base_set_base_other _ _ _ _
          (by omega : nb + (M : ℤ) + 1 ≠ nb + (k : ℤ)), get_base_set_check]
        exact ih3 k h1 hk3
      · subst hk2
        rw [show ((M + 1 : ℕ) : ℤ) = (M : ℤ) + 1 by push_cast; ring,
          show nb + ((M : ℤ) + 1) = nb + (M : ℤ) + 1 by ring]
        rw [get_base_set_base_self _ _ _ (by omega)
          (by rw [length_set_check, ih1]; omega)]
        congr 1
        ring
    · intro x hx
      rw [get_check_set_base,
        get_check_set_check_other _ _ _ _ (by push_cast at hx ⊢; omega :
          nb + (M : ℤ) ≠ x)]
      exact ih4 x (by push_cast at hx ⊢; omega)
    · intro x hx
      rw [get_base_set_base_other _ _ _ _ (by push_cast at hx ⊢; omega :
          nb + (M : ℤ) + 1 ≠ x), get_base_set_check]
      exact ih5 x (by push_cast at hx ⊢; omega)

/-- A growing `extend_pool` call: it succeeds, the new cells are
appended to the free list in ascending order, the header check is
updated to the new pool size, and old occupied cells are untouched. -/
theorem FLOK_extend {d : DArray} {fl : List ℤ} {ti : ℤ}
    (h : FLOK d fl) (hle : (d.cells.length : ℤ) ≤ ti)
    (hmax : ti < TRIE_INDEX_MAX) :
    d.extend_pool ti = (extendRes d ti, true) ∧
    FLOK (extendRes d ti) (fl ++ intRange (d.cells.length : ℤ) ti) ∧
    ((extendRes d ti).cells.length : ℤ) = ti + 1 ∧
    (extendRes d ti).get_check 0 = some (ti + 1) ∧
    (∀ x : ℤ, 2 ≤ x → x < (d.cells.length : ℤ) → x ∉ fl →
      (extendRes d ti).get_check x = d.get_check x ∧
      (extendRes d ti).get_base x = d.get_base x) := by
  obtain ⟨hlen, hchain, hbnd, hlinks⟩ := h
  have hb := FLOK_bounds ⟨hlen, hchain, hbnd, hlinks⟩
  have hnd := chain_lt_nodup hchain
  have h1fl : (1 : ℤ) ∉ fl := fun hm => by have := hb 1 hm; omega
  have hprb : 1 ≤ fl.getLastD 1 ∧ fl.getLastD 1 < (d.cells.length : ℤ) := by
    rcases getLastD_mem_cons fl 1 with hx | hx
    · rw [hx]; omega
    · have := hb _ hx; omega
  have hlen1 : (extendD1 d ti).cells.length = ti.toNat + 1 := by
    show (d.cells ++ _).length = _
    rw [List.length_append, List.length_replicate]
    omega
  have hfold := extend_fold_spec (extendD1 d ti) (d.cells.length : ℤ) (by omega)
    (ti.toNat - d.cells.length) (by rw [hlen1]; push_cast; omega)
    (extendFold d ti) rfl
  obtain ⟨hf1, hf2, hf3, hf4, hf5⟩ := hfold
  have hb1f : (extendFold d ti).get_base 1 = some (-(fl.getLastD 1)) := by
    rw [hf5 1 (Or.inl (by omega))]
    exact (get_base_mk_append d _ 1 (by omega)).trans hlinks.2
  have hft : extendFT d ti = fl.getLastD 1 := by
    unfold extendFT
    rw [hb1f, Option.getD_some, neg_neg]
  have hlen3 : (extendD3 d ti).cells.length = ti.toNat + 1 := by
    unfold extendD3
    rw [length_set_base, length_set_check, length_set_base, length_set_check,
      hf1, hlen1]
  have hd3 : extendD3 d ti = ((((extendFold d ti).set_check (fl.getLastD 1)
      (-(d.cells.length : ℤ))).set_base (d.cells.length : ℤ)
      (-(fl.getLastD 1))).set_check ti (-1)).set_base 1 (-ti) := by
    unfold extendD3
    rw [hft]
  have hd4 : extendRes d ti = (extendD3 d ti).set_check 0
      ((ti.toNat + 1 : ℕ) : ℤ) := by
    unfold extendRes
    rw [hlen3]
  have hlen4 : (extendRes d ti).cells.length = ti.toNat + 1 := by
    rw [hd4, length_set_check, hlen3]
  have hck_pr : (extendRes d ti).get_check (fl.getLastD 1) =
      some (-(d.cells.length : ℤ)) := by
    rw [hd4, hd3,
      get_check_set_check_other _ _ _ _ (show (0 : ℤ) ≠ fl.getLastD 1 by omega),
      get_check_set_base,
      get_check_set_check_other _ _ _ _ (show ti ≠ fl.getLastD 1 by omega),
      get_check_set_base,
      get_check_set_check_self _ _ _ (by omega) (by rw [hf1, hlen1]; omega)]
  have hbs_nb : (extendRes d ti).get_base (d.cells.length : ℤ) =
      some (-(fl.getLastD 1)) := by
    rw [hd4, hd3, get_base_set_check,
      get_base_set_base_other _ _ _ _
        (show (1 : ℤ) ≠ (d.cells.length : ℤ) by omega),
      get_base_set_check,
      get_base_set_base_self _ _ _ (by omega)
        (by rw [length_set_check, hf1, hlen1]; omega)]
  have hck_to : (extendRes d ti).get_check ti = some (-1) := by
    rw [hd4, hd3,
      get_check_set_check_other _ _ _ _ (show (0 : ℤ) ≠ ti by omega),
      get_check_set_base,
      get_check_set_check_self _ _ _ (by omega)
        (by rw [length_set_base, length_set_check, hf1, hlen1]; omega)]
  have hbs_1 : (extendRes d ti).get_base 1 = some (-ti) := by
    rw [hd4, hd3, get_base_set_check,
      get_base_set_base_self _ _ _ (by omega)
        (by rw [length_set_check, length_set_base, length_set_check, hf1, hlen1]
            omega)]
  have hck_0 : (extendRes d ti).get_check 0 =
      some ((ti.toNat + 1 : ℕ) : ℤ) := by
    rw [hd4, get_check_set_check_self _ _ _ (by omega) (by rw [hlen3]; omega)]
  have hck_new : ∀ k : ℕ, k < ti.toNat - d.cells.length →
      (extendRes d ti).get_check ((d.cells.length : ℤ) + k) =
        some (-((d.cells.length : ℤ) + k + 1)) := by
    intro k hk
    rw [hd4, hd3,
      get_check_set_check_other _ _ _ _
        (show (0 : ℤ) ≠ (d.cells.length : ℤ) + (k : ℤ) by omega),
      get_check_set_base,
      get_check_set_check_other _ _ _ _
        (show ti ≠ (d.cells.length : ℤ) + (k : ℤ) by omega),
      get_check_set_base,
      get_check_set_check_other _ _ _ _
        (show fl.getLastD 1 ≠ (d.cells.length : ℤ) + (k : ℤ) by omega)]
    exact hf2 k hk
  have hbs_new : ∀ k : ℕ, 1 ≤ k → k ≤ ti.toNat - d.cells.length →
      (extendRes d ti).get_base ((d.cells.length : ℤ) + k) =
        some (-((d.cells.length : ℤ) + k - 1)) := by
    intro k h1 h2
    rw [hd4, hd3, get_base_set_check,
      get_base_set_base_other _ _ _ _
        (show (1 : ℤ) ≠ (d.cells.length : ℤ) + (k : ℤ) by omega),
      get_base_set_check,
      get_base_set_base_other _ _ _ _
        (show (d.cells.length : ℤ) ≠ (d.cells.length : ℤ) + (k : ℤ) by omega),
      get_base_set_check]
    exact hf3 k h1 h2
  have hMeq : (d.cells.length : ℤ) + ((ti.toNat - d.cells.length : ℕ) : ℤ) =
      ti := by
    push_cast
    omega
  have hseg_new : FLSeg (extendRes d ti) (fl.getLastD 1)
      (natSeg (d.cells.length : ℤ) (ti.toNat - d.cells.length)) ti := by
    have h9 := FLSeg_natSeg (ti.toNat - d.cells.length) hck_new hbs_new
      hck_pr hbs_nb
    rwa [hMeq] at h9
  have hseg_old : FLSeg (extendRes d ti) 1 fl (fl.getLastD 1) := by
    have s1 : FLSeg (extendD1 d ti) 1 fl (fl.getLastD 1) :=
      FLSeg_of_agree hlinks.1.1
        (fun x hx => by
          rcases hx with rfl | hx
          · exact get_check_mk_append d _ 1 (by omega)
          · exact get_check_mk_append d _ x (by have := hb x hx; omega))
        (fun x hx => get_base_mk_append d _ x (by have := hb x hx; omega))
    have s2 : FLSeg (extendFold d ti) 1 fl (fl.getLastD 1) :=
      FLSeg_of_agree s1
        (fun x hx => by
          rcases hx with rfl | hx
          · exact hf4 1 (Or.inl (by omega))
          · exact hf4 x (Or.inl (by have := hb x hx; omega)))
        (fun x hx => hf5 x (Or.inl (by have := hb x hx; omega)))
    rw [hd4, hd3]
    exact FLSeg_set_check_frame
      (FLSeg_set_base_frame
        (FLSeg_set_check_frame
          (FLSeg_set_base_frame
            (FLSeg_set_check_endpoint s2 (List.nodup_cons.mpr ⟨h1fl, hnd⟩))
            (fun hm => by have := hb _ hm; omega))
          (show ti ≠ 1 by omega) (fun hm => by have := hb _ hm; omega))
        h1fl)
      (show (0 : ℤ) ≠ 1 by omega) (fun hm => by have := hb _ hm; omega)
  have hend : (fl ++ natSeg (d.cells.length : ℤ)
      (ti.toNat - d.cells.length)).getLastD 1 = ti := by
    rw [getLastD_append, natSeg_getLastD]
    exact hMeq
  have hIR : intRange (d.cells.length : ℤ) ti =
      natSeg (d.cells.length : ℤ) (ti.toNat - d.cells.length) := by
    rw [intRange_eq_natSeg hle]
    congr 1
    omega
  have heval : d.extend_pool ti = (extendRes d ti, true) := by
    rw [DArray.extend_pool,
      if_neg (by push_neg; exact ⟨by omega, by omega⟩), if_neg (by omega)]
    rfl
  refine ⟨heval, ⟨?_, ?_, ?_, ?_⟩, ?_, ?_, ?_⟩
  · rw [hlen4]
    push_cast
    omega
  · rw [hIR, List.chain'_iff_pairwise]
    refine List.pairwise_append.mpr
      ⟨List.chain'_iff_pairwise.mp hchain, natSeg_pairwise _ _, ?_⟩
    intro x hx y hy
    have h7 := hb x hx
    have h8 := natSeg_mem hy
    omega
  · intro f hf
    rw [hIR] at hf
    rw [DA_POOL_BEGIN, hlen4]
    rcases List.mem_append.mp hf with hx | hx
    · have := hb f hx
      push_cast
      omega
    · have := natSeg_mem hx
      push_cast
      omega
  · rw [hIR]
    refine ⟨⟨?_, ?_⟩, ?_⟩
    · rw [hend]
      exact FLSeg_glue hseg_old hseg_new
    · rw [hend]
      exact hck_to
    · rw [hend]
      exact hbs_1
  · rw [hlen4]
    push_cast
    omega
  · rw [hck_0]
    congr 1
    push_cast
    omega
  · intro x hx2 hxlen hxfl
    have hxpr : fl.getLastD 1 ≠ x := by
      rcases getLastD_mem_cons fl 1 with hy | hy
      · rw [hy]; omega
      · exact fun hh => hxfl (hh ▸ hy)
    constructor
    · rw [hd4, hd3,
        get_check_set_check_other _ _ _ _ (show (0 : ℤ) ≠ x by omega),
        get_check_set_base,
        get_check_set_check_other _ _ _ _ (show ti ≠ x by omega),
        get_check_set_base,
        get_check_set_check_other _ _ _ _ hxpr,
        hf4 x (Or.inl (by omega))]
      exact get_check_mk_append d _ x (by omega)
    · rw [hd4, hd3, get_base_set_check,
        get_base_set_base_other _ _ _ _ (show (1 : ℤ) ≠ x by omega),
        get_base_set_check,
        get_base_set_base_other _ _ _ _
          (show (d.cells.length : ℤ) ≠ x by omega),
        get_base_set_check,
        hf5 x (Or.inl (by omega))]
      exact get_base_mk_append d _ x (by omega)

/-- Membership bound for `intRange`. -/
theorem intRange_mem {a b x : ℤ} (hab : a ≤ b) (h : x ∈ intRange a b) :
    a ≤ x ∧ x ≤ b := by
  rw [intRange_eq_natSeg hab] at h
  have h2 := natSeg_mem h
  omega

/-- Introduction for `intRange` membership. -/
theorem mem_intRange {a b x : ℤ} (h1 : a ≤ x) (h2 : x ≤ b) :
    x ∈ intRange a b := by
  rw [intRange_eq_natSeg (le_trans h1 h2)]
  unfold natSeg
  rw [List.mem_map]
  refine ⟨(x - a).toNat, by rw [List.mem_range]; omega, by omega⟩

/-- Under `DAWF`, a pool cell at `3` or above with a negative check is
on the free list. -/
theorem DAWF_mem_of_neg {d : DArray} {fl : List ℤ} {i v : ℤ}
    (h : DAWF d fl) (hi3 : 3 ≤ i) (hv : d.get_check i = some v)
    (hneg : v < 0) : i ∈ fl := by
  by_contra hnot
  have hlen := (get_check_some_bounds hv).2
  obtain ⟨v2, w, hv2, -, -, -, hpar, -⟩ := h.2.2.2.2.1 i
    ⟨by rw [DA_POOL_BEGIN]; exact hi3, by omega, hnot⟩
  rw [hv] at hv2
  injection hv2 with hv3
  rcases hpar with h4 | h4
  · omega
  · have := h4.1
    rw [DA_POOL_BEGIN] at this
    omega

/-- Under `DAWF`, the check of a free cell is negative. -/
theorem DAWF_neg_of_mem {d : DArray} {fl : List ℤ} {f : ℤ}
    (h : DAWF d fl) (hf : f ∈ fl) :
    ∃ v, d.get_check f = some v ∧ v < 0 := by
  obtain ⟨l1, l2, heq, hck, hmem⟩ := FLinks_mem_check h.1.2.2.2 hf
  refine ⟨-(l2.headD 1), hck, ?_⟩
  rcases hmem with hm | hm
  · have := FLOK_bounds h.1 _ hm
    omega
  · omega

/-- A growing `extend_pool` call preserves the full invariant: the new
cells go to the free list and occupied cells are untouched. -/
theorem DAWF_extend {d : DArray} {fl : List ℤ} {ti : ℤ}
    (h : DAWF d fl) (hle : (d.cells.length : ℤ) ≤ ti)
    (hmax : ti < TRIE_INDEX_MAX) :
    d.extend_pool ti = (extendRes d ti, true) ∧
    DAWF (extendRes d ti) (fl ++ intRange (d.cells.length : ℤ) ti) ∧
    ((extendRes d ti).cells.length : ℤ) = ti + 1 ∧
    (∀ x : ℤ, 2 ≤ x → x < (d.cells.length : ℤ) → x ∉ fl →
      (extendRes d ti).get_check x = d.get_check x ∧
      (extendRes d ti).get_base x = d.get_base x) := by
  obtain ⟨hfl, hc0, hc2, hb2, hocc, rank, hrank⟩ := h
  have hb := FLOK_bounds hfl
  have hlen3 := hfl.1
  have h2fl : (2 : ℤ) ∉ fl := fun hm => by have := hb 2 hm; omega
  obtain ⟨heval, hflok2, hlen2, hck0, hframe⟩ := FLOK_extend hfl hle hmax
  have hnotnew : ∀ x : ℤ, x < (d.cells.length : ℤ) →
      x ∉ intRange (d.cells.length : ℤ) ti := by
    intro x hx hm
    have := intRange_mem hle hm
    omega
  have hold : ∀ i : ℤ, InUse (extendRes d ti)
      (fl ++ intRange (d.cells.length : ℤ) ti) i → InUse d fl i := by
    intro i ⟨hi3, hilen, hifl⟩
    rw [List.mem_append] at hifl
    push_neg at hifl
    have hilt : i < (d.cells.length : ℤ) := by
      by_contra hge
      exact hifl.2 (mem_intRange (by omega) (by omega))
    exact ⟨hi3, hilt, hifl.1⟩
  refine ⟨heval, ⟨hflok2, ?_, ?_, ?_, ?_, rank, ?_⟩, hlen2, hframe⟩
  · rw [show ((extendRes d ti).cells.length : ℤ) = ti + 1 from hlen2]
    exact hck0
  · rw [(hframe 2 (by omega) (by omega) h2fl).1]
    exact hc2
  · obtain ⟨w, hw1, hw2⟩ := hb2
    exact ⟨w, by rw [(hframe 2 (by omega) (by omega) h2fl).2]; exact hw1, hw2⟩
  · intro i hi
    have hiold := hold i hi
    obtain ⟨v, w, hv, hw, hwr, hvi, hvp, bv, hbv, hbv3, hbv1, hbv2⟩ := hocc i hiold
    have hif := hframe i (by have := hiold.1; rw [DA_POOL_BEGIN] at this; omega)
      hiold.2.1 hiold.2.2
    have hvframe : (extendRes d ti).get_base v = d.get_base v ∧
        (extendRes d ti).get_check v = d.get_check v := by
      rcases hvp with rfl | hvu
      · exact ⟨(hframe 2 (by omega) (by omega) h2fl).2,
          (hframe 2 (by omega) (by omega) h2fl).1⟩
      · have := hframe v (by have := hvu.1; rw [DA_POOL_BEGIN] at this; omega)
          hvu.2.1 hvu.2.2
        exact ⟨this.2, this.1⟩
    refine ⟨v, w, by rw [hif.1]; exact hv, by rw [hif.2]; exact hw, hwr, hvi,
      ?_, bv, by rw [hvframe.1]; exact hbv, hbv3, hbv1, hbv2⟩
    rcases hvp with rfl | hvu
    · exact Or.inl rfl
    · refine Or.inr ⟨hvu.1, ?_, ?_⟩
      · have := hvu.2.1
        omega
      · rw [List.mem_append]
        push_neg
        exact ⟨hvu.2.2, hnotnew v hvu.2.1⟩
  · intro i hi v hv
    have hiold := hold i hi
    have hif := hframe i (by have := hiold.1; rw [DA_POOL_BEGIN] at this; omega)
      hiold.2.1 hiold.2.2
    rw [hif.1] at hv
    exact hrank i hiold v hv

/-- `free_cell` of an in-use, childless pool cell preserves the full
invariant, splicing the cell into the free list in ascending order. -/
theorem DAWF_free {d : DArray} {fl : List ℤ} {c : ℤ}
    (h : DAWF d fl) (hcnot : c ∉ fl) (hc3 : 3 ≤ c)
    (hclen : c < (d.cells.length : ℤ))
    (hnochild : ∀ i v, InUse d fl i → d.get_check i = some v → v ≠ c) :
    ∃ l1 l2 d2, fl = l1 ++ l2 ∧ (∀ x ∈ l1, x < c) ∧ (∀ y ∈ l2, c < y) ∧
      d.free_cell c = .ok d2 ∧ DAWF d2 (l1 ++ c :: l2) ∧
      d2.cells.length = d.cells.length ∧
      (∀ x : ℤ, x ∉ (1 :: c :: fl) →
        d2.get_check x = d.get_check x ∧ d2.get_base x = d.get_base x) := by
  obtain ⟨hfl, hc0, hc2, hb2, hocc, rank, hrank⟩ := h
  have hb := FLOK_bounds hfl
  obtain ⟨l1, l2, d2, hsplit, hlt, hgt, heval, hflok2, hlen2, hframe⟩ :=
    FLOK_free hfl hcnot hc3 hclen
  have hmem2 : ∀ x : ℤ, x ∈ (l1 ++ c :: l2) ↔ x ∈ fl ∨ x = c := by
    intro x
    rw [hsplit, List.mem_append, List.mem_append, List.mem_cons]
    tauto
  have hnotin : ∀ x : ℤ, 0 ≤ x → x ≠ 1 → x ≠ c → x ∉ fl →
      x ∉ (1 :: c :: fl) := by
    intro x h0 h1 h2 h3 hm
    rcases List.mem_cons.mp hm with hh | hm2
    · exact h1 hh
    · rcases List.mem_cons.mp hm2 with hh | hm3
      · exact h2 hh
      · exact h3 hm3
  have h0mem : (0 : ℤ) ∉ (1 :: c :: fl) :=
    hnotin 0 (by omega) (by omega) (by omega)
      (fun hm => by have := hb 0 hm; omega)
  have h2mem : (2 : ℤ) ∉ (1 :: c :: fl) :=
    hnotin 2 (by omega) (by omega) (by omega)
      (fun hm => by have := hb 2 hm; omega)
  have hold : ∀ i : ℤ, InUse d2 (l1 ++ c :: l2) i → InUse d fl i ∧ i ≠ c := by
    intro i ⟨hi3, hilen, hifl⟩
    rw [hmem2] at hifl
    push_neg at hifl
    have := hlen2
    exact ⟨⟨hi3, by omega, hifl.1⟩, hifl.2⟩
  refine ⟨l1, l2, d2, hsplit, hlt, hgt, heval,
    ⟨hflok2, ?_, ?_, ?_, ?_, rank, ?_⟩, hlen2, hframe⟩
  · rw [(hframe 0 h0mem).1, hlen2]
    exact hc0
  · rw [(hframe 2 h2mem).1]
    exact hc2
  · obtain ⟨w, hw1, hw2⟩ := hb2
    exact ⟨w, by rw [(hframe 2 h2mem).2]; exact hw1, hw2⟩
  · intro i hi
    obtain ⟨hiold, hic⟩ := hold i hi
    obtain ⟨v, w, hv, hw, hwr, hvi, hvp, bv, hbv, hbv3, hbv1, hbv2⟩ :=
      hocc i hiold
    have hvc : v ≠ c := hnochild i v hiold hv
    have himem : i ∉ (1 :: c :: fl) := hnotin i
      (by have := hiold.1; rw [DA_POOL_BEGIN] at this; omega)
      (by have := hiold.1; rw [DA_POOL_BEGIN] at this; omega) hic hiold.2.2
    have hvframe : d2.get_base v = d.get_base v ∧
        d2.get_check v = d.get_check v := by
      rcases hvp with rfl | hvu
      · exact ⟨(hframe 2 h2mem).2, (hframe 2 h2mem).1⟩
      · have h7 := hframe v (hnotin v
          (by have := hvu.1; rw [DA_POOL_BEGIN] at this; omega)
          (by have := hvu.1; rw [DA_POOL_BEGIN] at this; omega) hvc hvu.2.2)
        exact ⟨h7.2, h7.1⟩
    refine ⟨v, w, by rw [(hframe i himem).1]; exact hv,
      by rw [(hframe i himem).2]; exact hw, hwr, hvi, ?_, bv,
      by rw [hvframe.1]; exact hbv, hbv3, hbv1, hbv2⟩
    rcases hvp with rfl | hvu
    · exact Or.inl rfl
    · refine Or.inr ⟨hvu.1, by have := hvu.2.1; have := hlen2; omega, ?_⟩
      rw [hmem2]
      push_neg
      exact ⟨hvu.2.2, hvc⟩
  · intro i hi v hv
    obtain ⟨hiold, hic⟩ := hold i hi
    have himem : i ∉ (1 :: c :: fl) := hnotin i
      (by have := hiold.1; rw [DA_POOL_BEGIN] at this; omega)
      (by have := hiold.1; rw [DA_POOL_BEGIN] at this; omega) hic hiold.2.2
    rw [(hframe i himem).1] at hv
    exact hrank i hiold v hv

/-- `ib_alloc` (allocate a free cell and point its check at the
parent) preserves the full invariant when the cell lies inside the
parent's character window. -/
theorem DAWF_ib_alloc {d : DArray} {fl : List ℤ} {s next : ℤ}
    (h : DAWF d fl) (hnext : next ∈ fl)
    (hs : s = 2 ∨ InUse d fl s) (hsnext : s ≠ next)
    (hwin : ∃ bs, d.get_base s = some bs ∧ 3 ≤ bs ∧ bs ≤ next ∧
      next ≤ bs + (TRIE_CHAR_MAX : ℤ)) :
    ∃ l1 l2 d2, fl = l1 ++ next :: l2 ∧ d.ib_alloc s next = .ok (d2, next) ∧
      DAWF d2 (l1 ++ l2) ∧ d2.cells.length = d.cells.length ∧
      (∀ x : ℤ, x ∉ (1 :: fl) → x ≠ next →
        d2.get_check x = d.get_check x ∧ d2.get_base x = d.get_base x) ∧
      d2.get_check next = some s ∧ d2.get_base next = d.get_base next := by
  obtain ⟨hfl, hc0, hc2, hb2, hocc, rank, hrank⟩ := h
  have hb := FLOK_bounds hfl
  have hnb := hb next hnext
  obtain ⟨l1, l2, heq, halloc, hflok1, hlen1, hframe1, hckn, hbsn⟩ :=
    FLOK_alloc hfl hnext
  have hnd : fl.Nodup := chain_lt_nodup hfl.2.1
  have hnextnot : next ∉ l1 ++ l2 := by
    rw [heq] at hnd
    rw [List.nodup_append] at hnd
    intro hm
    rcases List.mem_append.mp hm with hx | hx
    · exact hnd.2.2 hx (List.mem_cons_self next l2)
    · rw [List.nodup_cons] at hnd
      exact hnd.2.1.1 hx
  have hmem2 : ∀ x : ℤ, x ∈ fl ↔ x ∈ (l1 ++ l2) ∨ x = next := by
    intro x
    rw [heq, List.mem_append, List.mem_append, List.mem_cons]
    tauto
  have hs2 : (2 : ℤ) ∉ (1 :: fl) := by
    intro hm
    rcases List.mem_cons.mp hm with hh | hm2
    · omega
    · have := hb 2 hm2; omega
  have h02 : (0 : ℤ) ∉ (1 :: fl) := by
    intro hm
    rcases List.mem_cons.mp hm with hh | hm2
    · omega
    · have := hb 0 hm2; omega
  have hbase_next : ∃ bn, d.get_base next = some bn ∧ bn ≤ 0 := by
    obtain ⟨l1b, l2b, heqb, hbb, hmb⟩ := FLinks_mem_base hfl.2.2.2 hnext
    refine ⟨-(l1b.getLastD 1), hbb, ?_⟩
    rcases hmb with hm | hm
    · have := hb _ hm; omega
    · omega
  have hinuse_s : ∀ x : ℤ, (x = 2 ∨ InUse d fl x) → x ∉ (1 :: fl) := by
    intro x hx hm
    rcases List.mem_cons.mp hm with hh | hm2
    · rcases hx with rfl | hx2
      · omega
      · have := hx2.1; rw [DA_POOL_BEGIN] at this; omega
    · rcases hx with rfl | hx2
      · have := hb 2 hm2; omega
      · exact hx2.2.2 hm2
  refine ⟨l1, l2,
    ((d.set_check (l1.getLastD 1) (-(l2.headD 1))).set_base (l2.headD 1)
      (-(l1.getLastD 1))).set_check next s,
    heq, ?_, ⟨?_, ?_, ?_, ?_, ?_, ?_⟩, ?_, ?_, ?_, ?_⟩
  · rw [DArray.ib_alloc, halloc]
    rfl
  · exact FLOK_set_check_frame hflok1 (by omega) hnextnot
  · rw [length_set_check,
      get_check_set_check_other _ _ _ _ (by omega : next ≠ 0),
      (hframe1 0 h02).1, hlen1]
    exact hc0
  · rw [get_check_set_check_other _ _ _ _ (by omega : next ≠ 2),
      (hframe1 2 hs2).1]
    exact hc2
  · obtain ⟨w, hw1, hw2⟩ := hb2
    exact ⟨w, by rw [get_base_set_check, (hframe1 2 hs2).2]; exact hw1, hw2⟩
  · intro i hi
    obtain ⟨hi3, hilen, hifl⟩ := hi
    rw [length_set_check, hlen1] at hilen
    by_cases hin : i = next
    · subst hin
      obtain ⟨bn, hbn, hbn0⟩ := hbase_next
      obtain ⟨bs, hbs, hbs3, hbs1, hbs2⟩ := hwin
      refine ⟨s, bn, ?_, ?_, Or.inl hbn0, hsnext, ?_, bs,
        ?_, hbs3, hbs1, hbs2⟩
      · rw [get_check_set_check_self _ _ _ (by omega)
          (by rw [hlen1]; omega)]
      · rw [get_base_set_check, hbsn]
        exact hbn
      · rcases hs with rfl | hsu
        · exact Or.inl rfl
        · refine Or.inr ⟨hsu.1, ?_, ?_⟩
          · rw [length_set_check, hlen1]
            exact hsu.2.1
          · intro hm
            exact hsu.2.2 ((hmem2 s).mpr (Or.inl hm))
      · rw [get_base_set_check]
        rcases hs with rfl | hsu
        · rw [(hframe1 2 hs2).2]
          exact hbs
        · rw [(hframe1 s (hinuse_s s (Or.inr hsu))).2]
          exact hbs
    · have hiold : InUse d fl i := ⟨hi3, by omega, fun hm =>
        by rcases (hmem2 i).mp hm with hx | hx
           · exact hifl hx
           · exact hin hx⟩
      obtain ⟨v, w, hv, hw, hwr, hvi, hvp, bv, hbv, hbv3, hbv1, hbv2⟩ :=
        hocc i hiold
      have hinot : i ∉ (1 :: fl) := by
        intro hm
        rcases List.mem_cons.mp hm with hh | hm2
        · rw [DA_POOL_BEGIN] at hi3; omega
        · exact hiold.2.2 hm2
      have hvnext : v ≠ next := by
        rcases hvp with rfl | hvu
        · omega
        · exact fun hh => hvu.2.2 (hh ▸ hnext)
      have hvnot : v ∉ (1 :: fl) := by
        rcases hvp with rfl | hvu
        · exact hs2
        · exact hinuse_s v (Or.inr hvu)
      refine ⟨v, w,
        by rw [get_check_set_check_other _ _ _ _ (fun hh => hin hh.symm),
          (hframe1 i hinot).1]; exact hv,
        by rw [get_base_set_check, (hframe1 i hinot).2]; exact hw,
        hwr, hvi, ?_, bv,
        by rw [get_base_set_check, (hframe1 v hvnot).2]; exact hbv,
        hbv3, hbv1, hbv2⟩
      rcases hvp with rfl | hvu
      · exact Or.inl rfl
      · refine Or.inr ⟨hvu.1, by rw [length_set_check, hlen1]; exact hvu.2.1,
          fun hm => hvu.2.2 ((hmem2 v).mpr (Or.inl hm))⟩
  · refine ⟨fun j => if j = next then rank s + 1 else rank j, ?_⟩
    intro i hi v hv
    obtain ⟨hi3, hilen, hifl⟩ := hi
    rw [length_set_check, hlen1] at hilen
    by_cases hin : i = next
    · subst hin
      rw [get_check_set_check_self _ _ _ (by omega) (by rw [hlen1]; omega)]
        at hv
      injection hv with hv2
      subst hv2
      show (if s = i then rank s + 1 else rank s) <
        if i = i then rank s + 1 else rank i
      rw [if_neg hsnext, if_pos rfl]
      omega
    · rw [get_check_set_check_other _ _ _ _ (fun hh => hin hh.symm)] at hv
      have hiold : InUse d fl i := ⟨hi3, by omega, fun hm =>
        by rcases (hmem2 i).mp hm with hx | hx
           · exact hifl hx
           · exact hin hx⟩
      have hinot : i ∉ (1 :: fl) := by
        intro hm
        rcases List.mem_cons.mp hm with hh | hm2
        · rw [DA_POOL_BEGIN] at hi3; omega
        · exact hiold.2.2 hm2
      rw [(hframe1 i hinot).1] at hv
      have hr := hrank i hiold v hv
      obtain ⟨v0, w0, hv0, -, -, -, hvp0, -⟩ := hocc i hiold
      rw [hv0] at hv
      injection hv with hv2
      subst hv2
      have hvnext : v0 ≠ next := by
        rcases hvp0 with rfl | hvu
        · omega
        · exact fun hh => hvu.2.2 (hh ▸ hnext)
      show (if v0 = next then rank s + 1 else rank v0) <
        if i = next then rank s + 1 else rank i
      rw [if_neg hvnext, if_neg hin]
      exact hr
  · rw [length_set_check, hlen1]
  · intro x hx hxn
    constructor
    · rw [get_check_set_check_other _ _ _ _ (fun hh => hxn hh.symm),
        (hframe1 x hx).1]
    · rw [get_base_set_check, (hframe1 x hx).2]
  · rw [get_check_set_check_self _ _ _ (by omega) (by rw [hlen1]; omega)]
  · rw [get_base_set_check, hbsn]

/-- `extend_pool` with an out-of-range target fails without writing. -/
theorem extend_pool_fail {d : DArray} {ti : ℤ}
    (h : ti ≤ 0 ∨ TRIE_INDEX_MAX ≤ ti) : d.extend_pool ti = (d, false) := by
  rw [DArray.extend_pool, if_pos h]

/-- `extend_pool` below the current size is a no-op success. -/
theorem extend_pool_small {d : DArray} {ti : ℤ} (h0 : 0 < ti)
    (hmax : ti < TRIE_INDEX_MAX) (hlt : ti < (d.cells.length : ℤ)) :
    d.extend_pool ti = (d, true) := by
  rw [DArray.extend_pool, if_neg (by push_neg; exact ⟨by omega, by omega⟩),
    if_pos hlt]

/-- Unfolding `check_free_cell` through the result of its
`extend_pool` call. -/
theorem check_free_cell_eval (d0 d1 : DArray) (s : ℤ) (okg : Bool)
    (he : d0.extend_pool s = (d1, okg)) :
    d0.check_free_cell s = if okg then
      (match d1.get_check s with
        | some v => (d1, decide (v < 0))
        | none => (d1, false))
      else (d1, false) := by
  rw [DArray.check_free_cell, he]
  cases okg
  · rfl
  · rfl

/-- Composition of pool-growing frame conditions. -/
theorem frame_comp {d d1 d2 : DArray} {fl fl1 fl2 : List ℤ}
    (hlen : d.cells.length ≤ d1.cells.length)
    (hN1 : ∀ x ∈ fl1, x ∈ fl ∨ (d.cells.length : ℤ) ≤ x)
    (hF1 : ∀ x : ℤ, 2 ≤ x → x < (d.cells.length : ℤ) → x ∉ fl →
      d1.get_check x = d.get_check x ∧ d1.get_base x = d.get_base x)
    (hN2 : ∀ x ∈ fl2, x ∈ fl1 ∨ (d1.cells.length : ℤ) ≤ x)
    (hF2 : ∀ x : ℤ, 2 ≤ x → x < (d1.cells.length : ℤ) → x ∉ fl1 →
      d2.get_check x = d1.get_check x ∧ d2.get_base x = d1.get_base x) :
    (∀ x ∈ fl2, x ∈ fl ∨ (d.cells.length : ℤ) ≤ x) ∧
    (∀ x : ℤ, 2 ≤ x → x < (d.cells.length : ℤ) → x ∉ fl →
      d2.get_check x = d.get_check x ∧ d2.get_base x = d.get_base x) := by
  constructor
  · intro x hx
    rcases hN2 x hx with h9 | h9
    · rcases hN1 x h9 with h8 | h8
      · exact Or.inl h8
      · exact Or.inr h8
    · exact Or.inr (by omega)
  · intro x h2x hxlen hxfl
    have hx1 : x ∉ fl1 := by
      intro hm
      rcases hN1 x hm with h9 | h9
      · exact hxfl h9
      · omega
    have hf1 := hF1 x h2x hxlen hxfl
    have hf2 := hF2 x h2x (by omega) hx1
    exact ⟨by rw [hf2.1, hf1.1], by rw [hf2.2, hf1.2]⟩

/-- Composition of the new-cells-are-free conclusions. -/
theorem newfree_comp {d1 d2 : DArray} {fl1 fl2 : List ℤ} {L : ℤ}
    (hC1 : ∀ x : ℤ, L ≤ x → x < (d1.cells.length : ℤ) → x ∈ fl1)
    (hsub2 : ∀ x ∈ fl1, x ∈ fl2)
    (hC2 : ∀ x : ℤ, (d1.cells.length : ℤ) ≤ x →
      x < (d2.cells.length : ℤ) → x ∈ fl2) :
    ∀ x : ℤ, L ≤ x → x < (d2.cells.length : ℤ) → x ∈ fl2 := by
  intro x hx1 hx2
  by_cases h9 : x < (d1.cells.length : ℤ)
  · exact hsub2 x (hC1 x hx1 h9)
  · exact hC2 x (by omega) hx2

/-- `check_free_cell` preserves the invariant; a `true` answer names a
free-list member. -/
theorem DAWF_check_free_cell {d : DArray} {fl : List ℤ} {s : ℤ}
    (h : DAWF d fl) (hs3 : 3 ≤ s) :
    ∃ d1 free fl1, d.check_free_cell s = (d1, free) ∧ DAWF d1 fl1 ∧
      (∀ x ∈ fl, x ∈ fl1) ∧ d.cells.length ≤ d1.cells.length ∧
      (free = true → s ∈ fl1 ∧ s < (d1.cells.length : ℤ)) ∧
      (∀ x ∈ fl1, x ∈ fl ∨ (d.cells.length : ℤ) ≤ x) ∧
      (∀ x : ℤ, 2 ≤ x → x < (d.cells.length : ℤ) → x ∉ fl →
        d1.get_check x = d.get_check x ∧ d1.get_base x = d.get_base x) ∧
      (∀ x : ℤ, (d.cells.length : ℤ) ≤ x → x < (d1.cells.length : ℤ) →
        x ∈ fl1) := by
  have hlen3 := h.1.1
  by_cases hbig : TRIE_INDEX_MAX ≤ s
  · refine ⟨d, false, fl, ?_, h, fun x hx => hx, le_refl _, by simp,
      fun x hx => Or.inl hx, fun x _ _ _ => ⟨rfl, rfl⟩,
      fun x hx1 hx2 => absurd hx2 (by omega)⟩
    rw [check_free_cell_eval d d s false (extend_pool_fail (Or.inr hbig))]
    rfl
  · by_cases hsmall : s < (d.cells.length : ℤ)
    · obtain ⟨v, hv⟩ := get_check_isSome d s (by omega) (by omega)
      refine ⟨d, decide (v < 0), fl, ?_, h, fun x hx => hx, le_refl _, ?_,
        fun x hx => Or.inl hx, fun x _ _ _ => ⟨rfl, rfl⟩,
        fun x hx1 hx2 => absurd hx2 (by omega)⟩
      · rw [check_free_cell_eval d d s true
          (extend_pool_small (by omega) (by omega) hsmall), if_pos rfl, hv]
      · intro hfree
        rw [decide_eq_true_eq] at hfree
        exact ⟨DAWF_mem_of_neg h hs3 hv hfree, by omega⟩
    · obtain ⟨heval, h2, hlen2, hfr4⟩ := @DAWF_extend d fl s h (by omega)
        (by omega)
      have hmem : s ∈ fl ++ intRange (d.cells.length : ℤ) s :=
        List.mem_append.mpr (Or.inr (mem_intRange (by omega) (le_refl s)))
      obtain ⟨v, hv, hneg⟩ := DAWF_neg_of_mem h2 hmem
      refine ⟨extendRes d s, true, fl ++ intRange (d.cells.length : ℤ) s, ?_,
        h2, fun x hx => List.mem_append.mpr (Or.inl hx), by omega, ?_, ?_,
        hfr4, ?_⟩
      · rw [check_free_cell_eval d (extendRes d s) s true heval, if_pos rfl,
          hv]
        show (extendRes d s, decide (v < 0)) = (extendRes d s, true)
        rw [decide_eq_true hneg]
      · intro h9
        exact ⟨hmem, by omega⟩
      · intro x hx
        rcases List.mem_append.mp hx with h9 | h9
        · exact Or.inl h9
        · exact Or.inr (intRange_mem (by omega) h9).1
      · intro x hx1 hx2
        refine List.mem_append.mpr (Or.inr (mem_intRange hx1 ?_))
        omega

/-- `fit_symbols` preserves the invariant; success pins every probed
cell on the free list. -/
theorem DAWF_fit_symbols {base : ℤ} (hb3 : 3 ≤ base) :
    ∀ (syms : List ℕ) (d : DArray) (fl : List ℤ), DAWF d fl →
      ∀ d1 ok, d.fit_symbols base syms = (d1, ok) →
      ∃ fl1, DAWF d1 fl1 ∧ (∀ x ∈ fl, x ∈ fl1) ∧
        d.cells.length ≤ d1.cells.length ∧
        (ok = true → ∀ sym ∈ syms,
          base + sym ∈ fl1 ∧ base + sym < (d1.cells.length : ℤ)) ∧
        (∀ x ∈ fl1, x ∈ fl ∨ (d.cells.length : ℤ) ≤ x) ∧
        (∀ x : ℤ, 2 ≤ x → x < (d.cells.length : ℤ) → x ∉ fl →
          d1.get_check x = d.get_check x ∧ d1.get_base x = d.get_base x) ∧
        (∀ x : ℤ, (d.cells.length : ℤ) ≤ x → x < (d1.cells.length : ℤ) →
          x ∈ fl1) := by
  intro syms
  induction syms with
  | nil =>
    intro d fl h d1 ok heq
    rw [DArray.fit_symbols] at heq
    injection heq with h1 h2
    subst h1
    subst h2
    refine ⟨fl, h, fun x hx => hx, le_refl _, ?_, fun x hx => Or.inl hx,
      fun x _ _ _ => ⟨rfl, rfl⟩, fun x hx1 hx2 => absurd hx2 (by omega)⟩
    intro _ sym hm
    cases hm
  | cons sym rest ih =>
    intro d fl h d1 ok heq
    rw [DArray.fit_symbols] at heq
    by_cases hover : base > TRIE_INDEX_MAX - sym
    · rw [if_pos hover] at heq
      injection heq with h1 h2
      subst h1
      subst h2
      exact ⟨fl, h, fun x hx => hx, le_refl _, by simp,
        fun x hx => Or.inl hx, fun x _ _ _ => ⟨rfl, rfl⟩,
        fun x hx1 hx2 => absurd hx2 (by omega)⟩
    · rw [if_neg hover] at heq
      obtain ⟨dc, free, flc, hcfc, hc, hsub, hlenc, hfr, hN1, hF1, hC1⟩ :=
        DAWF_check_free_cell h (by omega : 3 ≤ base + sym)
      rw [hcfc] at heq
      rcases free with _ | _
      · simp only [] at heq
        injection heq with h1 h2
        subst h1
        subst h2
        exact ⟨flc, hc, hsub, hlenc, by simp, hN1, hF1, hC1⟩
      · simp only [] at heq
        obtain ⟨fl2, h2, hsub2, hlen2, hmem2, hN2, hF2, hC2⟩ :=
          ih dc flc hc d1 ok heq
        obtain ⟨hNc, hFc⟩ := frame_comp hlenc hN1 hF1 hN2 hF2
        refine ⟨fl2, h2, fun x hx => hsub2 x (hsub x hx), by omega, ?_, hNc,
          hFc, newfree_comp hC1 hsub2 hC2⟩
        intro hok sym2 hm
        rcases List.mem_cons.mp hm with rfl | hm2
        · obtain ⟨hm3, hb3⟩ := hfr rfl
          exact ⟨hsub2 _ hm3, by omega⟩
        · exact hmem2 hok sym2 hm2

/-- The first loop of `find_free_base` along a terminated segment
stops at the first cell not below `lim` (or at the head). -/
theorem ffb_loopA_ring {d : DArray} {lim : ℤ} {l2 : List ℤ} {pr : ℤ}
    (htail : FLTail d pr l2) (hm : ∀ x ∈ l2, 3 ≤ x) :
    ∀ n, l2.length < n →
      d.ffb_loopA lim n (l2.headD 1) =
        .ok ((l2.dropWhile (fun x => decide (x < lim))).headD 1) := by
  induction l2 generalizing pr with
  | nil =>
    intro n hn
    match n, hn with
    | n + 1, _ =>
      simp only [DArray.ffb_loopA, List.headD_nil, List.dropWhile_nil]
      rw [if_neg (by simp)]
  | cons x xs ih =>
    intro n hn
    match n, hn with
    | n + 1, hn =>
      obtain ⟨h1, h2, h3⟩ := FLTail_cons htail
      have hx3 := hm x (List.mem_cons_self x xs)
      simp only [DArray.ffb_loopA, List.headD_cons, List.dropWhile_cons]
      by_cases hc : x < lim
      · rw [if_pos ⟨by omega, hc⟩, FLTail_head h3]
        simp only [neg_neg]
        rw [if_pos (by simpa using hc)]
        exact ih h3 (fun y hy => hm y (List.mem_cons_of_mem x hy)) n
          (by simpa using Nat.lt_of_succ_lt_succ hn)
      · rw [if_neg (fun hh => hc hh.2), if_neg (by simpa using hc)]
        rfl

/-- The extension scan of `find_free_base` preserves the invariant;
a found cell is on the free list at or above the start. -/
theorem DAWF_ffb_scan :
    ∀ (n : ℕ) (d : DArray) (fl : List ℤ) (s : ℤ), DAWF d fl → 3 ≤ s →
      ∀ d1 os, DArray.ffb_scan n d s = .ok (d1, os) →
      ∃ fl1, DAWF d1 fl1 ∧ (∀ x ∈ fl, x ∈ fl1) ∧
        d.cells.length ≤ d1.cells.length ∧
        (∀ s1, os = some s1 → s1 ∈ fl1 ∧ s ≤ s1 ∧
          s1 < (d1.cells.length : ℤ)) ∧
        (∀ x ∈ fl1, x ∈ fl ∨ (d.cells.length : ℤ) ≤ x) ∧
        (∀ x : ℤ, 2 ≤ x → x < (d.cells.length : ℤ) → x ∉ fl →
          d1.get_check x = d.get_check x ∧ d1.get_base x = d.get_base x) ∧
        (∀ x : ℤ, (d.cells.length : ℤ) ≤ x → x < (d1.cells.length : ℤ) →
          x ∈ fl1) := by
  intro n
  induction n with
  | zero =>
    intro d fl s h hs3 d1 os heq
    exact absurd heq (by rw [DArray.ffb_scan]; exact fun hh => Res.noConfusion hh)
  | succ n ih =>
    intro d fl s h hs3 d1 os heq
    have hlen3 := h.1.1
    rw [DArray.ffb_scan] at heq
    by_cases hbig : TRIE_INDEX_MAX ≤ s
    · rw [extend_pool_fail (Or.inr hbig)] at heq
      simp only [Bool.not_false, if_pos] at heq
      injection heq with heq2
      injection heq2 with h1 h2
      subst h1
      subst h2
      exact ⟨fl, h, fun x hx => hx, le_refl _, by simp,
        fun x hx => Or.inl hx, fun x _ _ _ => ⟨rfl, rfl⟩,
        fun x hx1 hx2 => absurd hx2 (by omega)⟩
    · by_cases hsmall : s < (d.cells.length : ℤ)
      · rw [extend_pool_small (by omega) (by omega) hsmall] at heq
        obtain ⟨v, hv⟩ := get_check_isSome d s (by omega) (by omega)
        simp only [hv] at heq
        by_cases hneg : v < 0
        · rw [if_pos hneg] at heq
          simp only [Bool.not_true, Bool.false_eq_true, if_false] at heq
          injection heq with heq2
          injection heq2 with h1 h2
          subst h1
          subst h2
          refine ⟨fl, h, fun x hx => hx, le_refl _, ?_,
            fun x hx => Or.inl hx, fun x _ _ _ => ⟨rfl, rfl⟩,
            fun x hx1 hx2 => absurd hx2 (by omega)⟩
          intro s1 hs1
          injection hs1 with hs2
          subst hs2
          exact ⟨DAWF_mem_of_neg h hs3 hv hneg, le_refl _, by omega⟩
        · rw [if_neg hneg] at heq
          simp only [Bool.not_true, Bool.false_eq_true, if_false] at heq
          obtain ⟨fl1, h1, hsub, hlen1, hfound, hN2, hF2, hC2⟩ :=
            ih d fl (s + 1) h (by omega) d1 os heq
          refine ⟨fl1, h1, hsub, hlen1, ?_, hN2, hF2, hC2⟩
          intro s1 hs1
          obtain ⟨ha, hb2, hc2⟩ := hfound s1 hs1
          exact ⟨ha, by omega, hc2⟩
      · obtain ⟨heval, h2, hlen2, hfr4⟩ := @DAWF_extend d fl s h (by omega)
          (by omega)
        rw [heval] at heq
        have hmem : s ∈ fl ++ intRange (d.cells.length : ℤ) s :=
          List.mem_append.mpr (Or.inr (mem_intRange (by omega) (le_refl s)))
        obtain ⟨v, hv, hneg⟩ := DAWF_neg_of_mem h2 hmem
        simp only [hv] at heq
        rw [if_pos hneg] at heq
        simp only [Bool.not_true, Bool.false_eq_true, if_false] at heq
        injection heq with heq2
        injection heq2 with h1 h2
        subst h1
        subst h2
        refine ⟨fl ++ intRange (d.cells.length : ℤ) s, h2,
          fun x hx => List.mem_append.mpr (Or.inl hx), by omega, ?_, ?_,
          hfr4, ?_⟩
        · intro s1 hs1
          injection hs1 with hs2
          subst hs2
          exact ⟨hmem, le_refl _, by omega⟩
        · intro x hx
          rcases List.mem_append.mp hx with h9 | h9
          · exact Or.inl h9
          · exact Or.inr (intRange_mem (by omega) h9).1
        · intro x hx1 hx2
          refine List.mem_append.mpr (Or.inr (mem_intRange hx1 ?_))
          omega

/-- `intRange` of a single point. -/
theorem intRange_self (a : ℤ) : intRange a a = [a] := by
  rw [intRange_eq_natSeg (le_refl a)]
  have h0 : (a - a).toNat = 0 := by omega
  rw [h0]
  simp [natSeg, List.range_succ]

/-- The ring successor of a free cell: the head (then the cell is the
last free cell) or a larger free cell. -/
theorem DAWF_succ {d : DArray} {fl : List ℤ} {s : ℤ}
    (h : DAWF d fl) (hs : s ∈ fl) :
    ∃ cs, d.get_check s = some cs ∧
      ((-cs = 1 ∧ fl.getLastD 1 = s) ∨ (-cs ∈ fl ∧ s < -cs)) := by
  obtain ⟨l1, l2, heq, hck, hmem⟩ := FLinks_mem_check h.1.2.2.2 hs
  refine ⟨-(l2.headD 1), hck, ?_⟩
  cases l2 with
  | nil =>
    refine Or.inl ⟨by norm_num, ?_⟩
    rw [heq, getLastD_append]
    rfl
  | cons f fs =>
    have hfm : f ∈ fl := by
      rw [heq]
      exact List.mem_append.mpr (Or.inr (List.mem_cons_of_mem s
        (List.mem_cons_self f fs)))
    have hch : (l1 ++ s :: f :: fs).Chain' (· < ·) := by
      rw [← heq]
      exact h.1.2.1
    have hlt := (chain_lt_split hch).2 f (List.mem_cons_self f fs)
    refine Or.inr ⟨?_, ?_⟩
    · simp only [List.headD_cons, neg_neg]
      exact hfm
    · simp only [List.headD_cons, neg_neg]
      exact hlt

/-- Unfolding one step of `ffb_loopB` through its `fit_symbols`
result. -/
theorem ffb_loopB_eval (first : ℤ) (symbols : List ℕ) (n : ℕ)
    (d d1 : DArray) (s : ℤ) (fit : Bool)
    (he : d.fit_symbols (s - first) symbols = (d1, fit)) :
    DArray.ffb_loopB first symbols (n + 1) d s =
      if fit then .ok (d1, s - first)
      else match d1.get_check s with
        | none => .uw
        | some cs =>
          if -cs = 1 then
            (match d1.extend_pool d1.cells.length with
              | (d2, okg) =>
                if !okg then .ok (d2, TRIE_INDEX_ERROR)
                else match d2.get_check s with
                  | none => .uw
                  | some cs2 => DArray.ffb_loopB first symbols n d2 (-cs2))
          else DArray.ffb_loopB first symbols n d1 (-cs) := by
  simp only [DArray.ffb_loopB]
  rw [he]

/-- The second loop of `find_free_base` preserves the invariant; a
non-zero result is a base whose whole symbol window is free. -/
theorem DAWF_ffb_loopB {first : ℤ} {symbols : List ℕ} :
    ∀ (n : ℕ) (d : DArray) (fl : List ℤ) (s : ℤ), DAWF d fl → s ∈ fl →
      first + 3 ≤ s →
      ∀ d1 r, DArray.ffb_loopB first symbols n d s = .ok (d1, r) →
      ∃ fl1, DAWF d1 fl1 ∧ (∀ x ∈ fl, x ∈ fl1) ∧
        d.cells.length ≤ d1.cells.length ∧
        (r = 0 ∨ (3 ≤ r ∧ ∀ sym ∈ symbols,
          r + sym ∈ fl1 ∧ r + sym < (d1.cells.length : ℤ))) ∧
        (∀ x ∈ fl1, x ∈ fl ∨ (d.cells.length : ℤ) ≤ x) ∧
        (∀ x : ℤ, 2 ≤ x → x < (d.cells.length : ℤ) → x ∉ fl →
          d1.get_check x = d.get_check x ∧ d1.get_base x = d.get_base x) ∧
        (∀ x : ℤ, (d.cells.length : ℤ) ≤ x → x < (d1.cells.length : ℤ) →
          x ∈ fl1) := by
  intro n
  induction n with
  | zero =>
    intro d fl s h hs hfirst d1 r heq
    exact Res.noConfusion heq
  | succ n ih =>
    intro d fl s h hs hfirst d1 r heq
    rcases hfit : d.fit_symbols (s - first) symbols with ⟨df, fit⟩
    rw [ffb_loopB_eval first symbols n d df s fit hfit] at heq
    obtain ⟨flf, hf, hsubf, hlenf, hfitmem, hNf, hFf, hCf⟩ :=
      DAWF_fit_symbols (by omega) symbols d fl h df fit hfit
    cases fit with
    | true =>
      rw [if_pos rfl] at heq
      injection heq with heq2
      injection heq2 with h10 h11
      subst h10
      subst h11
      refine ⟨flf, hf, hsubf, hlenf, Or.inr ⟨by omega, ?_⟩, hNf, hFf, hCf⟩
      intro sym hm
      exact hfitmem rfl sym hm
    | false =>
      rw [if_neg (by simp)] at heq
      have hsf : s ∈ flf := hsubf s hs
      obtain ⟨cs, hcs, hsucc⟩ := DAWF_succ hf hsf
      simp only [hcs] at heq
      by_cases hone : -cs = 1
      · rw [if_pos hone] at heq
        have hlen3 := hf.1.1
        have hsb := FLOK_bounds hf.1 s hsf
        by_cases hbig : TRIE_INDEX_MAX ≤ (df.cells.length : ℤ)
        · rw [extend_pool_fail (Or.inr hbig)] at heq
          simp only [Bool.not_false, if_true] at heq
          injection heq with heq2
          injection heq2 with h10 h11
          subst h10
          subst h11
          exact ⟨flf, hf, hsubf, hlenf, Or.inl rfl, hNf, hFf, hCf⟩
        · obtain ⟨heval, h2, hlen2, hFe⟩ := @DAWF_extend df flf
            (df.cells.length : ℤ) hf (le_refl _) (by omega)
          rw [heval] at heq
          simp only [Bool.not_true, Bool.false_eq_true, if_false] at heq
          have hsf2 : s ∈ flf ++
              intRange (df.cells.length : ℤ) (df.cells.length : ℤ) :=
            List.mem_append.mpr (Or.inl hsf)
          obtain ⟨cs2, hcs2, hsucc2⟩ := DAWF_succ h2 hsf2
          simp only [hcs2] at heq
          rcases hsucc2 with ⟨ha, hb9⟩ | ⟨ha, hb9⟩
          · exfalso
            rw [intRange_self, getLastD_append] at hb9
            have hb10 : (df.cells.length : ℤ) = s := by
              rw [← hb9]
              rfl
            omega
          · have hNe : ∀ x ∈ flf ++ intRange (df.cells.length : ℤ)
                (df.cells.length : ℤ),
                x ∈ flf ∨ (df.cells.length : ℤ) ≤ x := by
              intro x hx
              rcases List.mem_append.mp hx with h8 | h8
              · exact Or.inl h8
              · exact Or.inr (intRange_mem (le_refl _) h8).1
            obtain ⟨fl9, h9x, hP9, hlen9, hr9, hN9, hF9, hC9⟩ :=
              ih _ _ (-cs2) h2 ha (by omega) d1 r heq
            obtain ⟨hNa, hFa⟩ := frame_comp hlenf hNf hFf hNe hFe
            obtain ⟨hNb, hFb⟩ := frame_comp (by omega) hNa hFa hN9 hF9
            have hCe : ∀ x : ℤ, (df.cells.length : ℤ) ≤ x →
                x < ((extendRes df (df.cells.length : ℤ)).cells.length : ℤ) →
                x ∈ flf ++ intRange (df.cells.length : ℤ)
                  (df.cells.length : ℤ) := by
              intro x hx1 hx2
              refine List.mem_append.mpr (Or.inr (mem_intRange hx1 ?_))
              omega
            have hsubE : ∀ x ∈ flf, x ∈ flf ++ intRange
                (df.cells.length : ℤ) (df.cells.length : ℤ) :=
              fun x hx => List.mem_append.mpr (Or.inl hx)
            refine ⟨fl9, h9x, ?_, by omega, hr9, hNb, hFb,
              newfree_comp (newfree_comp hCf hsubE hCe) hP9 hC9⟩
            intro x hx
            exact hP9 x (hsubE x (hsubf x hx))
      · rw [if_neg hone] at heq
        rcases hsucc with ⟨ha, -⟩ | ⟨ha, hb9⟩
        · exact absurd ha hone
        · obtain ⟨fl9, h9x, hP9, hlen9, hr9, hN9, hF9, hC9⟩ :=
            ih df flf (-cs) hf ha (by omega) d1 r heq
          obtain ⟨hNb, hFb⟩ := frame_comp hlenf hNf hFf hN9 hF9
          exact ⟨fl9, h9x, fun x hx => hP9 x (hsubf x hx), by omega, hr9,
            hNb, hFb, newfree_comp hCf hP9 hC9⟩

/-- `find_free_base` preserves the invariant; a non-zero result is a
base whose whole symbol window is free. -/
theorem DAWF_ffb {d : DArray} {fl : List ℤ} {symbols : List ℕ}
    (h : DAWF d fl) {d1 : DArray} {nb : ℤ}
    (heq : d.find_free_base symbols = .ok (d1, nb)) :
    ∃ fl1, DAWF d1 fl1 ∧ (∀ x ∈ fl, x ∈ fl1) ∧
      d.cells.length ≤ d1.cells.length ∧
      (nb = 0 ∨ (3 ≤ nb ∧ ∀ sym ∈ symbols,
        nb + sym ∈ fl1 ∧ nb + sym < (d1.cells.length : ℤ))) ∧
      (∀ x ∈ fl1, x ∈ fl ∨ (d.cells.length : ℤ) ≤ x) ∧
      (∀ x : ℤ, 2 ≤ x → x < (d.cells.length : ℤ) → x ∉ fl →
        d1.get_check x = d.get_check x ∧ d1.get_base x = d.get_base x) ∧
      (∀ x : ℤ, (d.cells.length : ℤ) ≤ x → x < (d1.cells.length : ℤ) →
        x ∈ fl1) := by
  cases symbols with
  | nil => exact Res.noConfusion heq
  | cons first rest =>
    rw [DArray.find_free_base] at heq
    have hck1 : d.get_check 1 = some (-(fl.headD 1)) :=
      FLTail_head h.1.2.2.2.1
    have hb := FLOK_bounds h.1
    have hfuel : fl.length < d.cells.length + 2 := by
      have h9 := chain_lt_length_le
        (show (3 : ℤ) ≤ (d.cells.length : ℤ) from h.1.1) h.1.2.1 hb
      omega
    have hwalk := @ffb_loopA_ring d ((first : ℤ) + DA_POOL_BEGIN) fl 1
      h.1.2.2.2.1 (fun x hx => (hb x hx).1) (d.cells.length + 2) hfuel
    simp only [hck1, neg_neg, hwalk] at heq
    by_cases hs01 : (fl.dropWhile
        (fun x => decide (x < (first : ℤ) + DA_POOL_BEGIN))).headD 1 = 1
    · rw [if_pos hs01] at heq
      rcases hsc : DArray.ffb_scan (d.cells.length + 600) d
          ((first : ℤ) + DA_POOL_BEGIN) with v | _ | _ | _
      · rcases v with ⟨d2, os⟩
        obtain ⟨fl2, h2, hsub2, hlen2, hfound, hN2, hF2, hC2⟩ := DAWF_ffb_scan
          (d.cells.length + 600) d fl ((first : ℤ) + DA_POOL_BEGIN) h
          (by rw [DA_POOL_BEGIN]; omega) d2 os hsc
        rw [hsc] at heq
        cases os with
        | none =>
          injection heq with heq2
          injection heq2 with h10 h11
          subst h10
          subst h11
          exact ⟨fl2, h2, hsub2, hlen2, Or.inl (by rw [TRIE_INDEX_ERROR]),
            hN2, hF2, hC2⟩
        | some s1 =>
          obtain ⟨hm1, hm2, hm3⟩ := hfound s1 rfl
          obtain ⟨fl9, h9x, hP9, hlen9, hr9, hN9, hF9, hC9⟩ := DAWF_ffb_loopB
            (d2.cells.length + 600) d2 fl2 s1 h2 hm1
            (by rw [DA_POOL_BEGIN] at hm2; omega) d1 nb heq
          obtain ⟨hNb, hFb⟩ := frame_comp hlen2 hN2 hF2 hN9 hF9
          exact ⟨fl9, h9x, fun x hx => hP9 x (hsub2 x hx), by omega, hr9,
            hNb, hFb, newfree_comp hC2 hP9 hC9⟩
      · rw [hsc] at heq
        exact Res.noConfusion heq
      · rw [hsc] at heq
        exact Res.noConfusion heq
      · rw [hsc] at heq
        exact Res.noConfusion heq
    · rw [if_neg hs01] at heq
      rcases hdw : fl.dropWhile
          (fun x => decide (x < (first : ℤ) + DA_POOL_BEGIN)) with _ | ⟨f, fs⟩
      · rw [hdw] at hs01
        exact absurd rfl hs01
      · rw [hdw] at heq
        have hsplit2 : fl.takeWhile
            (fun x => decide (x < (first : ℤ) + DA_POOL_BEGIN)) ++ f :: fs =
            fl := by
          rw [← hdw]
          exact List.takeWhile_append_dropWhile _ _
        have hffl : f ∈ fl := by
          rw [← hsplit2]
          exact List.mem_append.mpr (Or.inr (List.mem_cons_self f fs))
        have hflim : ¬ f < (first : ℤ) + DA_POOL_BEGIN := by
          have := dropWhile_head_not fl f fs hdw
          simpa using this
        refine DAWF_ffb_loopB (d.cells.length + 600) d fl f h hffl ?_ d1 nb
          heq
        rw [DA_POOL_BEGIN] at hflim
        omega

/-- Free-list members have negative checks. -/
theorem FLOK_neg_of_mem {d : DArray} {fl : List ℤ} {f : ℤ}
    (h : FLOK d fl) (hf : f ∈ fl) :
    ∃ v, d.get_check f = some v ∧ v < 0 := by
  obtain ⟨l1, l2, heq, hck, hmem⟩ := FLinks_mem_check h.2.2.2 hf
  refine ⟨-(l2.headD 1), hck, ?_⟩
  rcases hmem with hm | hm
  · have := FLOK_bounds h _ hm
    omega
  · omega

/-- Under `DAWFx`, a pool cell at `3` or above with a negative check
is on the free list. -/
theorem DAWFx_mem_of_neg {d : DArray} {fl : List ℤ} {s : ℤ} {M : List ℤ}
    {i v : ℤ} (h : DAWFx d fl s M) (hi3 : 3 ≤ i)
    (hv : d.get_check i = some v) (hneg : v < 0) (hvs : v ≠ s ∨ 0 ≤ s) :
    i ∈ fl := by
  by_contra hnot
  have hlen := (get_check_some_bounds hv).2
  have hiu : InUse d fl i := ⟨by rw [DA_POOL_BEGIN]; exact hi3, by omega, hnot⟩
  by_cases hvs2 : d.get_check i = some s
  · rw [hv] at hvs2
    injection hvs2 with h9
    rcases hvs with h8 | h8
    · exact h8 h9
    · omega
  · obtain ⟨v2, w, hv2, -, -, -, hpar, -⟩ := h.2.2.2.2.1 i hiu hvs2
    rw [hv] at hv2
    injection hv2 with hv3
    rcases hpar with h4 | h4
    · omega
    · have := h4.1
      rw [DA_POOL_BEGIN] at this
      omega

/-- Membership in `output_symbols`. -/
theorem mem_output_symbols {d : DArray} {s : ℤ} {c : ℕ} :
    c ∈ d.output_symbols s ↔
      ((c : ℤ) < min (TRIE_CHAR_MAX : ℤ) ((d.cells.length : ℤ) -
        ((d.get_base s).getD TRIE_INDEX_ERROR)) + 1 ∧
       d.get_check (((d.get_base s).getD TRIE_INDEX_ERROR) + c) = some s) := by
  unfold DArray.output_symbols
  rw [List.mem_filter, List.mem_range, decide_eq_true_eq]
  constructor
  · intro ⟨h1, h2⟩
    exact ⟨by omega, h2⟩
  · intro ⟨h1, h2⟩
    exact ⟨by omega, h2⟩

/-- Entering the relocation invariant: under `DAWF` every child of `s`
is an `output_symbols` position. -/
theorem DAWF_to_DAWFx {d : DArray} {fl : List ℤ} {s bs : ℤ}
    (h : DAWF d fl) (hbs : d.get_base s = some bs) (hbs3 : 3 ≤ bs) :
    DAWFx d fl s ((d.output_symbols s).map (fun sym : ℕ => bs + (sym : ℤ))) := by
  obtain ⟨hfl, hc0, hc2, hb2, hocc, rank, hrank⟩ := h
  refine ⟨hfl, hc0, hc2, hb2, fun i hi _ => hocc i hi, ?_, rank, hrank⟩
  intro i hi hcks
  obtain ⟨v, w, hv, hw, hwr, hvi, hvp, bv, hbv, hbv3, hbv1, hbv2⟩ := hocc i hi
  rw [hcks] at hv
  injection hv with hv2
  subst hv2
  rw [hbv] at hbs
  injection hbs with hbs2
  subst hbs2
  refine ⟨?_, w, hw, hwr, hvi, hvp⟩
  rw [List.mem_map]
  refine ⟨(i - bv).toNat, ?_, by omega⟩
  rw [mem_output_symbols]
  have hgd : (d.get_base s).getD TRIE_INDEX_ERROR = bv := by
    rw [hbv, Option.getD_some]
  rw [hgd]
  have hlen := hi.2.1
  have hC : (TRIE_CHAR_MAX : ℤ) = 255 := by rw [TRIE_CHAR_MAX]; rfl
  refine ⟨by omega, ?_⟩
  rw [show bv + ((i - bv).toNat : ℤ) = i by omega]
  exact hcks

/-- Leaving the relocation invariant: once the base of `s` covers all
tracked child positions, `DAWF` is restored. -/
theorem DAWFx_to_DAWF {d : DArray} {fl : List ℤ} {s nb : ℤ} {M : List ℤ}
    (h : DAWFx d fl s M) (hbs : d.get_base s = some nb) (hnb3 : 3 ≤ nb)
    (hM : ∀ m ∈ M, nb ≤ m ∧ m ≤ nb + (TRIE_CHAR_MAX : ℤ)) :
    DAWF d fl := by
  obtain ⟨hfl, hc0, hc2, hb2, hocc, hx, rank, hrank⟩ := h
  refine ⟨hfl, hc0, hc2, hb2, ?_, rank, hrank⟩
  intro i hi
  by_cases hcks : d.get_check i = some s
  · obtain ⟨hmem, w, hw, hwr, hsi, hsu⟩ := hx i hi hcks
    obtain ⟨hm1, hm2⟩ := hM i hmem
    exact ⟨s, w, hcks, hw, hwr, hsi, hsu, nb, hbs, hnb3, hm1, hm2⟩
  · exact hocc i hi hcks

/-- Pointwise description of the grandchild re-pointing loop of
`relocate_one`: checks equal to `od` within the scanned window are
rewritten to `nn`; nothing else changes. -/
theorem repoint_fold_spec (d2 : DArray) (onb od nn : ℤ) :
    ∀ (N : ℕ) (dd : DArray), dd = (List.range N).foldl
      (fun (dd : DArray) (c : ℕ) =>
        if dd.get_check (onb + (c : ℤ)) = some od
        then dd.set_check (onb + (c : ℤ)) nn else dd) d2 →
      dd.cells.length = d2.cells.length ∧
      (∀ x : ℤ, dd.get_base x = d2.get_base x) ∧
      (∀ k : ℕ, k < N → dd.get_check (onb + (k : ℤ)) =
        (if d2.get_check (onb + (k : ℤ)) = some od then some nn
         else d2.get_check (onb + (k : ℤ)))) ∧
      (∀ x : ℤ, (∀ k : ℕ, k < N → x ≠ onb + (k : ℤ)) →
        dd.get_check x = d2.get_check x) := by
  intro N
  induction N with
  | zero =>
    intro dd hdd
    subst hdd
    exact ⟨rfl, fun x => rfl, fun k hk => absurd hk (by omega),
      fun x _ => rfl⟩
  | succ N ih =>
    intro dd hdd
    rw [List.range_succ, List.foldl_append, List.foldl_cons, List.foldl_nil]
      at hdd
    obtain ⟨ih1, ih2, ih3, ih4⟩ := ih _ rfl
    have hstay := ih4 (onb + (N : ℤ)) (fun k hk => by omega)
    rw [hstay] at hdd
    by_cases hcond : d2.get_check (onb + (N : ℤ)) = some od
    · rw [if_pos hcond] at hdd
      subst hdd
      have hbnd := get_check_some_bounds hcond
      refine ⟨by rw [length_set_check, ih1], ?_, ?_, ?_⟩
      · intro x
        rw [get_base_set_check]
        exact ih2 x
      · intro k hk
        rcases Nat.lt_succ_iff_lt_or_eq.mp hk with hk2 | hk2
        · rw [get_check_set_check_other _ _ _ _
            (by omega : onb + (N : ℤ) ≠ onb + (k : ℤ))]
          exact ih3 k hk2
        · subst hk2
          rw [get_check_set_check_self _ _ _ (by omega)
            (by rw [ih1]; omega), if_pos hcond]
      · intro x hx
        rw [get_check_set_check_other _ _ _ _ (fun hh =>
          hx N (by omega) hh.symm)]
        exact ih4 x (fun k hk => hx k (by omega))
    · rw [if_neg hcond] at hdd
      subst hdd
      refine ⟨ih1, ih2, ?_, ?_⟩
      · intro k hk
        rcases Nat.lt_succ_iff_lt_or_eq.mp hk with hk2 | hk2
        · exact ih3 k hk2
        · subst hk2
          rw [if_neg hcond]
          exact hstay
      · intro x hx
        exact ih4 x (fun k hk => hx k (by omega))

/-- Allocating the target cell of one `relocate_one` step and writing
its new check (the relocated state) and base (copied from the old
child) keeps the relocation invariant. -/
theorem DAWFx_alloc_reloc {d : DArray} {fl : List ℤ} {s : ℤ} {M : List ℤ}
    {nn od onb : ℤ}
    (h : DAWFx d fl s M) (hnn : nn ∈ fl)
    (hod : InUse d fl od) (hods : d.get_check od = some s)
    (honb : d.get_base od = some onb) :
    ∃ l1 l2 d1, fl = l1 ++ nn :: l2 ∧ d.alloc_cell nn = .ok d1 ∧
      DAWFx ((d1.set_check nn s).set_base nn onb) (l1 ++ l2) s (nn :: M) ∧
      ((d1.set_check nn s).set_base nn onb).cells.length = d.cells.length ∧
      (∀ x : ℤ, x ∉ (1 :: fl) → x ≠ nn →
        ((d1.set_check nn s).set_base nn onb).get_check x = d.get_check x ∧
        ((d1.set_check nn s).set_base nn onb).get_base x = d.get_base x) ∧
      ((d1.set_check nn s).set_base nn onb).get_check nn = some s ∧
      ((d1.set_check nn s).set_base nn onb).get_base nn = some onb ∧
      (∀ x ∈ fl, x ≠ nn → x ∈ l1 ++ l2) ∧
      (∃ rank2 : ℤ → ℕ, (∀ i, InUse ((d1.set_check nn s).set_base nn onb)
          (l1 ++ l2) i → ∀ v,
          ((d1.set_check nn s).set_base nn onb).get_check i = some v →
          rank2 v < rank2 i) ∧ rank2 nn = rank2 od) := by
  obtain ⟨hfl, hc0, hc2, hb2, hocc, hxcl, rank, hrank⟩ := h
  obtain ⟨-, w9, honb2, honbarm, hsnod, hs2⟩ := hxcl od hod hods
  rw [honb] at honb2
  injection honb2 with honb3
  subst honb3
  have hb := FLOK_bounds hfl
  have hnb := hb nn hnn
  obtain ⟨l1, l2, heq, halloc, hflok1, hlen1, hframe1, hckn, hbsn⟩ :=
    FLOK_alloc hfl hnn
  have hnd : fl.Nodup := chain_lt_nodup hfl.2.1
  have hnextnot : nn ∉ l1 ++ l2 := by
    rw [heq] at hnd
    rw [List.nodup_append] at hnd
    intro hm
    rcases List.mem_append.mp hm with hx | hx
    · exact hnd.2.2 hx (List.mem_cons_self nn l2)
    · rw [List.nodup_cons] at hnd
      exact hnd.2.1.1 hx
  have hmem2 : ∀ x : ℤ, x ∈ fl ↔ x ∈ (l1 ++ l2) ∨ x = nn := by
    intro x
    rw [heq, List.mem_append, List.mem_append, List.mem_cons]
    tauto
  have hinuse_s : ∀ x : ℤ, (x = 2 ∨ InUse d fl x) → x ∉ (1 :: fl) := by
    intro x hx hm
    rcases List.mem_cons.mp hm with hh | hm2
    · rcases hx with rfl | hx2
      · omega
      · have := hx2.1; rw [DA_POOL_BEGIN] at this; omega
    · rcases hx with rfl | hx2
      · have := hb 2 hm2; omega
      · exact hx2.2.2 hm2
  have hsnn : s ≠ nn := by
    rcases hs2 with rfl | hsu
    · intro hh
      have := hb 2 (hh ▸ hnn)
      omega
    · exact fun hh => hsu.2.2 (hh ▸ hnn)
  have hs02 : (2 : ℤ) ∉ (1 :: fl) := by
    intro hm
    rcases List.mem_cons.mp hm with hh | hm2
    · omega
    · have := hb 2 hm2; omega
  have h00 : (0 : ℤ) ∉ (1 :: fl) := by
    intro hm
    rcases List.mem_cons.mp hm with hh | hm2
    · omega
    · have := hb 0 hm2; omega
  have hframe : ∀ x : ℤ, x ∉ (1 :: fl) → x ≠ nn →
      (((((d.set_check (l1.getLastD 1) (-(l2.headD 1))).set_base (l2.headD 1)
        (-(l1.getLastD 1))).set_check nn s).set_base nn onb).get_check x =
        d.get_check x) ∧
      (((((d.set_check (l1.getLastD 1) (-(l2.headD 1))).set_base (l2.headD 1)
        (-(l1.getLastD 1))).set_check nn s).set_base nn onb).get_base x =
        d.get_base x) := by
    intro x hx hxn
    constructor
    · rw [get_check_set_base,
        get_check_set_check_other _ _ _ _ (fun hh => hxn hh.symm),
        (hframe1 x hx).1]
    · rw [get_base_set_base_other _ _ _ _ (fun hh => hxn hh.symm),
        get_base_set_check, (hframe1 x hx).2]
  have hlen2 : ((((d.set_check (l1.getLastD 1) (-(l2.headD 1))).set_base
      (l2.headD 1) (-(l1.getLastD 1))).set_check nn s).set_base nn
      onb).cells.length = d.cells.length := by
    rw [length_set_base, length_set_check, hlen1]
  have hcknn : ((((d.set_check (l1.getLastD 1) (-(l2.headD 1))).set_base
      (l2.headD 1) (-(l1.getLastD 1))).set_check nn s).set_base nn
      onb).get_check nn = some s := by
    rw [get_check_set_base,
      get_check_set_check_self _ _ _ (by omega) (by rw [hlen1]; omega)]
  have hbsnn : ((((d.set_check (l1.getLastD 1) (-(l2.headD 1))).set_base
      (l2.headD 1) (-(l1.getLastD 1))).set_check nn s).set_base nn
      onb).get_base nn = some onb := by
    rw [get_base_set_base_self _ _ _ (by omega)
      (by rw [length_set_check, hlen1]; omega)]
  have hsnot1fl : s ∉ (1 :: fl) := hinuse_s s hs2
  have hsu2 : s = 2 ∨ InUse ((((d.set_check (l1.getLastD 1)
      (-(l2.headD 1))).set_base (l2.headD 1) (-(l1.getLastD 1))).set_check
      nn s).set_base nn onb) (l1 ++ l2) s := by
    rcases hs2 with rfl | hsu
    · exact Or.inl rfl
    · refine Or.inr ⟨hsu.1, ?_, ?_⟩
      · rw [hlen2]
        exact hsu.2.1
      · intro hm
        exact hsu.2.2 ((hmem2 s).mpr (Or.inl hm))
  have holdin : ∀ i : ℤ, InUse ((((d.set_check (l1.getLastD 1)
      (-(l2.headD 1))).set_base (l2.headD 1) (-(l1.getLastD 1))).set_check
      nn s).set_base nn onb) (l1 ++ l2) i → i ≠ nn → InUse d fl i := by
    intro i hi hin
    obtain ⟨hi3, hilen, hifl⟩ := hi
    rw [hlen2] at hilen
    refine ⟨hi3, hilen, fun hm => ?_⟩
    rcases (hmem2 i).mp hm with hx | hx
    · exact hifl hx
    · exact hin hx
  have hnotin : ∀ i : ℤ, InUse d fl i → i ∉ (1 :: fl) :=
    fun i hi => hinuse_s i (Or.inr hi)
  have hodnn : od ≠ nn := fun hh => hod.2.2 (hh ▸ hnn)
  have hrank2 : ∀ i, InUse ((((d.set_check (l1.getLastD 1)
      (-(l2.headD 1))).set_base (l2.headD 1) (-(l1.getLastD 1))).set_check
      nn s).set_base nn onb) (l1 ++ l2) i → ∀ v,
      ((((d.set_check (l1.getLastD 1) (-(l2.headD 1))).set_base (l2.headD 1)
        (-(l1.getLastD 1))).set_check nn s).set_base nn onb).get_check i =
        some v →
      (if v = nn then rank od else rank v) <
        (if i = nn then rank od else rank i) := by
    intro i hi v hv
    by_cases hin : i = nn
    · subst hin
      rw [hcknn] at hv
      injection hv with hv2
      subst hv2
      rw [if_neg hsnn, if_pos rfl]
      exact hrank od hod s hods
    · have hiold := holdin i hi hin
      have hif := hframe i (hnotin i hiold) hin
      rw [hif.1] at hv
      have hr := hrank i hiold v hv
      have hvnn : v ≠ nn := by
        by_cases hck9 : d.get_check i = some s
        · rw [hv] at hck9
          injection hck9 with h9
          rw [h9]
          exact hsnn
        · obtain ⟨v0, w0, hv0, -, -, -, hvp0, -⟩ := hocc i hiold hck9
          rw [hv] at hv0
          injection hv0 with h9
          rw [← h9] at hvp0
          rcases hvp0 with rfl | hvu
          · omega
          · exact fun hh => hvu.2.2 (hh ▸ hnn)
      rw [if_neg hvnn, if_neg hin]
      exact hr
  refine ⟨l1, l2, _, heq, halloc, ⟨?_, ?_, ?_, ?_, ?_, ?_, ?_⟩, hlen2,
    hframe, hcknn, hbsnn, ?_, ⟨fun j => if j = nn then rank od else rank j,
      hrank2, by
        show (if nn = nn then rank od else rank nn) =
          if od = nn then rank od else rank od
        rw [if_pos rfl, if_neg hodnn]⟩⟩
  · exact FLOK_set_base_frame
      (FLOK_set_check_frame hflok1 (by omega) hnextnot) (by omega) hnextnot
  · rw [hlen2, (hframe 0 h00 (by omega)).1]
    exact hc0
  · rw [(hframe 2 hs02 (by omega)).1]
    exact hc2
  · obtain ⟨w, hw1, hw2⟩ := hb2
    exact ⟨w, by rw [(hframe 2 hs02 (by omega)).2]; exact hw1, hw2⟩
  · intro i hi hckne
    by_cases hin : i = nn
    · subst hin
      rw [hcknn] at hckne
      exact absurd rfl hckne
    · have hiold := holdin i hi hin
      have hif := hframe i (hnotin i hiold) hin
      rw [hif.1] at hckne
      obtain ⟨v, w, hv, hw, hwr, hvi, hvp, bv, hbv, hbv3, hbv1, hbv2⟩ :=
        hocc i hiold hckne
      have hvnn : v ≠ nn := by
        rcases hvp with rfl | hvu
        · omega
        · exact fun hh => hvu.2.2 (hh ▸ hnn)
      have hvframe := hframe v (by
        rcases hvp with rfl | hvu
        · exact hs02
        · exact hnotin v hvu) hvnn
      refine ⟨v, w, by rw [hif.1]; exact hv, by rw [hif.2]; exact hw, hwr,
        hvi, ?_, bv, by rw [hvframe.2]; exact hbv, hbv3, hbv1, hbv2⟩
      rcases hvp with rfl | hvu
      · exact Or.inl rfl
      · refine Or.inr ⟨hvu.1, by rw [hlen2]; exact hvu.2.1,
          fun hm => hvu.2.2 ((hmem2 v).mpr (Or.inl hm))⟩
  · intro i hi hck
    by_cases hin : i = nn
    · subst hin
      exact ⟨List.mem_cons_self i M, onb, hbsnn, honbarm, hsnn, hsu2⟩
    · have hiold := holdin i hi hin
      have hif := hframe i (hnotin i hiold) hin
      rw [hif.1] at hck
      obtain ⟨hmem, w, hw, hwarm, hsi, -⟩ := hxcl i hiold hck
      exact ⟨List.mem_cons_of_mem nn hmem, w, by rw [hif.2]; exact hw,
        hwarm, hsi, hsu2⟩
  · exact ⟨fun j => if j = nn then rank od else rank j, hrank2⟩
  · intro x hx hxn
    rcases (hmem2 x).mp hx with h9 | h9
    · exact h9
    · exact absurd h9 hxn

/-- `FLinks` only reads the checks and bases of the ring cells. -/
theorem FLinks_of_agree {d d2 : DArray} {fl : List ℤ}
    (h : FLinks d fl)
    (hck : ∀ x, x = 1 ∨ x ∈ fl → d2.get_check x = d.get_check x)
    (hbs : ∀ x, x = 1 ∨ x ∈ fl → d2.get_base x = d.get_base x) :
    FLinks d2 fl := by
  obtain ⟨⟨hseg, hlast⟩, hb1⟩ := h
  refine ⟨⟨FLSeg_of_agree hseg hck (fun x hx => hbs x (Or.inr hx)), ?_⟩, ?_⟩
  · rcases getLastD_mem_cons fl 1 with h1 | h1
    · rw [h1] at hlast ⊢
      rw [hck 1 (Or.inl rfl)]
      exact hlast
    · rw [hck _ (Or.inr h1)]
      exact hlast
  · rw [hbs 1 (Or.inl rfl)]
    exact hb1

/-- Re-pointing the grandchildren of the old child cell `od` to the
freshly written copy `nn` (which shares the base `onb` of `od`) keeps
the relocation invariant; afterwards no in-use cell has `od` as its
parent, and the given rank function still witnesses acyclicity. -/
theorem DAWFx_repoint {d2 : DArray} {fl : List ℤ} {s : ℤ} {M : List ℤ}
    {od onb nn : ℤ} {rank : ℤ → ℕ}
    (h : DAWFx d2 fl s M)
    (hrk : ∀ i, InUse d2 fl i → ∀ v, d2.get_check i = some v →
      rank v < rank i)
    (hrknn : rank nn = rank od)
    (hod3 : 3 ≤ od) (hckod : d2.get_check od = some s)
    (hbsod : d2.get_base od = some onb) (honb3 : 3 ≤ onb)
    (hnnin : InUse d2 fl nn) (hcknn : d2.get_check nn = some s)
    (hbsnn : d2.get_base nn = some onb)
    (hsod : s ≠ od) (hsnn : s ≠ nn) (hodnn : od ≠ nn) :
    ∀ dd, dd = (List.range (min (TRIE_CHAR_MAX : ℤ)
        ((d2.cells.length : ℤ) - onb) + 1).toNat).foldl
      (fun (dd : DArray) (c : ℕ) =>
        if dd.get_check (onb + (c : ℤ)) = some od
        then dd.set_check (onb + (c : ℤ)) nn else dd) d2 →
    DAWFx dd fl s M ∧ dd.cells.length = d2.cells.length ∧
    (∀ x : ℤ, dd.get_base x = d2.get_base x) ∧
    (∀ x : ℤ, d2.get_check x ≠ some od → dd.get_check x = d2.get_check x) ∧
    (∀ i v, InUse dd fl i → dd.get_check i = some v → v ≠ od) ∧
    (∀ i, InUse dd fl i → ∀ v, dd.get_check i = some v →
      rank v < rank i) := by
  intro dd hdd
  obtain ⟨hflok, hc0, hc2, hb2, hocc, hxcl, -⟩ := h
  obtain ⟨hlen3, hchain, hbnd, hlinks⟩ := hflok
  obtain ⟨hlen, hbases, hwin, hout⟩ := repoint_fold_spec d2 onb od nn _ dd hdd
  have hodlen := get_check_some_bounds hckod
  have hC : (TRIE_CHAR_MAX : ℤ) = 255 := by rw [TRIE_CHAR_MAX]; rfl
  have hchkf : ∀ x : ℤ, d2.get_check x ≠ some od →
      dd.get_check x = d2.get_check x := by
    intro x hx
    by_cases hcase : ∀ k : ℕ, k < (min (TRIE_CHAR_MAX : ℤ)
        ((d2.cells.length : ℤ) - onb) + 1).toNat → x ≠ onb + (k : ℤ)
    · exact hout x hcase
    · push_neg at hcase
      obtain ⟨k, hk, hkx⟩ := hcase
      subst hkx
      rw [hwin k hk, if_neg hx]
  have hcov : ∀ i : ℤ, InUse d2 fl i → d2.get_check i = some od →
      ∃ k : ℕ, k < (min (TRIE_CHAR_MAX : ℤ)
        ((d2.cells.length : ℤ) - onb) + 1).toNat ∧ i = onb + (k : ℤ) := by
    intro i hi hck
    have hck2 : d2.get_check i ≠ some s := by
      rw [hck]
      intro hh
      injection hh with hh2
      exact hsod hh2.symm
    obtain ⟨v, w, hv, hw, hwr, hvi, hvp, bv, hbv, hbv0, hbv1, hbv2⟩ :=
      hocc i hi hck2
    rw [hck] at hv
    injection hv with hv2
    rw [← hv2] at hbv
    rw [hbsod] at hbv
    injection hbv with hbv3
    subst hbv3
    have hilen := hi.2.1
    refine ⟨(i - onb).toNat, ?_, by omega⟩
    rcases le_total (TRIE_CHAR_MAX : ℤ) ((d2.cells.length : ℤ) - onb)
        with h9 | h9
    · rw [min_eq_left h9]
      omega
    · rw [min_eq_right h9]
      omega
  have hinuse : ∀ i : ℤ, InUse dd fl i ↔ InUse d2 fl i := by
    intro i
    rw [InUse, InUse, hlen]
  have hnochild : ∀ i v, InUse dd fl i → dd.get_check i = some v →
      v ≠ od := by
    intro i v hi hv hveq
    rw [hveq] at hv
    by_cases hck : d2.get_check i = some od
    · obtain ⟨k, hk, hik⟩ := hcov i ((hinuse i).mp hi) hck
      subst hik
      rw [hwin k hk, if_pos hck] at hv
      injection hv with hv2
      exact hodnn hv2.symm
    · rw [hchkf i hck] at hv
      exact hck hv
  have hringck : ∀ x, x = 1 ∨ x ∈ fl → dd.get_check x = d2.get_check x := by
    intro x hx
    rcases hx with rfl | hx
    · have h1 := FLTail_head hlinks.1
      refine hchkf 1 ?_
      rw [h1]
      intro hh
      injection hh with hh2
      rcases headD_mem_cons fl 1 with h5 | h5
      · rw [h5] at hh2
        omega
      · have := hbnd _ h5
        rw [DA_POOL_BEGIN] at this
        omega
    · obtain ⟨v, hv, hvneg⟩ := FLOK_neg_of_mem ⟨hlen3, hchain, hbnd, hlinks⟩ hx
      refine hchkf x ?_
      rw [hv]
      intro hh2
      injection hh2 with hh3
      omega
  have hrkdd : ∀ i, InUse dd fl i → ∀ v, dd.get_check i = some v →
      rank v < rank i := by
    intro i hi v hv
    have hi2 := (hinuse i).mp hi
    by_cases hck : d2.get_check i = some od
    · obtain ⟨k, hk, hik⟩ := hcov i hi2 hck
      subst hik
      rw [hwin k hk, if_pos hck] at hv
      injection hv with hv2
      subst hv2
      rw [hrknn]
      exact hrk _ hi2 od hck
    · rw [hchkf i hck] at hv
      exact hrk i hi2 v hv
  have hbnddd : ∀ f ∈ fl, DA_POOL_BEGIN ≤ f ∧
      f < ((dd.cells.length : ℕ) : ℤ) := by
    intro f hf
    rw [hlen]
    exact hbnd f hf
  refine ⟨⟨⟨by rw [hlen]; exact hlen3, hchain, hbnddd,
      FLinks_of_agree hlinks hringck (fun x _ => hbases x)⟩,
      ?_, ?_, ?_, ?_, ?_, rank, hrkdd⟩, hlen, hbases, hchkf, hnochild,
      hrkdd⟩
  · rw [hlen, hchkf 0 (by rw [hc0]; intro hh; injection hh with hh2; omega)]
    exact hc0
  · rw [hchkf 2 (by rw [hc2]; intro hh; injection hh with hh2; omega)]
    exact hc2
  · obtain ⟨w, hw, hwa⟩ := hb2
    exact ⟨w, by rw [hbases]; exact hw, hwa⟩
  · intro i hi hckne
    have hi2 := (hinuse i).mp hi
    by_cases hck : d2.get_check i = some od
    · obtain ⟨k, hk, hik⟩ := hcov i hi2 hck
      subst hik
      have hddi : dd.get_check (onb + (k : ℤ)) = some nn := by
        rw [hwin k hk, if_pos hck]
      have hck2 : d2.get_check (onb + (k : ℤ)) ≠ some s := by
        rw [hck]
        intro hh
        injection hh with hh2
        exact hsod hh2.symm
      obtain ⟨v, w, hv, hw, hwr, hvi, hvp, bv, hbv, hbv0, hbv1, hbv2⟩ :=
        hocc _ hi2 hck2
      rw [hck] at hv
      injection hv with hv2
      rw [← hv2] at hbv
      rw [hbsod] at hbv
      injection hbv with hbv3
      subst hbv3
      refine ⟨nn, w, hddi, by rw [hbases]; exact hw, hwr, ?_,
        Or.inr ((hinuse nn).mpr hnnin), onb, by rw [hbases]; exact hbsnn,
        honb3, hbv1, hbv2⟩
      intro hh
      rw [← hh] at hck
      rw [hcknn] at hck
      injection hck with h9
      exact hsod h9
    · have hddi := hchkf i hck
      rw [hddi] at hckne
      obtain ⟨v, w, hv, hw, hwr, hvi, hvp, bv, hbv, hbv0, hbv1, hbv2⟩ :=
        hocc i hi2 hckne
      refine ⟨v, w, by rw [hddi]; exact hv, by rw [hbases]; exact hw, hwr,
        hvi, ?_, bv, by rw [hbases]; exact hbv, hbv0, hbv1, hbv2⟩
      rcases hvp with rfl | hvu
      · exact Or.inl rfl
      · exact Or.inr ((hinuse v).mpr hvu)
  · intro i hi hck
    have hi2 := (hinuse i).mp hi
    have hck2 : d2.get_check i = some s := by
      by_cases hod9 : d2.get_check i = some od
      · obtain ⟨k, hk, hik⟩ := hcov i hi2 hod9
        subst hik
        rw [hwin k hk, if_pos hod9] at hck
        injection hck with h9
        exact absurd h9.symm hsnn
      · rw [hchkf i hod9] at hck
        exact hck
    obtain ⟨hmem, w, hw, hwa, hsi, hsu⟩ := hxcl i hi2 hck2
    refine ⟨hmem, w, by rw [hbases]; exact hw, hwa, hsi, ?_⟩
    rcases hsu with rfl | hsu
    · exact Or.inl rfl
    · exact Or.inr ((hinuse s).mpr hsu)


/-- `free_cell` preserves the relocation invariant, splicing the freed
cell into the free list in ascending order. -/
theorem DAWFx_free {d : DArray} {fl : List ℤ} {s : ℤ} {M : List ℤ} {c : ℤ}
    (h : DAWFx d fl s M) (hcnot : c ∉ fl) (hc3 : 3 ≤ c)
    (hclen : c < (d.cells.length : ℤ))
    (hnochild : ∀ i v, InUse d fl i → d.get_check i = some v → v ≠ c)
    (hsc : s ≠ c) :
    ∃ l1 l2 d2, fl = l1 ++ l2 ∧ (∀ x ∈ l1, x < c) ∧ (∀ y ∈ l2, c < y) ∧
      d.free_cell c = .ok d2 ∧ DAWFx d2 (l1 ++ c :: l2) s M ∧
      d2.cells.length = d.cells.length ∧
      (∀ x : ℤ, x ∉ (1 :: c :: fl) →
        d2.get_check x = d.get_check x ∧ d2.get_base x = d.get_base x) := by
  obtain ⟨hfl, hc0, hc2, hb2, hocc, hxcl, rank, hrank⟩ := h
  have hb := FLOK_bounds hfl
  obtain ⟨l1, l2, d2, hsplit, hlt, hgt, heval, hflok2, hlen2, hframe⟩ :=
    FLOK_free hfl hcnot hc3 hclen
  have hmem2 : ∀ x : ℤ, x ∈ (l1 ++ c :: l2) ↔ x ∈ fl ∨ x = c := by
    intro x
    rw [hsplit, List.mem_append, List.mem_append, List.mem_cons]
    tauto
  have hnotin : ∀ x : ℤ, 0 ≤ x → x ≠ 1 → x ≠ c → x ∉ fl →
      x ∉ (1 :: c :: fl) := by
    intro x h0 h1 h2 h3 hm
    rcases List.mem_cons.mp hm with hh | hm2
    · exact h1 hh
    · rcases List.mem_cons.mp hm2 with hh | hm3
      · exact h2 hh
      · exact h3 hm3
  have h0mem : (0 : ℤ) ∉ (1 :: c :: fl) :=
    hnotin 0 (by omega) (by omega) (by omega)
      (fun hm => by have := hb 0 hm; omega)
  have h2mem : (2 : ℤ) ∉ (1 :: c :: fl) :=
    hnotin 2 (by omega) (by omega) (by omega)
      (fun hm => by have := hb 2 hm; omega)
  have hold : ∀ i : ℤ, InUse d2 (l1 ++ c :: l2) i → InUse d fl i ∧ i ≠ c := by
    intro i ⟨hi3, hilen, hifl⟩
    rw [hmem2] at hifl
    push_neg at hifl
    have := hlen2
    exact ⟨⟨hi3, by omega, hifl.1⟩, hifl.2⟩
  refine ⟨l1, l2, d2, hsplit, hlt, hgt, heval,
    ⟨hflok2, ?_, ?_, ?_, ?_, ?_, rank, ?_⟩, hlen2, hframe⟩
  · rw [(hframe 0 h0mem).1, hlen2]
    exact hc0
  · rw [(hframe 2 h2mem).1]
    exact hc2
  · obtain ⟨w, hw1, hw2⟩ := hb2
    exact ⟨w, by rw [(hframe 2 h2mem).2]; exact hw1, hw2⟩
  · intro i hi hckne
    obtain ⟨hiold, hic⟩ := hold i hi
    have himem : i ∉ (1 :: c :: fl) := hnotin i
      (by have := hiold.1; rw [DA_POOL_BEGIN] at this; omega)
      (by have := hiold.1; rw [DA_POOL_BEGIN] at this; omega) hic hiold.2.2
    rw [(hframe i himem).1] at hckne
    obtain ⟨v, w, hv, hw, hwr, hvi, hvp, bv, hbv, hbv3, hbv1, hbv2⟩ :=
      hocc i hiold hckne
    have hvc : v ≠ c := hnochild i v hiold hv
    have hvframe : d2.get_base v = d.get_base v ∧
        d2.get_check v = d.get_check v := by
      rcases hvp with rfl | hvu
      · exact ⟨(hframe 2 h2mem).2, (hframe 2 h2mem).1⟩
      · have h7 := hframe v (hnotin v
          (by have := hvu.1; rw [DA_POOL_BEGIN] at this; omega)
          (by have := hvu.1; rw [DA_POOL_BEGIN] at this; omega) hvc hvu.2.2)
        exact ⟨h7.2, h7.1⟩
    refine ⟨v, w, by rw [(hframe i himem).1]; exact hv,
      by rw [(hframe i himem).2]; exact hw, hwr, hvi, ?_, bv,
      by rw [hvframe.1]; exact hbv, hbv3, hbv1, hbv2⟩
    rcases hvp with rfl | hvu
    · exact Or.inl rfl
    · refine Or.inr ⟨hvu.1, by have := hvu.2.1; have := hlen2; omega, ?_⟩
      rw [hmem2]
      push_neg
      exact ⟨hvu.2.2, hvc⟩
  · intro i hi hck
    obtain ⟨hiold, hic⟩ := hold i hi
    have himem : i ∉ (1 :: c :: fl) := hnotin i
      (by have := hiold.1; rw [DA_POOL_BEGIN] at this; omega)
      (by have := hiold.1; rw [DA_POOL_BEGIN] at this; omega) hic hiold.2.2
    rw [(hframe i himem).1] at hck
    obtain ⟨hmem, w, hw, hwa, hsi, hsu⟩ := hxcl i hiold hck
    refine ⟨hmem, w, by rw [(hframe i himem).2]; exact hw, hwa, hsi, ?_⟩
    rcases hsu with rfl | hsu
    · exact Or.inl rfl
    · refine Or.inr ⟨hsu.1, by have := hsu.2.1; have := hlen2; omega, ?_⟩
      rw [hmem2]
      push_neg
      exact ⟨hsu.2.2, hsc⟩
  · intro i hi v hv
    obtain ⟨hiold, hic⟩ := hold i hi
    have himem : i ∉ (1 :: c :: fl) := hnotin i
      (by have := hiold.1; rw [DA_POOL_BEGIN] at this; omega)
      (by have := hiold.1; rw [DA_POOL_BEGIN] at this; omega) hic hiold.2.2
    rw [(hframe i himem).1] at hv
    exact hrank i hiold v hv


/-- Evaluation of `relocate_one` given the allocation result and the
old child base. -/
theorem relocate_one_eval {s nb ob : ℤ} {d d1 : DArray} {sym : ℕ}
    (halloc : d.alloc_cell (nb + (sym : ℤ)) = .ok d1)
    {onb : ℤ}
    (hgd : (d.get_base (ob + (sym : ℤ))).getD TRIE_INDEX_ERROR = onb) :
    DArray.relocate_one s nb ob d sym =
      (if onb > 0 then
        (List.range (min (TRIE_CHAR_MAX : ℤ)
            ((((d1.set_check (nb + (sym : ℤ)) s).set_base (nb + (sym : ℤ))
              onb).cells.length : ℤ) - onb) + 1).toNat).foldl
          (fun (dd : DArray) (c : ℕ) =>
            if dd.get_check (onb + (c : ℤ)) = some (ob + (sym : ℤ))
            then dd.set_check (onb + (c : ℤ)) (nb + (sym : ℤ)) else dd)
          ((d1.set_check (nb + (sym : ℤ)) s).set_base (nb + (sym : ℤ)) onb)
       else ((d1.set_check (nb + (sym : ℤ)) s).set_base (nb + (sym : ℤ))
         onb)).free_cell (ob + (sym : ℤ)) := by
  subst hgd
  show Res.bind (d.alloc_cell (nb + (sym : ℤ))) (fun d1 =>
    (if (d.get_base (ob + (sym : ℤ))).getD TRIE_INDEX_ERROR > 0 then
      (List.range (min (TRIE_CHAR_MAX : ℤ)
          ((((d1.set_check (nb + (sym : ℤ)) s).set_base (nb + (sym : ℤ))
            ((d.get_base (ob + (sym : ℤ))).getD
              TRIE_INDEX_ERROR)).cells.length : ℤ) -
            (d.get_base (ob + (sym : ℤ))).getD TRIE_INDEX_ERROR) +
          1).toNat).foldl
        (fun (dd : DArray) (c : ℕ) =>
          if dd.get_check ((d.get_base (ob + (sym : ℤ))).getD
              TRIE_INDEX_ERROR + (c : ℤ)) = some (ob + (sym : ℤ))
          then dd.set_check ((d.get_base (ob + (sym : ℤ))).getD
            TRIE_INDEX_ERROR + (c : ℤ)) (nb + (sym : ℤ)) else dd)
        ((d1.set_check (nb + (sym : ℤ)) s).set_base (nb + (sym : ℤ))
          ((d.get_base (ob + (sym : ℤ))).getD TRIE_INDEX_ERROR))
     else ((d1.set_check (nb + (sym : ℤ)) s).set_base (nb + (sym : ℤ))
       ((d.get_base (ob + (sym : ℤ))).getD
         TRIE_INDEX_ERROR))).free_cell (ob + (sym : ℤ))) = _
  rw [halloc]
  rfl


/-- The tracked child list of `DAWFx` may be replaced by any list that
still covers every in-use tracked child. -/
theorem DAWFx_mono {d : DArray} {fl : List ℤ} {s : ℤ} {M M2 : List ℤ}
    (h : DAWFx d fl s M)
    (hsub : ∀ i, InUse d fl i → i ∈ M → i ∈ M2) :
    DAWFx d fl s M2 := by
  obtain ⟨hfl, hc0, hc2, hb2, hocc, hxcl, rank, hrank⟩ := h
  refine ⟨hfl, hc0, hc2, hb2, hocc, ?_, rank, hrank⟩
  intro i hi hck
  obtain ⟨hmem, rest⟩ := hxcl i hi hck
  exact ⟨hsub i hi hmem, rest⟩

set_option maxHeartbeats 2000000 in
/-- One `relocate_one` step: the old child at `ob + sym` is moved to
the free cell `nb + sym`, its grandchildren are re-pointed to it, and
the old cell is freed; the relocation invariant is preserved with the
new cell tracked, the free list trades `nb + sym` for `ob + sym`, and
cells that are neither ring cells nor grandchildren are untouched. -/
theorem DAWFx_reloc_one {d : DArray} {fl : List ℤ} {s nb ob : ℤ}
    {M : List ℤ} {sym : ℕ} {od nn : ℤ}
    (hodeq : od = ob + (sym : ℤ)) (hnneq : nn = nb + (sym : ℤ))
    (h : DAWFx d fl s M)
    (hod : InUse d fl od) (hods : d.get_check od = some s)
    (hnn : nn ∈ fl) :
    ∃ d4 fl4, DArray.relocate_one s nb ob d sym = .ok d4 ∧
      DAWFx d4 fl4 s (nn :: M) ∧
      d4.cells.length = d.cells.length ∧
      (∀ x : ℤ, x ∈ fl4 ↔ (x ∈ fl ∧ x ≠ nn) ∨ x = od) ∧
      (∀ x : ℤ, x ∉ (1 :: od :: fl) → d.get_check x ≠ some od →
        d4.get_check x = d.get_check x ∧ d4.get_base x = d.get_base x) := by
  obtain ⟨-, onb, hbod, honbarm, hsod, hsu⟩ :=
    h.2.2.2.2.2.1 od hod hods
  have hbnd := FLOK_bounds h.1
  have hnd : fl.Nodup := chain_lt_nodup h.1.2.1
  have hnnb := hbnd nn hnn
  have hod3 : (3 : ℤ) ≤ od := by
    have := hod.1
    rw [DA_POOL_BEGIN] at this
    exact this
  have hsnn : s ≠ nn := by
    rcases hsu with rfl | hsu
    · omega
    · exact fun hh => hsu.2.2 (hh ▸ hnn)
  have hodnn : od ≠ nn := fun hh => hod.2.2 (hh ▸ hnn)
  have hgd : (d.get_base od).getD TRIE_INDEX_ERROR = onb := by
    rw [hbod]
    rfl
  obtain ⟨l1, l2, d1, hsplit, halloc, hDx2, hlen2, hframe2, hck2nn,
    hbs2nn, hmemf, rank2, hrk2, hrk2eq⟩ :=
    DAWFx_alloc_reloc h hnn hod hods hbod
  have hnnot : nn ∉ l1 ++ l2 := by
    rw [hsplit] at hnd
    rw [List.nodup_append] at hnd
    intro hm
    rcases List.mem_append.mp hm with hx | hx
    · exact hnd.2.2 hx (List.mem_cons_self nn l2)
    · rw [List.nodup_cons] at hnd
      exact hnd.2.1.1 hx
  have hmemiff : ∀ x : ℤ, x ∈ l1 ++ l2 ↔ x ∈ fl ∧ x ≠ nn := by
    intro x
    constructor
    · intro hx
      refine ⟨?_, fun hh => hnnot (hh ▸ hx)⟩
      rw [hsplit]
      rcases List.mem_append.mp hx with h9 | h9
      · exact List.mem_append.mpr (Or.inl h9)
      · exact List.mem_append.mpr (Or.inr (List.mem_cons_of_mem nn h9))
    · intro ⟨hx, hxn⟩
      exact hmemf x hx hxn
  have hodn1 : od ∉ (1 :: fl) := by
    intro hm
    rcases List.mem_cons.mp hm with hh | hm2
    · omega
    · exact hod.2.2 hm2
  have hckod2 : ((d1.set_check nn s).set_base nn onb).get_check od =
      some s := by
    rw [(hframe2 od hodn1 hodnn).1]
    exact hods
  have hbsod2 : ((d1.set_check nn s).set_base nn onb).get_base od =
      some onb := by
    rw [(hframe2 od hodn1 hodnn).2]
    exact hbod
  have hnnin2 : InUse ((d1.set_check nn s).set_base nn onb)
      (l1 ++ l2) nn := by
    refine ⟨hnnb.1, ?_, hnnot⟩
    rw [hlen2]
    exact hnnb.2
  have hold2 : ∀ i : ℤ, InUse ((d1.set_check nn s).set_base nn onb)
      (l1 ++ l2) i → i ≠ nn → InUse d fl i := by
    intro i hi hin
    refine ⟨hi.1, by rw [← hlen2]; exact hi.2.1, ?_⟩
    intro hm
    exact hi.2.2 ((hmemiff i).mpr ⟨hm, hin⟩)
  have hodnotfl2 : od ∉ l1 ++ l2 := fun hm =>
    hod.2.2 ((hmemiff od).mp hm).1
  have halloc9 : d.alloc_cell (nb + (sym : ℤ)) = .ok d1 := by
    rw [← hnneq]
    exact halloc
  have hgd9 : (d.get_base (ob + (sym : ℤ))).getD TRIE_INDEX_ERROR = onb := by
    rw [← hodeq]
    exact hgd
  by_cases honb : onb > 0
  · have honb3 : (3 : ℤ) ≤ onb := by
      rcases honbarm with h9 | h9
      · omega
      · rw [DA_POOL_BEGIN] at h9
        exact h9
    obtain ⟨hDx3, hlen3, hbs3, hckf3, hnoc3, hrk3⟩ :=
      DAWFx_repoint hDx2 hrk2 hrk2eq hod3 hckod2 hbsod2 honb3 hnnin2
        hck2nn hbs2nn hsod hsnn hodnn _ rfl
    obtain ⟨m1, m2, d4, hsplit4, hlt4, hgt4, hfree, hDx4, hlen4, hframe4⟩ :=
      DAWFx_free hDx3 hodnotfl2 hod3
        (by rw [hlen3, hlen2]; exact hod.2.1) hnoc3 hsod
    refine ⟨d4, m1 ++ od :: m2, ?_, hDx4, ?_, ?_, ?_⟩
    · rw [relocate_one_eval halloc9 hgd9, ← hodeq, ← hnneq, if_pos honb]
      exact hfree
    · rw [hlen4, hlen3, hlen2]
    · intro x
      have h9 : x ∈ m1 ++ od :: m2 ↔ x ∈ m1 ++ m2 ∨ x = od := by
        rw [List.mem_append, List.mem_append, List.mem_cons]
        tauto
      rw [h9, ← hsplit4, hmemiff x]
    · intro x hx hckx
      have hx1 : x ≠ 1 ∧ x ≠ od ∧ x ∉ fl := by
        refine ⟨?_, ?_, ?_⟩
        · intro hh
          exact hx (by rw [hh]; exact List.mem_cons_self 1 (od :: fl))
        · intro hh
          exact hx (by
            rw [hh]
            exact List.mem_cons_of_mem 1 (List.mem_cons_self od fl))
        · intro hm
          exact hx (List.mem_cons_of_mem 1 (List.mem_cons_of_mem od hm))
      have hxnn : x ≠ nn := fun hh => hx1.2.2 (hh ▸ hnn)
      have hxnotfl1 : x ∉ (1 :: fl) := by
        intro hm
        rcases List.mem_cons.mp hm with hh | hm2
        · exact hx1.1 hh
        · exact hx1.2.2 hm2
      have hf2 := hframe2 x hxnotfl1 hxnn
      have hck2x : ((d1.set_check nn s).set_base nn onb).get_check x ≠
          some od := by
        rw [hf2.1]
        exact hckx
      have hxnot4 : x ∉ (1 :: od :: (l1 ++ l2)) := by
        intro hm
        rcases List.mem_cons.mp hm with hh | hm2
        · exact hx1.1 hh
        · rcases List.mem_cons.mp hm2 with hh | hm3
          · exact hx1.2.1 hh
          · exact hx1.2.2 ((hmemiff x).mp hm3).1
      have hf4 := hframe4 x hxnot4
      exact ⟨by rw [hf4.1, hckf3 x hck2x, hf2.1],
        by rw [hf4.2, hbs3 x, hf2.2]⟩
  · have hnoc3 : ∀ i v, InUse ((d1.set_check nn s).set_base nn onb)
        (l1 ++ l2) i → ((d1.set_check nn s).set_base nn onb).get_check i =
        some v → v ≠ od := by
      intro i v hi hv hveq
      rw [hveq] at hv
      have hin : i ≠ nn := by
        intro hh
        rw [hh, hck2nn] at hv
        injection hv with h9
        exact hsod h9
      have hiold := hold2 i hi hin
      have hinot1 : i ∉ (1 :: fl) := by
        intro hm
        rcases List.mem_cons.mp hm with hh | hm2
        · have := hiold.1
          rw [DA_POOL_BEGIN] at this
          omega
        · exact hiold.2.2 hm2
      rw [(hframe2 i hinot1 hin).1] at hv
      have hckne : d.get_check i ≠ some s := by
        rw [hv]
        intro hh
        injection hh with h9
        exact hsod h9.symm
      obtain ⟨v2, w2, hv2, -, -, -, -, bv, hbv, hbv3, -, -⟩ :=
        h.2.2.2.2.1 i hiold hckne
      rw [hv] at hv2
      injection hv2 with h9
      rw [← h9] at hbv
      rw [hbod] at hbv
      injection hbv with h8
      rw [DA_POOL_BEGIN] at hbv3
      omega
    obtain ⟨m1, m2, d4, hsplit4, hlt4, hgt4, hfree, hDx4, hlen4, hframe4⟩ :=
      DAWFx_free hDx2 hodnotfl2 hod3
        (by rw [hlen2]; exact hod.2.1) hnoc3 hsod
    refine ⟨d4, m1 ++ od :: m2, ?_, hDx4, ?_, ?_, ?_⟩
    · rw [relocate_one_eval halloc9 hgd9, ← hodeq, ← hnneq, if_neg honb]
      exact hfree
    · rw [hlen4, hlen2]
    · intro x
      have h9 : x ∈ m1 ++ od :: m2 ↔ x ∈ m1 ++ m2 ∨ x = od := by
        rw [List.mem_append, List.mem_append, List.mem_cons]
        tauto
      rw [h9, ← hsplit4, hmemiff x]
    · intro x hx hckx
      have hx1 : x ≠ 1 ∧ x ≠ od ∧ x ∉ fl := by
        refine ⟨?_, ?_, ?_⟩
        · intro hh
          exact hx (by rw [hh]; exact List.mem_cons_self 1 (od :: fl))
        · intro hh
          exact hx (by
            rw [hh]
            exact List.mem_cons_of_mem 1 (List.mem_cons_self od fl))
        · intro hm
          exact hx (List.mem_cons_of_mem 1 (List.mem_cons_of_mem od hm))
      have hxnn : x ≠ nn := fun hh => hx1.2.2 (hh ▸ hnn)
      have hxnotfl1 : x ∉ (1 :: fl) := by
        intro hm
        rcases List.mem_cons.mp hm with hh | hm2
        · exact hx1.1 hh
        · exact hx1.2.2 hm2
      have hf2 := hframe2 x hxnotfl1 hxnn
      have hxnot4 : x ∉ (1 :: od :: (l1 ++ l2)) := by
        intro hm
        rcases List.mem_cons.mp hm with hh | hm2
        · exact hx1.1 hh
        · rcases List.mem_cons.mp hm2 with hh | hm3
          · exact hx1.2.1 hh
          · exact hx1.2.2 ((hmemiff x).mp hm3).1
      have hf4 := hframe4 x hxnot4
      exact ⟨by rw [hf4.1, hf2.1], by rw [hf4.2, hf2.2]⟩


/-- The output symbols of a state are listed in increasing order. -/
theorem output_symbols_pairwise (d : DArray) (s : ℤ) :
    (d.output_symbols s).Pairwise (· < ·) := by
  unfold DArray.output_symbols
  exact (List.pairwise_lt_range _).filter _

/-- Evaluation of `relocate_base` as a fold of `relocate_one` steps
followed by the base rewrite. -/
theorem relocate_base_eval {d : DArray} {s nb ob : ℤ}
    (hgd : (d.get_base s).getD TRIE_INDEX_ERROR = ob) :
    d.relocate_base s nb =
      Res.bind ((d.output_symbols s).foldlM
        (fun dd sym => DArray.relocate_one s nb ob dd sym) d)
        (fun d1 => .ok (d1.set_base s nb)) := by
  subst hgd
  rfl

set_option maxHeartbeats 1000000 in
/-- The `relocate_one` fold of `relocate_base`: processing a sorted
list of pending symbols whose old children are in use and whose new
target cells are free preserves the relocation invariant, moving the
tracked children from the old window to the new one. -/
theorem DAWFx_reloc_fold {s nb ob : ℤ} :
    ∀ (todo : List ℕ) (d : DArray) (fl R : List ℤ),
    todo.Pairwise (· < ·) →
    DAWFx d fl s ((todo.map (fun sym : ℕ => ob + (sym : ℤ))) ++ R) →
    (∀ sym ∈ todo, InUse d fl (ob + (sym : ℤ)) ∧
      d.get_check (ob + (sym : ℤ)) = some s) →
    (∀ sym ∈ todo, nb + (sym : ℤ) ∈ fl) →
    ∃ d1 fl1, todo.foldlM (fun dd sym =>
        DArray.relocate_one s nb ob dd sym) d = .ok d1 ∧
      DAWFx d1 fl1 s ((todo.map (fun sym : ℕ => nb + (sym : ℤ))) ++ R) ∧
      d1.cells.length = d.cells.length ∧
      (∀ x : ℤ, x ∈ fl1 → x ∈ fl ∨ ∃ sym ∈ todo, x = ob + (sym : ℤ)) ∧
      (∀ x : ℤ, x ∈ fl → (∀ sym ∈ todo, x ≠ nb + (sym : ℤ)) →
        x ∈ fl1) := by
  intro todo
  induction todo with
  | nil =>
    intro d fl R hpw hDx hch hfree
    refine ⟨d, fl, ?_, hDx, rfl, fun x hx => Or.inl hx, fun x hx _ => hx⟩
    rw [List.foldlM_nil]
    rfl
  | cons sym todo2 ih =>
    intro d fl R hpw hDx hch hfree
    obtain ⟨hin, hck⟩ := hch sym (List.mem_cons_self sym todo2)
    have hnn := hfree sym (List.mem_cons_self sym todo2)
    obtain ⟨-, w0, -, -, hsod, -⟩ := hDx.2.2.2.2.2.1 _ hin hck
    obtain ⟨d4, fl4, heval1, hDx4, hlen4, hfl4, hframe4⟩ :=
      DAWFx_reloc_one rfl rfl hDx hin hck hnn
    rw [List.pairwise_cons] at hpw
    obtain ⟨hlt, hpw2⟩ := hpw
    have hodin4 : (ob + (sym : ℤ)) ∈ fl4 := (hfl4 _).mpr (Or.inr rfl)
    have hDx4b : DAWFx d4 fl4 s
        ((todo2.map (fun sym2 : ℕ => ob + (sym2 : ℤ))) ++
          ((nb + (sym : ℤ)) :: R)) := by
      refine DAWFx_mono hDx4 ?_
      intro i hi hm
      rcases List.mem_cons.mp hm with rfl | hm2
      · exact List.mem_append.mpr (Or.inr (List.mem_cons_self _ _))
      · rcases List.mem_cons.mp hm2 with rfl | hm3
        · exact absurd hodin4 hi.2.2
        · rcases List.mem_append.mp hm3 with h9 | h9
          · exact List.mem_append.mpr (Or.inl h9)
          · exact List.mem_append.mpr (Or.inr (List.mem_cons_of_mem _ h9))
    have hch2 : ∀ sym2 ∈ todo2, InUse d4 fl4 (ob + (sym2 : ℤ)) ∧
        d4.get_check (ob + (sym2 : ℤ)) = some s := by
      intro sym2 hm2
      obtain ⟨hin2, hck2⟩ := hch sym2 (List.mem_cons_of_mem sym hm2)
      have hne : ob + (sym2 : ℤ) ≠ ob + (sym : ℤ) := by
        have := hlt sym2 hm2
        omega
      have hnotin : ob + (sym2 : ℤ) ∉ (1 :: (ob + (sym : ℤ)) :: fl) := by
        intro hm
        rcases List.mem_cons.mp hm with hh | hm9
        · have := hin2.1
          rw [DA_POOL_BEGIN] at this
          omega
        · rcases List.mem_cons.mp hm9 with hh | hm8
          · exact hne hh
          · exact hin2.2.2 hm8
      have hckne : d.get_check (ob + (sym2 : ℤ)) ≠
          some (ob + (sym : ℤ)) := by
        rw [hck2]
        intro hh
        injection hh with h9
        exact hsod h9
      have hf := hframe4 _ hnotin hckne
      refine ⟨⟨hin2.1, by rw [hlen4]; exact hin2.2.1, ?_⟩,
        by rw [hf.1]; exact hck2⟩
      intro hm
      rcases (hfl4 _).mp hm with h9 | h9
      · exact hin2.2.2 h9.1
      · exact hne h9
    have hfree2 : ∀ sym2 ∈ todo2, nb + (sym2 : ℤ) ∈ fl4 := by
      intro sym2 hm2
      refine (hfl4 _).mpr (Or.inl
        ⟨hfree sym2 (List.mem_cons_of_mem sym hm2), ?_⟩)
      have := hlt sym2 hm2
      omega
    obtain ⟨d1, fl1, hevalF, hDxF, hlenF, hflF1, hflF2⟩ :=
      ih d4 fl4 ((nb + (sym : ℤ)) :: R) hpw2 hDx4b hch2 hfree2
    refine ⟨d1, fl1, ?_, ?_, by rw [hlenF, hlen4], ?_, ?_⟩
    · rw [List.foldlM_cons, heval1]
      exact hevalF
    · refine DAWFx_mono hDxF ?_
      intro i hi hm
      rcases List.mem_append.mp hm with h9 | h9
      · exact List.mem_cons_of_mem _ (List.mem_append.mpr (Or.inl h9))
      · rcases List.mem_cons.mp h9 with rfl | h8
        · exact List.mem_cons_self _ _
        · exact List.mem_cons_of_mem _ (List.mem_append.mpr (Or.inr h8))
    · intro x hx
      rcases hflF1 x hx with h9 | h9
      · rcases (hfl4 x).mp h9 with h7 | h7
        · exact Or.inl h7.1
        · exact Or.inr ⟨sym, List.mem_cons_self sym todo2, h7⟩
      · obtain ⟨sym2, hm2, h8⟩ := h9
        exact Or.inr ⟨sym2, List.mem_cons_of_mem sym hm2, h8⟩
    · intro x hx hne
      refine hflF2 x ?_ ?_
      · exact (hfl4 x).mpr (Or.inl
          ⟨hx, hne sym (List.mem_cons_self sym todo2)⟩)
      · intro sym2 hm2
        exact hne sym2 (List.mem_cons_of_mem sym hm2)


set_option maxHeartbeats 1000000 in
/-- `relocate_base` preserves the full double-array invariant: the
children of `s` are moved from the window of the old base to the
window of the free new base, and the base of `s` is rewritten. -/
theorem DAWF_relocate_base {d : DArray} {fl : List ℤ} {s nb ob : ℤ}
    (h : DAWF d fl) (hbs : d.get_base s = some ob) (hob3 : 3 ≤ ob)
    (hnb3 : 3 ≤ nb) (hs : s = 2 ∨ InUse d fl s)
    (hfree : ∀ sym ∈ d.output_symbols s, nb + (sym : ℤ) ∈ fl) :
    ∃ d2 fl2, d.relocate_base s nb = .ok d2 ∧ DAWF d2 fl2 ∧
      d2.cells.length = d.cells.length ∧ d2.get_base s = some nb ∧
      (s = 2 ∨ InUse d2 fl2 s) ∧
      (∀ x ∈ fl, (∀ sym ∈ d.output_symbols s, x ≠ nb + (sym : ℤ)) →
        x ∈ fl2) := by
  have hgd : (d.get_base s).getD TRIE_INDEX_ERROR = ob := by
    rw [hbs]
    rfl
  have hC : (TRIE_CHAR_MAX : ℤ) = 255 := by
    rw [TRIE_CHAR_MAX]
    rfl
  have hs2 : (2 : ℤ) ≤ s := by
    rcases hs with rfl | hsu
    · omega
    · have := hsu.1
      rw [DA_POOL_BEGIN] at this
      omega
  have hDx0 := DAWF_to_DAWFx h hbs hob3
  have hDx0b : DAWFx d fl s
      ((d.output_symbols s).map (fun sym : ℕ => ob + (sym : ℤ)) ++
        ([] : List ℤ)) := by
    rw [List.append_nil]
    exact hDx0
  have hch : ∀ sym ∈ d.output_symbols s, InUse d fl (ob + (sym : ℤ)) ∧
      d.get_check (ob + (sym : ℤ)) = some s := by
    intro sym hm
    rw [mem_output_symbols, hgd] at hm
    obtain ⟨-, hcks⟩ := hm
    have hbnds := get_check_some_bounds hcks
    refine ⟨⟨?_, by omega, ?_⟩, hcks⟩
    · rw [DA_POOL_BEGIN]
      omega
    · intro hmf
      obtain ⟨v, hv, hvneg⟩ := FLOK_neg_of_mem h.1 hmf
      rw [hcks] at hv
      injection hv with h9
      omega
  obtain ⟨d1, fl1, hevalF, hDx1, hlen1, hfl1a, hfl1b⟩ :=
    DAWFx_reloc_fold (d.output_symbols s) d fl []
      (output_symbols_pairwise d s) hDx0b hch hfree
  have hsodall : ∀ sym ∈ d.output_symbols s, s ≠ ob + (sym : ℤ) := by
    intro sym hm
    obtain ⟨hin, hck⟩ := hch sym hm
    obtain ⟨v, w, hv, -, -, hvi, -, -, -, -, -, -⟩ := h.2.2.2.2.1 _ hin
    rw [hck] at hv
    injection hv with h9
    rw [← h9] at hvi
    exact hvi
  have hsnotfl : s ∉ fl := by
    rcases hs with rfl | hsu
    · intro hm
      have := FLOK_bounds h.1 2 hm
      omega
    · exact hsu.2.2
  have hsnot1 : s ∉ fl1 := by
    intro hm
    rcases hfl1a s hm with h9 | h9
    · exact hsnotfl h9
    · obtain ⟨sym, hm2, h8⟩ := h9
      exact hsodall sym hm2 h8
  have hslen : 0 ≤ s ∧ s.toNat < d1.cells.length := by
    rw [hlen1]
    rcases hs with rfl | hsu
    · have h3 := h.1.1
      omega
    · have h0 := hsu.1
      rw [DA_POOL_BEGIN] at h0
      have h1 := hsu.2.1
      omega
  obtain ⟨hfl1, hc01, hc21, hb21, hocc1, hxcl1, rank1, hrank1⟩ := hDx1
  have hiuB : ∀ i, InUse (d1.set_base s nb) fl1 i ↔ InUse d1 fl1 i := by
    intro i
    rw [InUse, InUse, length_set_base]
  have hDxB : DAWFx (d1.set_base s nb) fl1 s
      ((d.output_symbols s).map (fun sym : ℕ => nb + (sym : ℤ)) ++
        ([] : List ℤ)) := by
    refine ⟨FLOK_set_base_frame hfl1 (by omega) hsnot1, ?_, ?_, ?_, ?_, ?_,
      rank1, ?_⟩
    · rw [length_set_base, get_check_set_base]
      exact hc01
    · rw [get_check_set_base]
      exact hc21
    · by_cases hs2e : s = 2
      · subst hs2e
        refine ⟨nb, get_base_set_base_self _ _ _ hslen.1 hslen.2, Or.inr ?_⟩
        rw [DA_POOL_BEGIN]
        exact hnb3
      · obtain ⟨w, hw, hwa⟩ := hb21
        exact ⟨w, by
          rw [get_base_set_base_other _ _ _ _ hs2e]
          exact hw, hwa⟩
    · intro i hi hckne
      rw [get_check_set_base] at hckne
      obtain ⟨v, w, hv, hw, hwr, hvi, hvp, bv, hbv, hbv0, hbv1, hbv2⟩ :=
        hocc1 i ((hiuB i).mp hi) hckne
      have hvs : v ≠ s := by
        intro hh
        rw [hh] at hv
        exact hckne hv
      by_cases his : i = s
      · subst his
        refine ⟨v, nb, by rw [get_check_set_base]; exact hv,
          get_base_set_base_self _ _ _ hslen.1 hslen.2, Or.inr ?_, hvi, ?_,
          bv, ?_, hbv0, hbv1, hbv2⟩
        · rw [DA_POOL_BEGIN]
          exact hnb3
        · rcases hvp with rfl | hvu
          · exact Or.inl rfl
          · exact Or.inr ((hiuB v).mpr hvu)
        · rw [get_base_set_base_other _ _ _ _ (fun hh => hvs hh.symm)]
          exact hbv
      · refine ⟨v, w, by rw [get_check_set_base]; exact hv,
          by rw [get_base_set_base_other _ _ _ _ (fun hh => his hh.symm)]
             exact hw, hwr, hvi, ?_, bv, ?_, hbv0, hbv1, hbv2⟩
        · rcases hvp with rfl | hvu
          · exact Or.inl rfl
          · exact Or.inr ((hiuB v).mpr hvu)
        · rw [get_base_set_base_other _ _ _ _ (fun hh => hvs hh.symm)]
          exact hbv
    · intro i hi hck
      rw [get_check_set_base] at hck
      obtain ⟨hmem, w, hw, hwa, hsi, hsu1⟩ := hxcl1 i ((hiuB i).mp hi) hck
      refine ⟨hmem, w, ?_, hwa, hsi, ?_⟩
      · rw [get_base_set_base_other _ _ _ _ hsi]
        exact hw
      · rcases hsu1 with rfl | hsu1
        · exact Or.inl rfl
        · exact Or.inr ((hiuB s).mpr hsu1)
    · intro i hi v hv
      rw [get_check_set_base] at hv
      exact hrank1 i ((hiuB i).mp hi) v hv
  have hbs2 : (d1.set_base s nb).get_base s = some nb :=
    get_base_set_base_self _ _ _ hslen.1 hslen.2
  have hM : ∀ m ∈ ((d.output_symbols s).map
      (fun sym : ℕ => nb + (sym : ℤ)) ++ ([] : List ℤ)),
      nb ≤ m ∧ m ≤ nb + (TRIE_CHAR_MAX : ℤ) := by
    intro m hm
    rw [List.append_nil, List.mem_map] at hm
    obtain ⟨sym, hmem, rfl⟩ := hm
    rw [mem_output_symbols, hgd] at hmem
    have h1 := hmem.1
    constructor
    · omega
    · rcases le_total (TRIE_CHAR_MAX : ℤ) ((d.cells.length : ℤ) - ob)
          with h9 | h9
      · rw [min_eq_left h9] at h1
        omega
      · rw [min_eq_right h9] at h1
        omega
  refine ⟨d1.set_base s nb, fl1, ?_, DAWFx_to_DAWF hDxB hbs2 hnb3 hM,
    ?_, hbs2, ?_, ?_⟩
  · rw [relocate_base_eval hgd, hevalF]
    rfl
  · rw [length_set_base, hlen1]
  · rcases hs with rfl | hsu
    · exact Or.inl rfl
    · refine Or.inr ⟨hsu.1, ?_, hsnot1⟩
      rw [length_set_base, hlen1]
      exact hsu.2.1
  · intro x hx hne
    exact hfl1b x hx hne


/-- Membership in `symbolsAdd`. -/
theorem mem_symbolsAdd {l : List ℕ} {c x : ℕ} :
    x ∈ symbolsAdd l c ↔ x ∈ l ∨ x = c := by
  induction l with
  | nil =>
    simp [symbolsAdd]
  | cons a as ih =>
    rw [symbolsAdd]
    by_cases h1 : c < a
    · rw [if_pos h1]
      simp only [List.mem_cons]
      tauto
    · rw [if_neg h1]
      by_cases h2 : c = a
      · rw [if_pos h2]
        subst h2
        simp only [List.mem_cons]
        tauto
      · rw [if_neg h2]
        simp only [List.mem_cons, ih]
        tauto

/-- Evaluation of `ib_reloc` as a bind over `find_free_base`. -/
theorem ib_reloc_bind (d : DArray) (s : ℤ) (c : ℕ) :
    d.ib_reloc s c =
      Res.bind (d.find_free_base (symbolsAdd (d.output_symbols s) c))
        (fun p =>
          if p.2 = 0 then Res.ok (p.1, TRIE_INDEX_ERROR)
          else Res.bind (p.1.relocate_base s p.2)
            (fun d2 => d2.ib_alloc s (p.2 + (c : ℤ)))) := rfl


set_option maxHeartbeats 1000000 in
/-- The relocation path of `insert_branch` preserves the invariant. -/
theorem DAWF_ib_reloc {d : DArray} {fl : List ℤ} {s : ℤ} {c : ℕ} {ob : ℤ}
    (h : DAWF d fl) (hs : s = 2 ∨ InUse d fl s)
    (hbs : d.get_base s = some ob) (hob3 : 3 ≤ ob)
    (hc255 : (c : ℤ) ≤ (TRIE_CHAR_MAX : ℤ))
    (hcnot : c ∉ d.output_symbols s) :
    ∀ dr r, d.ib_reloc s c = .ok (dr, r) → ∃ flr, DAWF dr flr := by
  intro dr r heq
  rw [ib_reloc_bind] at heq
  rcases hE : d.find_free_base (symbolsAdd (d.output_symbols s) c)
    with ⟨d1, nb⟩ | _ | _ | _
  · rw [hE] at heq
    simp only [Res.bind] at heq
    obtain ⟨fl1, hD1, hsub1, hlen1, hr1, hN1, hF1, hC1⟩ := DAWF_ffb h hE
    by_cases hnb0 : nb = 0
    · rw [if_pos hnb0] at heq
      injection heq with heq2
      injection heq2 with h10 h11
      subst h10
      exact ⟨fl1, hD1⟩
    · rw [if_neg hnb0] at heq
      rcases hr1 with h9 | ⟨hnb3, hwin⟩
      · exact absurd h9 hnb0
      have hs2le : (2 : ℤ) ≤ s := by
        rcases hs with rfl | hsu
        · omega
        · have := hsu.1
          rw [DA_POOL_BEGIN] at this
          omega
      have hslen : s < (d.cells.length : ℤ) := by
        rcases hs with rfl | hsu
        · have := h.1.1
          omega
        · exact hsu.2.1
      have hsnotfl : s ∉ fl := by
        rcases hs with rfl | hsu
        · intro hm
          have := FLOK_bounds h.1 2 hm
          omega
        · exact hsu.2.2
      have hFs := hF1 s (by omega) hslen hsnotfl
      have hbs1 : d1.get_base s = some ob := by
        rw [hFs.2]
        exact hbs
      have hs1 : s = 2 ∨ InUse d1 fl1 s := by
        rcases hs with rfl | hsu
        · exact Or.inl rfl
        · refine Or.inr ⟨hsu.1, by omega, ?_⟩
          intro hm
          rcases hN1 s hm with h8 | h8
          · exact hsnotfl h8
          · omega
      have hgd1 : (d1.get_base s).getD TRIE_INDEX_ERROR = ob := by
        rw [hbs1]
        rfl
      have hgd0 : (d.get_base s).getD TRIE_INDEX_ERROR = ob := by
        rw [hbs]
        rfl
      have hsubout : ∀ sym : ℕ, sym ∈ d1.output_symbols s →
          sym ∈ d.output_symbols s := by
        intro sym hm
        rw [mem_output_symbols, hgd1] at hm
        obtain ⟨hmb, hmc⟩ := hm
        have hpb := get_check_some_bounds hmc
        have hpfl : (ob + (sym : ℤ)) ∉ fl1 := by
          intro hmf
          obtain ⟨v, hv, hvneg⟩ := FLOK_neg_of_mem hD1.1 hmf
          rw [hmc] at hv
          injection hv with h8
          omega
        have hplen : ob + (sym : ℤ) < (d.cells.length : ℤ) := by
          by_contra hge
          exact hpfl (hC1 _ (by omega) (by omega))
        have hpfl0 : (ob + (sym : ℤ)) ∉ fl := fun hm9 =>
          hpfl (hsub1 _ hm9)
        have hFp := hF1 (ob + (sym : ℤ)) (by omega) hplen hpfl0
        rw [mem_output_symbols, hgd0]
        have hmin : min (TRIE_CHAR_MAX : ℤ)
            ((d1.cells.length : ℤ) - ob) ≤ (TRIE_CHAR_MAX : ℤ) :=
          min_le_left _ _
        refine ⟨?_, by rw [← hFp.1]; exact hmc⟩
        rcases le_total (TRIE_CHAR_MAX : ℤ) ((d.cells.length : ℤ) - ob)
            with h8 | h8
        · rw [min_eq_left h8]
          omega
        · rw [min_eq_right h8]
          omega
      have hfree1 : ∀ sym ∈ d1.output_symbols s,
          nb + (sym : ℤ) ∈ fl1 := by
        intro sym hm
        exact (hwin sym (mem_symbolsAdd.mpr (Or.inl (hsubout sym hm)))).1
      obtain ⟨d2, fl2, heval2, hD2, hlen2, hbs2, hs2s, hper2⟩ :=
        DAWF_relocate_base hD1 hbs1 hob3 hnb3 hs1 hfree1
      rw [heval2] at heq
      simp only [Res.bind] at heq
      have hnbc : nb + (c : ℤ) ∈ fl2 := by
        refine hper2 _ (hwin c (mem_symbolsAdd.mpr (Or.inr rfl))).1 ?_
        intro sym hm hh
        have hcs : c = sym := by omega
        exact hcnot (hcs ▸ hsubout sym hm)
      have hsnext : s ≠ nb + (c : ℤ) := by
        rcases hs2s with rfl | hsu
        · omega
        · intro hh
          exact hsu.2.2 (hh ▸ hnbc)
      obtain ⟨l1, l2, d3, hsplit3, heval3, hD3, -, -, -, -⟩ :=
        DAWF_ib_alloc hD2 hnbc hs2s hsnext
          ⟨nb, hbs2, hnb3, by omega, by omega⟩
      rw [heval3] at heq
      injection heq with heq2
      injection heq2 with h10 h11
      subst h10
      exact ⟨l1 ++ l2, hD3⟩
  · rw [hE] at heq
    exact Res.noConfusion heq
  · rw [hE] at heq
    exact Res.noConfusion heq
  · rw [hE] at heq
    exact Res.noConfusion heq


/-- Evaluation of `insert_branch` with its scrutinees exposed. -/
theorem insert_branch_eval (d : DArray) (s : ℤ) (c : ℕ) :
    d.insert_branch s c =
      (if (d.get_base s).getD TRIE_INDEX_ERROR > TRIE_INDEX_ERROR then
        if d.get_check ((d.get_base s).getD TRIE_INDEX_ERROR + (c : ℤ)) =
            some s then
          .ok (d, (d.get_base s).getD TRIE_INDEX_ERROR + (c : ℤ))
        else if (d.get_base s).getD TRIE_INDEX_ERROR >
            TRIE_INDEX_MAX - (c : ℤ) then d.ib_reloc s c
        else
          if (d.check_free_cell ((d.get_base s).getD TRIE_INDEX_ERROR +
              (c : ℤ))).2 then
            (d.check_free_cell ((d.get_base s).getD TRIE_INDEX_ERROR +
              (c : ℤ))).1.ib_alloc s
              ((d.get_base s).getD TRIE_INDEX_ERROR + (c : ℤ))
          else (d.check_free_cell ((d.get_base s).getD TRIE_INDEX_ERROR +
            (c : ℤ))).1.ib_reloc s c
      else
        Res.bind (d.find_free_base [c]) (fun p =>
          if p.2 = 0 then Res.ok (p.1, TRIE_INDEX_ERROR)
          else (p.1.set_base s p.2).ib_alloc s (p.2 + (c : ℤ)))) := rfl


/-- Rewriting the base of a childless cell preserves the invariant. -/
theorem DAWF_set_base_childless {d : DArray} {fl : List ℤ} {s nb : ℤ}
    (h : DAWF d fl) (hs : s = 2 ∨ InUse d fl s) (hnb3 : 3 ≤ nb)
    (hnoc : ∀ i, InUse d fl i → d.get_check i ≠ some s) :
    DAWF (d.set_base s nb) fl := by
  obtain ⟨hfl, hc0, hc2, hb2, hocc, rank, hrank⟩ := h
  have hs2le : (2 : ℤ) ≤ s := by
    rcases hs with rfl | hsu
    · omega
    · have := hsu.1
      rw [DA_POOL_BEGIN] at this
      omega
  have hsnotfl : s ∉ fl := by
    rcases hs with rfl | hsu
    · intro hm
      have := FLOK_bounds hfl 2 hm
      omega
    · exact hsu.2.2
  have hslen : 0 ≤ s ∧ s.toNat < d.cells.length := by
    rcases hs with rfl | hsu
    · have := hfl.1
      omega
    · have h0 := hsu.1
      rw [DA_POOL_BEGIN] at h0
      have h1 := hsu.2.1
      omega
  have hiuB : ∀ i, InUse (d.set_base s nb) fl i ↔ InUse d fl i := by
    intro i
    rw [InUse, InUse, length_set_base]
  refine ⟨FLOK_set_base_frame hfl (by omega) hsnotfl, ?_, ?_, ?_, ?_,
    rank, ?_⟩
  · rw [length_set_base, get_check_set_base]
    exact hc0
  · rw [get_check_set_base]
    exact hc2
  · by_cases hs2e : s = 2
    · subst hs2e
      exact ⟨nb, get_base_set_base_self _ _ _ hslen.1 hslen.2,
        Or.inr (by rw [DA_POOL_BEGIN]; exact hnb3)⟩
    · obtain ⟨w, hw, hwa⟩ := hb2
      exact ⟨w, by rw [get_base_set_base_other _ _ _ _ hs2e]; exact hw, hwa⟩
  · intro i hi
    have hi0 := (hiuB i).mp hi
    obtain ⟨v, w, hv, hw, hwr, hvi, hvp, bv, hbv, hbv0, hbv1, hbv2⟩ :=
      hocc i hi0
    have hvs : v ≠ s := by
      intro hh
      rw [hh] at hv
      exact hnoc i hi0 hv
    by_cases his : i = s
    · subst his
      refine ⟨v, nb, by rw [get_check_set_base]; exact hv,
        get_base_set_base_self _ _ _ hslen.1 hslen.2,
        Or.inr (by rw [DA_POOL_BEGIN]; exact hnb3), hvi, ?_, bv,
        by rw [get_base_set_base_other _ _ _ _ (fun hh => hvs hh.symm)]
           exact hbv,
        hbv0, hbv1, hbv2⟩
      rcases hvp with rfl | hvu
      · exact Or.inl rfl
      · exact Or.inr ((hiuB v).mpr hvu)
    · refine ⟨v, w, by rw [get_check_set_base]; exact hv,
        by rw [get_base_set_base_other _ _ _ _ (fun hh => his hh.symm)]
           exact hw,
        hwr, hvi, ?_, bv,
        by rw [get_base_set_base_other _ _ _ _ (fun hh => hvs hh.symm)]
           exact hbv,
        hbv0, hbv1, hbv2⟩
      rcases hvp with rfl | hvu
      · exact Or.inl rfl
      · exact Or.inr ((hiuB v).mpr hvu)
  · intro i hi v hv
    rw [get_check_set_base] at hv
    exact hrank i ((hiuB i).mp hi) v hv


set_option maxHeartbeats 2000000 in
/-- `insert_branch` preserves the invariant on every success path:
the existing-edge return, the allocation of a free window cell, the
relocation path, and the fresh-base path. -/
theorem DAWF_insert_branch {d : DArray} {fl : List ℤ} {s : ℤ} {c : ℕ}
    (h : DAWF d fl) (hs : s = 2 ∨ InUse d fl s)
    (hc255 : (c : ℤ) ≤ (TRIE_CHAR_MAX : ℤ)) :
    ∀ dr r, d.insert_branch s c = .ok (dr, r) → ∃ flr, DAWF dr flr := by
  intro dr r heq
  rw [insert_branch_eval] at heq
  have hs2le : (2 : ℤ) ≤ s := by
    rcases hs with rfl | hsu
    · omega
    · have := hsu.1
      rw [DA_POOL_BEGIN] at this
      omega
  have hslen : s < (d.cells.length : ℤ) := by
    rcases hs with rfl | hsu
    · have := h.1.1
      omega
    · exact hsu.2.1
  have hsnotfl : s ∉ fl := by
    rcases hs with rfl | hsu
    · intro hm
      have := FLOK_bounds h.1 2 hm
      omega
    · exact hsu.2.2
  obtain ⟨b, hb⟩ := get_base_isSome d s (by omega) (by omega)
  have hgd : (d.get_base s).getD TRIE_INDEX_ERROR = b := by
    rw [hb]
    rfl
  rw [hgd] at heq
  have hbarm : b ≤ 0 ∨ 3 ≤ b := by
    rcases hs with rfl | hsu
    · obtain ⟨w, hw, hwa⟩ := h.2.2.2.1
      rw [hb] at hw
      injection hw with h9
      rcases hwa with h8 | h8
      · exact Or.inl (by omega)
      · rw [DA_POOL_BEGIN] at h8
        exact Or.inr (by omega)
    · obtain ⟨v, w, hv, hw, hwa, -, -, -, -, -, -, -⟩ :=
        h.2.2.2.2.1 s hsu
      rw [hb] at hw
      injection hw with h9
      rcases hwa with h8 | h8
      · exact Or.inl (by omega)
      · rw [DA_POOL_BEGIN] at h8
        exact Or.inr (by omega)
  by_cases hbp : b > TRIE_INDEX_ERROR
  · rw [if_pos hbp] at heq
    have hb3 : (3 : ℤ) ≤ b := by
      rw [TRIE_INDEX_ERROR] at hbp
      rcases hbarm with h8 | h8
      · omega
      · exact h8
    by_cases hchk : d.get_check (b + (c : ℤ)) = some s
    · rw [if_pos hchk] at heq
      injection heq with heq2
      injection heq2 with h10 h11
      subst h10
      exact ⟨fl, h⟩
    · rw [if_neg hchk] at heq
      have hcnot : c ∉ d.output_symbols s := by
        intro hm
        rw [mem_output_symbols, hgd] at hm
        exact hchk hm.2
      by_cases hover : b > TRIE_INDEX_MAX - (c : ℤ)
      · rw [if_pos hover] at heq
        exact DAWF_ib_reloc h hs hb hb3 hc255 hcnot dr r heq
      · rw [if_neg hover] at heq
        obtain ⟨d1, free, fl1, hcfc, hD1, hsub1, hlen1, hfr1, hN1, hF1,
          hC1⟩ := @DAWF_check_free_cell d fl (b + (c : ℤ)) h (by omega)
        rw [hcfc] at heq
        have hFs := hF1 s (by omega) hslen hsnotfl
        have hbs1 : d1.get_base s = some b := by
          rw [hFs.2]
          exact hb
        have hs1 : s = 2 ∨ InUse d1 fl1 s := by
          rcases hs with rfl | hsu
          · exact Or.inl rfl
          · refine Or.inr ⟨hsu.1, by omega, ?_⟩
            intro hm
            rcases hN1 s hm with h8 | h8
            · exact hsnotfl h8
            · omega
        cases free with
        | true =>
          simp only [] at heq
          obtain ⟨hnmem, hnlen⟩ := hfr1 rfl
          have hsnext : s ≠ b + (c : ℤ) := by
            rcases hs1 with rfl | hsu
            · omega
            · intro hh
              exact hsu.2.2 (hh ▸ hnmem)
          obtain ⟨l1, l2, d3, hsplit3, heval3, hD3, -, -, -, -⟩ :=
            DAWF_ib_alloc hD1 hnmem hs1 hsnext
              ⟨b, hbs1, hb3, by omega, by omega⟩
          rw [heval3] at heq
          injection heq with heq2
          injection heq2 with h10 h11
          subst h10
          exact ⟨l1 ++ l2, hD3⟩
        | false =>
          simp only [] at heq
          have hcnot1 : c ∉ d1.output_symbols s := by
            intro hm
            rw [mem_output_symbols] at hm
            have hgd1 : (d1.get_base s).getD TRIE_INDEX_ERROR = b := by
              rw [hbs1]
              rfl
            rw [hgd1] at hm
            obtain ⟨-, hmc⟩ := hm
            have hnfl1 : (b + (c : ℤ)) ∉ fl1 := by
              intro hmf
              obtain ⟨v, hv, hvneg⟩ := FLOK_neg_of_mem hD1.1 hmf
              rw [hmc] at hv
              injection hv with h8
              omega
            have hlt : b + (c : ℤ) < (d.cells.length : ℤ) := by
              by_contra hge
              have := get_check_some_bounds hmc
              exact hnfl1 (hC1 _ (by omega) (by omega))
            have hnfl : (b + (c : ℤ)) ∉ fl := fun hm9 =>
              hnfl1 (hsub1 _ hm9)
            have hFp := hF1 (b + (c : ℤ)) (by omega) hlt hnfl
            rw [hFp.1] at hmc
            exact hchk hmc
          exact DAWF_ib_reloc hD1 hs1 hbs1 hb3 hc255 hcnot1 dr r heq
  · rw [if_neg hbp] at heq
    have hble : b ≤ 0 := by
      rw [TRIE_INDEX_ERROR] at hbp
      omega
    rcases hE : d.find_free_base [c] with ⟨d1, nb⟩ | _ | _ | _
    · rw [hE] at heq
      simp only [Res.bind] at heq
      obtain ⟨fl1, hD1, hsub1, hlen1, hr1, hN1, hF1, hC1⟩ := DAWF_ffb h hE
      by_cases hnb0 : nb = 0
      · rw [if_pos hnb0] at heq
        injection heq with heq2
        injection heq2 with h10 h11
        subst h10
        exact ⟨fl1, hD1⟩
      · rw [if_neg hnb0] at heq
        rcases hr1 with h9 | ⟨hnb3, hwin⟩
        · exact absurd h9 hnb0
        have hFs := hF1 s (by omega) hslen hsnotfl
        have hbs1 : d1.get_base s = some b := by
          rw [hFs.2]
          exact hb
        have hs1 : s = 2 ∨ InUse d1 fl1 s := by
          rcases hs with rfl | hsu
          · exact Or.inl rfl
          · refine Or.inr ⟨hsu.1, by omega, ?_⟩
            intro hm
            rcases hN1 s hm with h8 | h8
            · exact hsnotfl h8
            · omega
        have hnoc1 : ∀ i, InUse d1 fl1 i → d1.get_check i ≠ some s := by
          intro i hi hck
          obtain ⟨v, w, hv, -, -, -, -, bv, hbv, hbv0, -, -⟩ :=
            hD1.2.2.2.2.1 i hi
          rw [hck] at hv
          injection hv with h9
          rw [← h9] at hbv
          rw [hbs1] at hbv
          injection hbv with h8
          rw [DA_POOL_BEGIN] at hbv0
          omega
        have hD1B := DAWF_set_base_childless hD1 hs1 hnb3 hnoc1
        obtain ⟨hcm, hclen⟩ := hwin c (List.mem_cons_self c [])
        have hs1B : s = 2 ∨ InUse (d1.set_base s nb) fl1 s := by
          rcases hs1 with rfl | hsu
          · exact Or.inl rfl
          · refine Or.inr ⟨hsu.1, ?_, hsu.2.2⟩
            rw [length_set_base]
            exact hsu.2.1
        have hsnext : s ≠ nb + (c : ℤ) := by
          rcases hs1 with rfl | hsu
          · omega
          · intro hh
            exact hsu.2.2 (hh ▸ hcm)
        have hslenB : 0 ≤ s ∧ s.toNat < d1.cells.length := by
          constructor
          · omega
          · omega
        obtain ⟨l1, l2, d3, hsplit3, heval3, hD3, -, -, -, -⟩ :=
          DAWF_ib_alloc hD1B hcm hs1B hsnext
            ⟨nb, get_base_set_base_self _ _ _ hslenB.1 hslenB.2,
              hnb3, by omega, by omega⟩
        rw [heval3] at heq
        injection heq with heq2
        injection heq2 with h10 h11
        subst h10
        exact ⟨l1 ++ l2, hD3⟩
    · rw [hE] at heq
      exact Res.noConfusion heq
    · rw [hE] at heq
      exact Res.noConfusion heq
    · rw [hE] at heq
      exact Res.noConfusion heq


/-- A cell inside the character window of a state with its check
pointing there makes `has_children` true. -/
theorem has_children_of_child {d : DArray} {s b i : ℤ}
    (hb : d.get_base s = some b) (hb3 : 3 ≤ b)
    (hbi : b ≤ i) (hbi2 : i ≤ b + (TRIE_CHAR_MAX : ℤ))
    (hilen : i < (d.cells.length : ℤ))
    (hck : d.get_check i = some s) :
    d.has_children s = true := by
  have hC : (TRIE_CHAR_MAX : ℤ) = 255 := by
    rw [TRIE_CHAR_MAX]
    rfl
  unfold DArray.has_children
  simp only [hb]
  rw [if_neg (by omega)]
  rw [List.any_eq_true]
  refine ⟨(i - b).toNat, ?_, ?_⟩
  · rw [List.mem_range]
    rcases le_total (TRIE_CHAR_MAX : ℤ) ((d.cells.length : ℤ) - b)
        with h9 | h9
    · rw [min_eq_left h9]
      omega
    · rw [min_eq_right h9]
      omega
  · rw [decide_eq_true_eq, show b + (((i - b).toNat : ℕ) : ℤ) = i by omega]
    exact hck

set_option maxHeartbeats 1000000 in
/-- The ascent loop of `prune_upto` with the root as the stop cell
preserves the invariant: it frees childless in-use cells one by one,
following the parent pointers. -/
theorem DAWF_prune_upto_loop :
    ∀ (n : ℕ) (d : DArray) (fl : List ℤ) (s : ℤ), DAWF d fl →
      (s = 2 ∨ InUse d fl s) →
      ∀ d1, DArray.prune_upto_loop 2 n d s = .ok d1 →
      ∃ fl1, DAWF d1 fl1 := by
  intro n
  induction n with
  | zero =>
    intro d fl s h hs d1 heq
    exact Res.noConfusion heq
  | succ n ih =>
    intro d fl s h hs d1 heq
    rw [DArray.prune_upto_loop] at heq
    by_cases hcond : (2 : ℤ) ≠ s ∧ ¬ d.has_children s
    · rw [if_pos hcond] at heq
      rcases hs with rfl | hsu
      · exact absurd rfl hcond.1
      · obtain ⟨v, w, hv, hw, hwr, hvi, hvp, bv, hbv, hbv0, hbv1, hbv2⟩ :=
          h.2.2.2.2.1 s hsu
        simp only [hv] at heq
        have hs3 : (3 : ℤ) ≤ s := by
          have := hsu.1
          rw [DA_POOL_BEGIN] at this
          exact this
        have hnoc : ∀ i v2, InUse d fl i → d.get_check i = some v2 →
            v2 ≠ s := by
          intro i v2 hi hck hveq
          rw [hveq] at hck
          obtain ⟨v3, w3, hv3, -, -, -, -, bv3, hbv3, hbv30, hbv31,
            hbv32⟩ := h.2.2.2.2.1 i hi
          rw [hck] at hv3
          injection hv3 with h9
          rw [← h9] at hbv3
          rw [DA_POOL_BEGIN] at hbv30
          exact hcond.2 (has_children_of_child hbv3 hbv30 hbv31 hbv32
            hi.2.1 hck)
        obtain ⟨l1, l2, d2, hsplit, hlt, hgt, heval, hD2, hlen2, hframe⟩ :=
          DAWF_free h hsu.2.2 hs3 hsu.2.1 hnoc
        rw [heval] at heq
        have heq2 : DArray.prune_upto_loop 2 n d2 v = .ok d1 := heq
        have hvp2 : v = 2 ∨ InUse d2 (l1 ++ s :: l2) v := by
          rcases hvp with rfl | hvu
          · exact Or.inl rfl
          · refine Or.inr ⟨hvu.1, by rw [hlen2]; exact hvu.2.1, ?_⟩
            intro hm
            rw [hsplit] at hvu
            rcases List.mem_append.mp hm with h8 | h8
            · exact hvu.2.2 (List.mem_append.mpr (Or.inl h8))
            · rcases List.mem_cons.mp h8 with h7 | h7
              · exact hvi h7
              · exact hvu.2.2 (List.mem_append.mpr (Or.inr h7))
        exact ih d2 _ v hD2 hvp2 d1 heq2
    · rw [if_neg hcond] at heq
      injection heq with h10
      subst h10
      exact ⟨fl, h⟩

/-- `prune_upto` from the root preserves the invariant. -/
theorem DAWF_prune_upto {d : DArray} {fl : List ℤ} {s : ℤ}
    (h : DAWF d fl) (hs : s = 2 ∨ InUse d fl s) :
    ∀ d1, d.prune_upto 2 s = .ok d1 → ∃ fl1, DAWF d1 fl1 :=
  fun d1 heq =>
    DAWF_prune_upto_loop (d.cells.length + 2) d fl s h hs d1 heq

/-- `prune` preserves the invariant. -/
theorem DAWF_prune {d : DArray} {fl : List ℤ} {s : ℤ}
    (h : DAWF d fl) (hs : s = 2 ∨ InUse d fl s) :
    ∀ d1, d.prune s = .ok d1 → ∃ fl1, DAWF d1 fl1 :=
  fun d1 heq => DAWF_prune_upto h hs d1 heq

/-- C6: on a structurally well-formed double array with free list
`fl`, every free cell has a negative check; the `-check` walk from the
free-list head returns to the head after visiting exactly the free
cells, each once (the walk lists precisely `fl`, which has no
duplicates); `extend_pool` preserves well-formedness, appending the
new cells to the free list; `alloc_cell` of a free cell unlinks
exactly that cell; `free_cell` splices the freed cell between the
smaller and the larger free indices, keeping the list ascending; and
`insert_branch` and `prune` preserve well-formedness whenever they
succeed on an occupied (or root) state. -/
theorem C6_free_list_wf (d : DArray) (fl : List ℤ) (h : DAWF d fl) :
    (∀ f ∈ fl, ∃ v, d.get_check f = some v ∧ v < 0) ∧
    (∀ n, fl.length < n → ringWalk d n 1 = fl) ∧
    fl.Nodup ∧
    (∀ ti, (d.cells.length : ℤ) ≤ ti → ti < TRIE_INDEX_MAX →
      ∃ d2, d.extend_pool ti = (d2, true) ∧
        DAWF d2 (fl ++ intRange (d.cells.length : ℤ) ti)) ∧
    (∀ c ∈ fl, ∃ l1 l2 d2, fl = l1 ++ c :: l2 ∧ d.alloc_cell c = .ok d2 ∧
      FLOK d2 (l1 ++ l2)) ∧
    (∀ c, c ∉ fl → 3 ≤ c → c < (d.cells.length : ℤ) →
      (∀ i v, InUse d fl i → d.get_check i = some v → v ≠ c) →
      ∃ l1 l2 d2, fl = l1 ++ l2 ∧ (∀ x ∈ l1, x < c) ∧ (∀ y ∈ l2, c < y) ∧
        d.free_cell c = .ok d2 ∧ DAWF d2 (l1 ++ c :: l2)) ∧
    (∀ s (c : ℕ), (s = 2 ∨ InUse d fl s) → (c : ℤ) ≤ (TRIE_CHAR_MAX : ℤ) →
      ∀ dr r, d.insert_branch s c = .ok (dr, r) → ∃ flr, DAWF dr flr) ∧
    (∀ s, (s = 2 ∨ InUse d fl s) →
      ∀ d1, d.prune s = .ok d1 → ∃ fl1, DAWF d1 fl1) := by
  refine ⟨fun f hf => FLOK_neg_of_mem h.1 hf, ?_, chain_lt_nodup h.1.2.1,
    ?_, ?_, ?_, ?_, ?_⟩
  · exact FLTail_ringWalk h.1.2.2.2.1 (fun x hx => by
      have hx3 := (h.1.2.2.1 x hx).1
      rw [DA_POOL_BEGIN] at hx3
      omega)
  · intro ti hle hmax
    obtain ⟨heq, hd, _, _⟩ := DAWF_extend h hle hmax
    exact ⟨extendRes d ti, heq, hd⟩
  · intro c hc
    obtain ⟨l1, l2, hsplit, heval, hok, _, _⟩ := FLOK_alloc h.1 hc
    exact ⟨l1, l2, _, hsplit, heval, hok⟩
  · intro c h1 h2 h3 h4
    obtain ⟨l1, l2, d2, hsplit, hlt, hgt, heval, hd, _, _⟩ :=
      DAWF_free h h1 h2 h3 h4
    exact ⟨l1, l2, d2, hsplit, hlt, hgt, heval, hd⟩
  · intro s c hs hc
    exact DAWF_insert_branch h hs hc
  · intro s hs
    exact DAWF_prune h hs

/-- Witness for C6 on the concrete pool `wC6da`: its free list is
`[3]`, the ring walk from the head lists exactly `[3]`, cell `3` has
a negative check, and `alloc_cell 3` unlinks it. -/
theorem C6_witness :
    DAWF wC6da [3] ∧
    (∃ v, wC6da.get_check 3 = some v ∧ v < 0) ∧
    ringWalk wC6da 2 1 = [3] ∧
    (∃ l1 l2 d2, [(3 : ℤ)] = l1 ++ 3 :: l2 ∧ wC6da.alloc_cell 3 = .ok d2 ∧
      FLOK d2 (l1 ++ l2)) := by
  have hD : DAWF wC6da [3] := by
    refine ⟨⟨by decide, List.chain'_singleton _, by decide,
        ⟨⟨⟨by decide, by decide, rfl⟩, by decide⟩, by decide⟩⟩,
      by decide, by decide, ⟨3, by decide, Or.inr (by decide)⟩, ?_,
      ⟨fun i => if i = 2 then 0 else 1, ?_⟩⟩
    · intro i hi
      have hi4 : i = 4 := by
        obtain ⟨ha, hb, hc⟩ := hi
        rw [DA_POOL_BEGIN] at ha
        have : i ≠ 3 := by
          intro hx
          exact hc (hx ▸ List.mem_singleton.mpr rfl)
        have hlen : (wC6da.cells.length : ℤ) = 5 := by decide
        rw [hlen] at hb
        omega
      subst hi4
      exact ⟨2, -1, by decide, by decide, Or.inl (by decide), by decide,
        Or.inl rfl, 3, by decide, by decide, by decide, by decide⟩
    · intro i hi v hv
      have hi4 : i = 4 := by
        obtain ⟨ha, hb, hc⟩ := hi
        rw [DA_POOL_BEGIN] at ha
        have : i ≠ 3 := by
          intro hx
          exact hc (hx ▸ List.mem_singleton.mpr rfl)
        have hlen : (wC6da.cells.length : ℤ) = 5 := by decide
        rw [hlen] at hb
        omega
      subst hi4
      have hv2 : v = 2 := by
        rw [show wC6da.get_check 4 = some 2 from by decide] at hv
        exact (Option.some.injEq _ _).mp hv.symm
      subst hv2
      decide
  have hres := C6_free_list_wf wC6da [3] hD
  exact ⟨hD, hres.1 3 (by decide), hres.2.1 2 (by decide),
    hres.2.2.2.2.1 3 (by decide)⟩

/-- C1: the hand-off between the two sub-walks of retrieve: when the
double-array walk stops at a separate state `s` with the pending
character `ch`, the tail phase starts at `suffix_idx = 0` with
exactly the packed `ch` — in particular, if that very first
`walk_char` probe fails, retrieve returns `none`. (The claimed
`store`-`retrieve` round trip itself is refuted by
`C1_counterexample`.) -/
theorem C1_retrieve_handoff {α : Type} (ro : ROTrie α) (key : List ℕ)
    (s : ℤ) (ch : ℕ) (rest : List ℕ) (tc : ℤ)
    (h : ro.retrieveDALoop ro.da.get_root ALPHA_CHAR_ERROR key =
      .ok (some (s, ch, rest)))
    (htc : ro.alpha_map.char_to_trie ch = some tc)
    (hwc : ro.tail.walk_char (ro.da.get_tail_index s) 0 ((tc % 256).toNat) =
      none) :
    ro.retrieve key = .ok none := by
  rw [ROTrie.retrieve]
  simp only [h]
  have htl : ro.retrieveTailLoop (ro.da.get_tail_index s) (ch :: rest) 0 =
      none := by
    simp only [ROTrie.retrieveTailLoop, htc, hwc]
  simp only [htl]

set_option maxRecDepth 10000 in
/-- C1, counterexample: over the 300-character alphabet `1..=300`
(accepted by `add_range`), every character of `wKey256 = [256, 7, 0]`
is in the alphabet and storing it succeeds with `true` — yet retrieve
returns `none`: character `256` packs to `TrieChar 0 =
TRIE_CHAR_TERM` under the `u8` cast, so `branch_in_branch` keeps the
branch symbol in the stored suffix while the retrieval walk consumes
its edge, and the first tail probe mismatches. -/
theorem C1_counterexample :
    wAm300.ranges = [(1, 300)] ∧
    (∀ c ∈ wKey256.dropLast, wAm300.char_to_trie c ≠ none) ∧
    wKey256.getLast? = some 0 ∧
    (Trie.new wAm300).store wKey256 5 = .ok (wT300, true) ∧
    wT300.retrieve wKey256 = .ok none := by decide

set_option maxRecDepth 10000 in
/-- Witness for the hand-off theorem on the concrete `wT300` and
`wKey256`: the double-array walk stops at the separate state `3`
holding the pending character `7`, whose packed probe at
`suffix_idx = 0` fails, and retrieve returns `none`. -/
theorem C1_witness :
    wT300.ro.retrieveDALoop wT300.ro.da.get_root ALPHA_CHAR_ERROR wKey256 =
      .ok (some (3, 7, [0])) ∧
    wT300.ro.alpha_map.char_to_trie 7 = some 7 ∧
    wT300.ro.tail.walk_char (wT300.ro.da.get_tail_index 3) 0
      (((7 : ℤ) % 256).toNat) = none ∧
    wT300.ro.retrieve wKey256 = .ok none :=
  ⟨by decide, by decide, by decide,
    C1_retrieve_handoff wT300.ro wKey256 3 7 [0] 7 (by decide) (by decide)
      (by decide)⟩

/-- C8: the iterator's descent is through the smallest child: at a
branch state (non-negative base), when the child scan of
`first_separate_loop` elects the symbol `c`, the loop continues
exactly through the cell `base + c`, `c` is a child of `root`, and no
smaller symbol is (`next_separate` runs the same scan shifted past
the current sibling, so it elects the next larger sibling). The
claimed full statement — every stored key yielded exactly once in
lexicographic order — is refuted by `C8_counterexample`. -/
theorem C8_first_separate_least (d : DArray) (root base mx : ℤ) (n : ℕ)
    (key : List ℕ) (c : ℕ)
    (hbase : (d.get_base root).getD TRIE_INDEX_ERROR = base) (h0 : 0 ≤ base)
    (hmx : mx = min (TRIE_CHAR_MAX : ℤ) ((d.cells.length : ℤ) - base))
    (hfind : (List.range (mx + 1).toNat).find?
      (fun k : ℕ => d.get_check (base + (k : ℤ)) = some root) = some c) :
    DArray.first_separate_loop (n + 1) d root key =
      DArray.first_separate_loop n d (base + (c : ℤ))
        (key ++ [((c : ℤ) % 256).toNat]) ∧
    d.get_check (base + (c : ℤ)) = some root ∧
    ∀ x : ℕ, x < c → d.get_check (base + (x : ℤ)) ≠ some root := by
  refine ⟨?_, ?_, ?_⟩
  · simp only [DArray.first_separate_loop]
    rw [hbase, if_pos h0, ← hmx, hfind]
  · rw [List.range_eq_range'] at hfind
    rw [List.find?_range'_eq_some] at hfind
    have h1 := hfind.1
    simpa using h1
  · intro x hx
    rw [List.range_eq_range'] at hfind
    rw [List.find?_range'_eq_some] at hfind
    have h3 := hfind.2.2 x (Nat.zero_le x) hx
    simpa using h3

set_option maxRecDepth 10000 in
/-- C8, counterexample: on the trie over the 300-character alphabet
holding exactly the stored key `wKey256 = [256, 7, 0]`, iteration
yields exactly one entry, whose key `[0, 0, 7, 0, 0]` is not the
stored key: character `256` packed to symbol `0`, which
`trie_to_char` unpacks back to `0`, so the stored key is never
yielded. -/
theorem C8_counterexample :
    (Trie.new wAm300).store wKey256 5 = .ok (wT300, true) ∧
    wT300.ro.iterAll 10 = .ok [([0, 0, 7, 0, 0], some 5)] ∧
    [0, 0, 7, 0, 0] ≠ wKey256 := by decide

set_option maxRecDepth 10000 in
/-- Witness for the least-child theorem on the double array of
`wT300`: at the root (base `3`, window `[0, 1]`), the scan elects the
symbol `0`, whose cell `3` is the root's child. -/
theorem C8_witness :
    (List.range 2).find?
        (fun k : ℕ => wT300.ro.da.get_check (3 + (k : ℤ)) = some 2) = some 0 ∧
    wT300.ro.da.get_check (3 + ((0 : ℕ) : ℤ)) = some 2 := by
  have happ := C8_first_separate_least wT300.ro.da 2 3 1 2 [] 0 (by decide)
    (by decide) (by decide) (by decide)
  exact ⟨by decide, happ.2.1⟩

end Datrie
